import Mathlib

/-!
# Directed weighted graph (graph.h / graph.cpp)

A shallow embedding of the `Graph` class: the adjacency map from labels to
head vertices, the per-vertex chain of edge nodes, the vertex and edge
operations, and the depth-first and breadth-first traversals.

Modelling conventions.

* `std::string` labels are Lean strings; `<` on Lean strings is the
  lexicographic order on characters, which is the order `std::string`
  uses on the UTF-8 bytes of the same text.
* `int` values (weights, edge counters) are integers; the counters only move
  by one per operation and never leave the `int` range on a graph that fits
  in memory.
* `std::map<const Label, Vertex*>` is a list of key/value pairs kept in
  ascending key order; a mutation through the stored pointer is a
  replacement of the stored value.
* A head vertex owns its chain of edge nodes (`next`); an edge node carries a
  target label and a weight. The `visited` flag and `edges` counter of an edge
  node, and the `label` and `weight` of a head vertex, are never read by any
  operation and are left out.
* The visitor of a traversal is modelled by the list of labels it receives.
* A lookup that fails in the source (`map.at` throwing, or `map[...]`
  creating a null entry that is then dereferenced) makes the embedded
  function return `none`; so does running out of loop fuel.
-/

namespace Graph

abbrev Label := String
abbrev Weight := Int

def NO_LABEL : Label := ""
def NO_WEIGHT : Weight := 0
def EMPTY : Int := 0
def COUNT : Int := 1
def COMMA : String := ","
def LEFT_P : String := "("
def RIGHT_P : String := ")"

/-- An edge node of an adjacency chain: target label and edge weight. -/
structure Edge where
  label : Label
  weight : Weight
deriving DecidableEq, Repr

/-- A head vertex: traversal mark, owned chain of edge nodes, edge counter. -/
structure Vertex where
  visited : Bool
  next : List Edge
  edges : Int
deriving DecidableEq, Repr

abbrev AdjacencyMap := List (Label × Vertex)

/-- Source `operator<` of `std::string`: lexicographic comparison, character by
character. -/
def labelLt (a b : Label) : Bool := decide (a.data < b.data)

end Graph

/-- The graph object: adjacency map and total edge counter. -/
structure Graph where
  map : Graph.AdjacencyMap
  edges : Int
deriving DecidableEq, Repr

namespace Graph

/-! ## The adjacency map -/

namespace AdjacencyMap

/-- Source `map.count(label)` -/
def count : AdjacencyMap → Label → Bool
  | [], _ => false
  | (k, _) :: m, label => if k = label then true else count m label

/-- Source `map.at(label)`; `none` when the key is absent. -/
def find? : AdjacencyMap → Label → Option Vertex
  | [], _ => none
  | (k, v) :: m, label => if k = label then some v else find? m label

/-- Insertion of a fresh key at its place in ascending key order. -/
def insert : AdjacencyMap → Label → Vertex → AdjacencyMap
  | [], label, v => [(label, v)]
  | (k, x) :: m, label, v =>
    if labelLt label k then (label, v) :: (k, x) :: m else (k, x) :: insert m label v

/-- Replacement of the vertex stored under an existing key. -/
def set : AdjacencyMap → Label → Vertex → AdjacencyMap
  | [], _, _ => []
  | (k, x) :: m, label, v =>
    if k = label then (k, v) :: m else (k, x) :: set m label v

/-- The keys in iteration order. -/
def keys (m : AdjacencyMap) : List Label := m.map Prod.fst

end AdjacencyMap

/-! ## Vertex operations -/

/-- The loop and insertion of `Vertex::connect` on the chain after `curr`. -/
def chainConnect (label : Label) (weight : Weight) : List Edge → Bool × List Edge
  | [] => (true, [⟨label, weight⟩])
  | e :: rest =>
    if labelLt e.label label then
      ((chainConnect label weight rest).1, e :: (chainConnect label weight rest).2)
    else if e.label ≠ label then (true, ⟨label, weight⟩ :: e :: rest)
    else (false, e :: rest)

/-- Source `Vertex::connect` -/
def Vertex.connect (v : Vertex) (label : Label) (weight : Weight) : Bool × Vertex :=
  let r := chainConnect label weight v.next
  (r.1, { v with next := r.2, edges := if r.1 then v.edges + 1 else v.edges })

/-- The loop and removal of `Vertex::disconnect` on the chain after `curr`. -/
def chainDisconnect (label : Label) : List Edge → Bool × List Edge
  | [] => (false, [])
  | e :: rest =>
    if e.label ≠ label then
      ((chainDisconnect label rest).1, e :: (chainDisconnect label rest).2)
    else (true, rest)

/-- Source `Vertex::disconnect` -/
def Vertex.disconnect (v : Vertex) (label : Label) : Bool × Vertex :=
  let r := chainDisconnect label v.next
  (r.1, { v with next := r.2, edges := if r.1 then v.edges - 1 else v.edges })

/-- Source `Vertex::getAdjacent`: the first edge node with the given label. -/
def Vertex.getAdjacent (v : Vertex) (label : Label) : Option Edge :=
  v.next.find? (fun e => e.label = label)

/-- Source `Vertex::toString` of an edge node. -/
def Edge.toString (e : Edge) : String :=
  e.label ++ LEFT_P ++ ToString.toString e.weight ++ RIGHT_P

/-- The loop of `Vertex::getEdges` from node `curr` on. -/
def chainGetEdges : List Edge → String
  | [] => ""
  | e :: rest =>
    (e.toString ++ if rest ≠ [] then COMMA else "") ++ chainGetEdges rest

/-- Source `Vertex::getEdges` -/
def Vertex.getEdges (v : Vertex) : String := chainGetEdges v.next

/-- Source `Vertex::numOfEdges` -/
def Vertex.numOfEdges (v : Vertex) : Int := v.edges

/-! ## Graph operations -/

/-- Source `Graph::Graph()` -/
def empty : Graph := ⟨[], EMPTY⟩

/-- Source `Graph::NumberOfVertices` -/
def NumberOfVertices (g : Graph) : Int := g.map.length

/-- Source `Graph::NumberOfEdges()` -/
def NumberOfEdges (g : Graph) : Int := g.edges

/-- Source `Graph::NumberOfEdges(label)` -/
def NumberOfEdgesOf (g : Graph) (label : Label) : Int :=
  match g.map.find? label with
  | some v => v.numOfEdges
  | none => EMPTY - COUNT

/-- Source `Graph::HasVertex` -/
def HasVertex (g : Graph) (label : Label) : Bool := g.map.count label

/-- Source `Graph::AddVertex`: the result flag and the graph afterwards. -/
def AddVertex (g : Graph) (label : Label) : Bool × Graph :=
  if !g.map.count label then
    (true, { g with map := g.map.insert label ⟨false, [], EMPTY⟩ })
  else (false, g)

/-- Source `Graph::GetEdges` -/
def GetEdges (g : Graph) (label : Label) : String :=
  match g.map.find? label with
  | some v => v.getEdges
  | none => ""

/-- Source `Graph::Connect`: the result flag and the graph afterwards (the
default weight of the source is `0`). The vertex under `label1` exists after
the two `AddVertex` calls; the last branch stands for the null dereference that
would follow otherwise. -/
def Connect (g : Graph) (label1 label2 : Label) (weight : Weight) : Bool × Graph :=
  if label1 ≠ label2 then
    let g1 := (g.AddVertex label1).2
    let g2 := (g1.AddVertex label2).2
    match g2.map.find? label1 with
    | some v =>
      let r := v.connect label2 weight
      (r.1, { map := g2.map.set label1 r.2,
              edges := g2.edges + if r.1 then COUNT else EMPTY })
    | none => (false, g2)
  else (false, g)

/-- Source `Graph::Disconnect`: the result flag and the graph afterwards. -/
def Disconnect (g : Graph) (label1 label2 : Label) : Bool × Graph :=
  if label1 ≠ label2 ∧ g.map.count label1 ∧ g.map.count label2 then
    match g.map.find? label1 with
    | some v =>
      let r := v.disconnect label2
      (r.1, { map := g.map.set label1 r.2,
              edges := g.edges - if r.1 then COUNT else EMPTY })
    | none => (false, g)
  else (false, g)

/-! ## Vocabulary of the specification -/

/-- The chain of edge nodes owned by the vertex `label` (empty when the label
is not a vertex). -/
def chain (g : Graph) (label : Label) : List Edge :=
  match g.map.find? label with
  | some v => v.next
  | none => []

/-- The target labels of the chain of `label`, in chain order. -/
def targets (g : Graph) (label : Label) : List Label :=
  (g.chain label).map Edge.label

/-- The graph has an edge from `a` to `b`. -/
def hasEdge (g : Graph) (a b : Label) : Prop := b ∈ g.targets a

instance (g : Graph) (a b : Label) : Decidable (g.hasEdge a b) := by
  unfold hasEdge; infer_instance

/-- The public mutating operations. -/
inductive Op where
  | addVertex (label : Label)
  | connect (label1 label2 : Label) (weight : Weight)
  | disconnect (label1 label2 : Label)
deriving DecidableEq, Repr

/-- The graph after one operation. -/
def apply (g : Graph) : Op → Graph
  | .addVertex label => (g.AddVertex label).2
  | .connect label1 label2 weight => (g.Connect label1 label2 weight).2
  | .disconnect label1 label2 => (g.Disconnect label1 label2).2

/-- The graph built from the empty graph by a sequence of operations. -/
def run (ops : List Op) : Graph := ops.foldl apply empty

/-- Every chain is strictly ascending by target label. -/
def ChainsSorted (g : Graph) : Prop :=
  ∀ p ∈ g.map, (p.2.next.map Edge.label).Pairwise (fun a b => labelLt a b = true)

instance (g : Graph) : Decidable g.ChainsSorted := by
  unfold ChainsSorted; infer_instance

/-- The head vertex that `Connect` works on: the stored one, or a fresh one. -/
def source (g : Graph) (a : Label) : Vertex :=
  match g.map.find? a with
  | some v => v
  | none => ⟨false, [], EMPTY⟩

/-- The keys of the adjacency map are strictly ascending. -/
def KeysSorted (g : Graph) : Prop :=
  g.map.keys.Pairwise (fun a b => labelLt a b = true)

instance (g : Graph) : Decidable g.KeysSorted := by
  unfold KeysSorted; infer_instance

/-- The sum of the per-vertex edge counters over the entries of a map. -/
def edgeSum (m : AdjacencyMap) : Int := (m.map (fun p => p.2.edges)).sum

/-- Decimal digits of a natural number. -/
def decimal (n : Nat) : String := String.mk (Nat.toDigits 10 n)

/-- Signed decimal rendering of an integer: a minus sign for a negative
value, then the digits of the magnitude. -/
def signedDecimal (w : Int) : String :=
  if w < 0 then "-" ++ decimal w.natAbs else decimal w.natAbs

/-- The rendering of one chain entry, in the spec's words: `target(weight)`. -/
def renderEntry (e : Edge) : String := e.label ++ "(" ++ signedDecimal e.weight ++ ")"

/-- The rendering of a chain, in the spec's words: the entries joined by single
commas, in chain order. -/
def renderChain (c : List Edge) : String := String.intercalate "," (c.map renderEntry)

/-! ## Traversals (source) -/

/-- Source `Vertex::isVisited` of the head vertex stored under `label`. -/
def isVisited (g : Graph) (label : Label) : Bool :=
  match g.map.find? label with
  | some v => v.visited
  | none => false

/-- Source `Vertex::setVisited` through the pointer stored under `label`. -/
def setVisited (g : Graph) (label : Label) (visited : Bool) : Graph :=
  match g.map.find? label with
  | some v => { g with map := g.map.set label { v with visited := visited } }
  | none => g

/-- The loop of `Graph::unvisitVertices` over the entries of the map. -/
def AdjacencyMap.unvisit (m : AdjacencyMap) : AdjacencyMap :=
  m.map (fun p => (p.1, { p.2 with visited := false }))

/-- Source `Graph::unvisitVertices`. -/
def unvisitVertices (g : Graph) : Graph := { g with map := g.map.unvisit }

/-- Source `Graph::nextVertex`, from edge node `curr` on: the label of the
first target whose head vertex is unvisited (the returned pointer is the head
stored under that label), `some none` for the null pointer, `none` when
`map.at` throws. -/
def nextVertex (g : Graph) : List Edge → Option (Option Label)
  | [] => some none
  | e :: rest =>
    match g.map.find? e.label with
    | none => none
    | some temp => if !temp.visited then some (some e.label) else nextVertex g rest

/-- Source `Graph::nextLabel`: the returned label and the graph afterwards. -/
def nextLabel (g : Graph) (label : Label) : Option (Label × Graph) :=
  match g.map.find? label with
  | none => none
  | some curr =>
    match (if curr.visited then nextVertex g curr.next else some (some label)) with
    | none => none
    | some none => some (NO_LABEL, g)
    | some (some l) => some (l, g.setVisited l true)

/-- Source `Graph::dfs`: one unit of fuel per test of the loop condition; the
stack has its top first; `out` collects the labels passed to the visitor. -/
def dfs : Nat → Graph → List Label → List Label → Option (Graph × List Label)
  | 0, _, _, _ => none
  | _ + 1, g, [], out => some (g, out)
  | fuel + 1, g, top :: rest, out =>
    match nextLabel g top with
    | none => none
    | some (next, g1) =>
      if next ≠ NO_LABEL then dfs fuel g1 (next :: top :: rest) (out ++ [next])
      else dfs fuel g1 rest out

/-- Source `Graph::DFS`: the graph afterwards and the labels passed to the
visitor, in call order. -/
def DFS (fuel : Nat) (g : Graph) (label : Label) : Option (Graph × List Label) :=
  if g.map.count label then
    match dfs fuel g [label] [] with
    | none => none
    | some (g1, out) => some (g1.unvisitVertices, out)
  else some (g, [])

/-- Source `Graph::addUnvisited`, from edge node `curr` on; the queue has its
front first. -/
def addUnvisited (g : Graph) (q : List Label) : List Edge → Option (Graph × List Label)
  | [] => some (g, q)
  | e :: rest =>
    match g.map.find? e.label with
    | none => none
    | some temp =>
      if !temp.visited then addUnvisited (g.setVisited e.label true) (q ++ [e.label]) rest
      else addUnvisited g q rest

/-- Source `Graph::bfs`: one unit of fuel per test of the loop condition. -/
def bfs : Nat → Graph → List Label → List Label → Option (Graph × List Label)
  | 0, _, _, _ => none
  | _ + 1, g, [], out => some (g, out)
  | fuel + 1, g, front :: q, out =>
    match g.map.find? front with
    | none => none
    | some next =>
      match addUnvisited g q next.next with
      | none => none
      | some (g1, q1) => bfs fuel g1 q1 (out ++ [front])

/-- Source `Graph::BFS`: the graph afterwards and the labels passed to the
visitor, in call order. -/
def BFS (fuel : Nat) (g : Graph) (label : Label) : Option (Graph × List Label) :=
  if g.map.count label then
    match bfs fuel (g.setVisited label true) [label] [] with
    | none => none
    | some (g1, out) => some (g1.unvisitVertices, out)
  else some (g, [])

/-! ## Invariants the traversals rely on -/

/-- Every target label of every chain is a key of the map. -/
def Closed (g : Graph) : Prop :=
  ∀ p ∈ g.map, ∀ e ∈ p.2.next, g.map.count e.label = true

instance (g : Graph) : Decidable g.Closed := by
  unfold Closed; infer_instance

/-- Every visited mark is clear. -/
def Unvisited (g : Graph) : Prop := ∀ p ∈ g.map, p.2.visited = false

instance (g : Graph) : Decidable g.Unvisited := by
  unfold Unvisited; infer_instance

/-- The graph `g` is `g0` with exactly the labels of `s` marked visited. -/
def Marked (g0 g : Graph) (s : List Label) : Prop :=
  g.map.unvisit = g0.map.unvisit ∧ g.edges = g0.edges ∧
    ∀ l, g.isVisited l = true ↔ l ∈ s

/-- A vertex `v` is reachable from `o` along edges of the graph. -/
def Reachable (g : Graph) (o v : Label) : Prop :=
  Relation.ReflTransGen (fun a b => g.hasEdge a b) o v

/-! ## List-level forms of the traversal loops -/

/-- The queue after `addUnvisited` when the visited labels are those of `done`
and of the queue: every target seen for the first time is appended. -/
def enqueueNew (done : List Label) : List Label → List Label → List Label
  | q, [] => q
  | q, t :: ts =>
    if t ∈ done ∨ t ∈ q then enqueueNew done q ts else enqueueNew done (q ++ [t]) ts

/-- The loop of `bfs` on the queue and the visitor trace alone. -/
def bfsLists (succ : Label → List Label) : Nat → List Label → List Label → Option (List Label)
  | 0, _, _ => none
  | _ + 1, [], out => some out
  | fuel + 1, front :: q, out =>
    bfsLists succ fuel (enqueueNew (out ++ [front]) q (succ front)) (out ++ [front])

/-- The trace and queue hold only reachable labels, hold the origin, and hold
every target of every label of the trace. -/
def BfsReach (g : Graph) (o : Label) (out q : List Label) : Prop :=
  (∀ x ∈ out ++ q, g.Reachable o x) ∧
    (∀ u ∈ out, ∀ t ∈ g.targets u, t ∈ out ++ q) ∧ o ∈ out ++ q

/-! ## Hop distance and the order of the breadth-first trace -/

/-- A walk of `n` edges from `o` to `v`. -/
def Walk (g : Graph) (o : Label) : Nat → Label → Prop
  | 0, v => v = o
  | n + 1, v => ∃ u, Walk g o n u ∧ g.hasEdge u v

/-- The hop distance from `o` to `v` is `k`: some walk has `k` edges and no
walk has fewer. -/
def HopDistance (g : Graph) (o v : Label) (k : Nat) : Prop :=
  g.Walk o k v ∧ ∀ m, g.Walk o m v → k ≤ m

/-- The order "`x` is not farther from `o` than `y`". -/
def NotFarther (g : Graph) (o x y : Label) : Prop :=
  ∀ kx ky, g.HopDistance o x kx → g.HopDistance o y ky → kx ≤ ky

/-- The level invariant of the breadth-first loop: the trace followed by the
queue starts with the origin, is in order of hop distance, and no label in it is
more than one hop farther than a queued label. -/
def BfsLevels (g : Graph) (o : Label) (out q : List Label) : Prop :=
  (∀ u ∈ out, ∀ t ∈ g.targets u, t ∈ out ++ q) ∧ o ∈ out ++ q ∧
    (∀ x ∈ out ++ q, ∃ k, g.HopDistance o x k) ∧
    (out ++ q).Pairwise (g.NotFarther o) ∧
    (∀ y ∈ q, ∀ x ∈ out ++ q, ∀ kx ky,
      g.HopDistance o x kx → g.HopDistance o y ky → kx ≤ ky + 1) ∧
    (out ++ q).head? = some o

/-- The discoverer of `x` in a trace: the first label of the trace that has
an edge to `x`. -/
def discoverer (g : Graph) (out : List Label) (x : Label) : Option Label :=
  out.find? (fun u => decide (g.hasEdge u x))

/-- The order of two discovered labels: the discoverer of the first comes
earlier in the trace, or they share the discoverer and their labels ascend. -/
def DiscoveryOrder (g : Graph) (o : Label) (out : List Label) (x y : Label) : Prop :=
  x ≠ o → y ≠ o → ∀ p q, g.discoverer out x = some p → g.discoverer out y = some q →
    [p, q].Sublist out ∨ (p = q ∧ labelLt x y = true)

/-- The ordering invariant of the breadth-first loop. -/
def BfsOrder (g : Graph) (o : Label) (out q : List Label) : Prop :=
  (out ++ q).Nodup ∧ (∀ u ∈ out, ∀ t ∈ g.targets u, t ∈ out ++ q) ∧ o ∈ out ++ q ∧
    (∀ x ∈ out ++ q, x ≠ o → ∃ p, g.discoverer out x = some p) ∧
    (out ++ q).Pairwise (g.DiscoveryOrder o out)

/-- The graph `A -> B, A -> C, B -> E, C -> D`. -/
def levelExample : Graph :=
  run [.connect "A" "B" 0, .connect "A" "C" 0, .connect "B" "E" 0, .connect "C" "D" 0]

/-! ## Depth-first search: list-level loop and recursive specification -/

/-- The first label of a list that is not in `seen`. -/
def firstUnseen (seen : List Label) : List Label → Option Label
  | [] => none
  | t :: ts => if t ∈ seen then firstUnseen seen ts else some t

/-- The loop of `dfs` on the stack and the visitor trace alone, for a graph
without a vertex of the empty label: the visited labels are then those of the
trace. -/
def dfsLists (succ : Label → List Label) : Nat → List Label → List Label → Option (List Label)
  | 0, _, _ => none
  | _ + 1, [], out => some out
  | fuel + 1, top :: rest, out =>
    if top ∈ out then
      match firstUnseen out (succ top) with
      | some w => dfsLists succ fuel (w :: top :: rest) (out ++ [w])
      | none => dfsLists succ fuel rest out
    else dfsLists succ fuel (top :: top :: rest) (out ++ [top])

/-- Recursive depth-first search, in the spec's words: a vertex not yet seen
is visited (appended to the pre-order), then the search recurses into each of
its successors in the given order. The first argument bounds the recursion
depth. -/
def recDFS (succ : Label → List Label) : Nat → Label → List Label → List Label
  | 0, _, seen => seen
  | d + 1, v, seen =>
    if v ∈ seen then seen
    else (succ v).foldl (fun acc w => recDFS succ d w acc) (seen ++ [v])

/-- The recursion of `recDFS` into a list of successors. -/
def exploreAll (succ : Label → List Label) (d : Nat) (ts seen : List Label) : List Label :=
  ts.foldl (fun acc w => recDFS succ d w acc) seen

/-- The target labels of a vertex in ascending label order. -/
def ascendingTargets (g : Graph) (v : Label) : List Label :=
  (g.targets v).insertionSort (fun a b => labelLt b a = false)

/-- The pre-order of the recursive depth-first search from `o` that explores
the outgoing edges of each vertex in ascending target-label order. -/
def recursivePreorder (g : Graph) (depth : Nat) (o : Label) : List Label :=
  recDFS g.ascendingTargets depth o []

/-- The graph `A -> B, B -> "", B -> C`. -/
def emptyLabelExample : Graph :=
  run [.connect "A" "B" 0, .connect "B" "" 0, .connect "B" "C" 0]

/-- The reachability invariant of the depth-first loop: trace and stack hold
only reachable labels, the origin is in one of them, and every label of the
trace is still on the stack or has all its targets in the trace. -/
def DfsReach (g : Graph) (o : Label) (stack out : List Label) : Prop :=
  (∀ x ∈ out, g.Reachable o x) ∧ (∀ x ∈ stack, g.Reachable o x) ∧
    (o ∈ out ∨ o ∈ stack) ∧
    (∀ u ∈ out, u ∈ stack ∨ ∀ t ∈ g.targets u, t ∈ out)

/-- The graph after a sequence of operations, starting from `g`. -/
def applyAll (g : Graph) (ops : List Op) : Graph := ops.foldl apply g

/-- The number of keys of `g0` that are not in `s`: the vertices still
unvisited when exactly the labels of `s` are marked. -/
def unvisitedCount (g0 : Graph) (s : List Label) : Nat :=
  (g0.map.keys.filter (fun l => decide (l ∉ s))).length

/-! ## Dijkstra (source) -/

/-- The largest `int`, used by the source as "infinite" distance and as "no
edge found". -/
def INT_MAX : Int := 2147483647

/-- Addition of two `int` values, wrapped to 32 bits in two's complement. -/
def addInt (a b : Int) : Int := (a + b + 2147483648) % 4294967296 - 2147483648

/-- A `std::map` from labels to values, as key/value pairs in ascending key
order. -/
abbrev LabelMap (α : Type) := List (Label × α)

abbrev WeightMap := LabelMap Weight
abbrev PrevMap := LabelMap Label

namespace LabelMap

/-- The value stored under a key, if any. -/
def lookup {α : Type} : LabelMap α → Label → Option α
  | [], _ => none
  | (k, v) :: m, label => if k = label then some v else lookup m label

/-- Source `map.count(label)`. -/
def contains {α : Type} (m : LabelMap α) (label : Label) : Bool := (lookup m label).isSome

/-- The assignment `m[label] = v`: the value under an existing key is
replaced, a fresh key is put at its place in ascending key order. -/
def assign {α : Type} : LabelMap α → Label → α → LabelMap α
  | [], label, v => [(label, v)]
  | (k, x) :: m, label, v =>
    if k = label then (k, v) :: m
    else if labelLt label k then (label, v) :: (k, x) :: m
    else (k, x) :: assign m label v

/-- Source `map.erase(label)`. -/
def erase {α : Type} (m : LabelMap α) (label : Label) : LabelMap α :=
  m.filter (fun p => decide (p.1 ≠ label))

/-- The keys in iteration order. -/
def keys {α : Type} (m : LabelMap α) : List Label := m.map Prod.fst

/-- The value read by the expression `m[label]` of a weight map: the stored
value, or the default `0` that `operator[]` inserts for a missing key. -/
def read (m : LabelMap Weight) (label : Label) : Weight :=
  match lookup m label with
  | some v => v
  | none => 0

/-- The weight map after the expression `m[label]` has been evaluated: a
missing key has been inserted with the default `0`. -/
def touch (m : LabelMap Weight) (label : Label) : LabelMap Weight :=
  if contains m label then m else assign m label 0

end LabelMap

/-- The first loop of `Graph::initMaps`, from edge node `curr` on. -/
def initNeighbors (label : Label) : List Edge → WeightMap → PrevMap → WeightMap × PrevMap
  | [], wMap, pMap => (wMap, pMap)
  | e :: rest, wMap, pMap =>
    initNeighbors label rest (wMap.assign e.label e.weight) (pMap.assign e.label label)

/-- The second loop of `Graph::initMaps`, over the keys of the adjacency map. -/
def initOthers : List Label → WeightMap → WeightMap
  | [], wMap => wMap
  | k :: ks, wMap =>
    initOthers ks (if !wMap.contains k then wMap.assign k INT_MAX else wMap)

/-- Source `Graph::initMaps`. -/
def initMaps (g : Graph) (curr : List Edge) (label : Label) (wMap : WeightMap)
    (pMap : PrevMap) : WeightMap × PrevMap :=
  ((initOthers g.map.keys (initNeighbors label curr wMap pMap).1),
    (initNeighbors label curr wMap pMap).2)

/-- The loop of `Graph::nextSmallest` over the remaining entries of the weight
map: `some (some l)` for the head vertex stored under `l`, `some none` for the
null pointer, `none` when `map.at` throws. The set of settled vertices is
given by their labels. -/
def nextSmallestLoop (g : Graph) (set : List Label) :
    WeightMap → Option Label → Weight → Option (Option Label)
  | [], next, _ => some next
  | (k, d) :: rest, next, smallest =>
    match g.map.find? k with
    | none => none
    | some _ =>
      if k ∉ set ∧ d < smallest then nextSmallestLoop g set rest (some k) d
      else nextSmallestLoop g set rest next smallest

/-- Source `Graph::nextSmallest`. -/
def nextSmallest (g : Graph) (set : List Label) (wMap : WeightMap) : Option (Option Label) :=
  nextSmallestLoop g set wMap none INT_MAX

/-- Source `Graph::update`; `pair` is the copy of the entry of the weight map
made by the loop of `dijkstra`. -/
def update (curr : Vertex) (pair : Label × Weight) (label : Label) (wMap : WeightMap)
    (pMap : PrevMap) : WeightMap × PrevMap :=
  match curr.getAdjacent pair.1 with
  | none => (wMap, pMap)
  | some adjacent =>
    if addInt ((wMap.touch label).read label) adjacent.weight < pair.2 then
      ((wMap.touch label).assign pair.1 (addInt ((wMap.touch label).read label) adjacent.weight),
        pMap.assign pair.1 label)
    else (wMap.touch label, pMap)

/-- The inner loop of `Graph::dijkstra` over the keys of the weight map; each
round copies the current entry of its key. -/
def relaxLoop (g : Graph) (set : List Label) (curr : Vertex) (currLabel : Label) :
    List Label → WeightMap → PrevMap → Option (WeightMap × PrevMap)
  | [], wMap, pMap => some (wMap, pMap)
  | k :: ks, wMap, pMap =>
    match g.map.find? k with
    | none => none
    | some _ =>
      if k ∉ set then
        relaxLoop g set curr currLabel ks
          (update curr (k, wMap.read k) currLabel wMap pMap).1
          (update curr (k, wMap.read k) currLabel wMap pMap).2
      else relaxLoop g set curr currLabel ks wMap pMap

/-- Source `Graph::dijkstra`: one unit of fuel per test of the loop condition. -/
def dijkstra (g : Graph) : Nat → List Label → WeightMap → PrevMap → Option (WeightMap × PrevMap)
  | 0, _, _, _ => none
  | fuel + 1, set, wMap, pMap =>
    match nextSmallest g set wMap with
    | none => none
    | some none => some (wMap, pMap)
    | some (some currLabel) =>
      match g.map.find? currLabel with
      | none => none
      | some curr =>
        match relaxLoop g set curr currLabel wMap.keys wMap pMap with
        | none => none
        | some (w1, p1) => dijkstra g fuel (set ++ [currLabel]) w1 p1

/-- Source `Graph::cleanWeights`, over the keys of the adjacency map. -/
def cleanWeights : List Label → WeightMap → WeightMap
  | [], wMap => wMap
  | k :: ks, wMap =>
    cleanWeights ks
      (if wMap.read k = INT_MAX ∨ wMap.read k = NO_WEIGHT then wMap.erase k else wMap)

/-- Source `Graph::Dijkstra`: the weight map and the predecessor map afterwards;
`none` for the null dereference when the label is not a vertex. -/
def Dijkstra (fuel : Nat) (g : Graph) (label : Label) (wMap : WeightMap) (pMap : PrevMap) :
    Option (WeightMap × PrevMap) :=
  match g.map.find? label with
  | none => none
  | some curr =>
    match dijkstra g fuel [label]
        (initMaps g curr.next label (wMap.assign label NO_WEIGHT) pMap).1
        (initMaps g curr.next label (wMap.assign label NO_WEIGHT) pMap).2 with
    | none => none
    | some (w, p) => some (cleanWeights g.map.keys w, p)

/-! ## Shortest paths (specification) -/

/-- The total weights of the directed paths from `o`: `PathWeight g o v d`
says that some path from `o` to `v` has total weight `d`. -/
inductive PathWeight (g : Graph) (o : Label) : Label → Int → Prop
  | nil : PathWeight g o o 0
  | snoc {u : Label} {d : Int} (e : Edge) :
      PathWeight g o u d → e ∈ g.chain u → PathWeight g o e.label (d + e.weight)

/-- The directed paths from `o` without a repeated vertex:
`SimplePath g o l v d` says that the path through the distinct vertices `l`
(latest first) leads from `o` to `v` with total weight `d`. -/
inductive SimplePath (g : Graph) (o : Label) : List Label → Label → Int → Prop
  | nil : SimplePath g o [o] o 0
  | snoc {l : List Label} {u : Label} {d : Int} (e : Edge) :
      SimplePath g o l u d → e ∈ g.chain u → e.label ∉ l →
      SimplePath g o (e.label :: l) e.label (d + e.weight)

/-- The number `d` is the minimum total weight over all directed paths from
`o` to `v`: a path without repeated vertex has weight `d`, and no path, with or
without repeated vertices, is lighter. -/
def IsShortest (g : Graph) (o v : Label) (d : Int) : Prop :=
  (∃ l, g.SimplePath o l v d) ∧ ∀ d', g.PathWeight o v d' → d ≤ d'

/-- Every edge weight is non-negative. -/
def NonNegative (g : Graph) : Prop := ∀ p ∈ g.map, ∀ e ∈ p.2.next, 0 ≤ e.weight

instance (g : Graph) : Decidable g.NonNegative := by
  unfold NonNegative; infer_instance

/-- No vertex has an edge to itself. -/
def NoSelfLoops (g : Graph) : Prop := ∀ p ∈ g.map, ∀ e ∈ p.2.next, e.label ≠ p.1

instance (g : Graph) : Decidable g.NoSelfLoops := by
  unfold NoSelfLoops; infer_instance

/-- Every path from `o` without a repeated vertex has a total weight below
`INT_MAX`. -/
def PathsBelowMax (g : Graph) (o : Label) : Prop :=
  ∀ l v d, g.SimplePath o l v d → d < INT_MAX

/-- The value of an entry after `update` against the vertex `curr` with
distance `du`. -/
def relaxedValue (curr : Vertex) (du : Weight) (set : List Label) (k : Label) (x : Weight) :
    Weight :=
  if k ∈ set then x
  else match curr.getAdjacent k with
    | none => x
    | some e => if addInt du e.weight < x then addInt du e.weight else x

/-- Whether `update` against the vertex `curr` with distance `du` replaces the
entry of `k` with value `x`. -/
def improves (curr : Vertex) (du : Weight) (set : List Label) (k : Label) (x : Weight) : Bool :=
  decide (k ∉ set) &&
    match curr.getAdjacent k with
    | none => false
    | some e => decide (addInt du e.weight < x)

/-- The structural invariant of the loop of `dijkstra` from origin `o`: both
maps have ascending keys, the weight map has exactly the keys of the graph, the
settled labels are distinct vertices and include the origin, the origin has
distance `0` and no predecessor, and a distance other than `INT_MAX` belongs to
a reachable vertex. -/
def DijkstraShape (g : Graph) (o : Label) (set : List Label) (w : WeightMap) (p : PrevMap) :
    Prop :=
  w.keys.Pairwise (fun a b => labelLt a b = true) ∧
    p.keys.Pairwise (fun a b => labelLt a b = true) ∧
    (∀ k, w.contains k = g.map.count k) ∧
    o ∈ set ∧ set.Nodup ∧ (∀ k ∈ set, g.map.count k = true) ∧
    w.read o = 0 ∧ p.lookup o = none ∧
    (∀ v, w.contains v = true → w.read v ≠ INT_MAX → g.Reachable o v)

/-- The distance invariant of the loop of `dijkstra` for non-negative
weights. -/
def DijkstraDist (g : Graph) (o : Label) (set : List Label) (w : WeightMap) (p : PrevMap) :
    Prop :=
  (∀ v ∈ set, (∃ l, g.SimplePath o l v (w.read v) ∧ ∀ x ∈ l, x ∈ set) ∧
      ∀ d, g.PathWeight o v d → w.read v ≤ d) ∧
    (∀ u ∈ set, ∀ e ∈ g.chain u, e.label ∉ set → w.read e.label ≤ w.read u + e.weight) ∧
    (∀ v u, p.lookup v = some u →
      u ∈ set ∧ ∃ e ∈ g.chain u, e.label = v ∧ w.read v = w.read u + e.weight) ∧
    (∀ v, w.contains v = true → v ∉ set → w.read v ≠ INT_MAX → ∃ u, p.lookup v = some u)

/-- The key `k` is the choice of `nextSmallest`: an unsettled key of the
weight map with the least distance, which is below `INT_MAX`. -/
def Chosen (set : List Label) (w : WeightMap) (k : Label) : Prop :=
  w.contains k = true ∧ k ∉ set ∧ w.read k < INT_MAX ∧
    ∀ v, w.contains v = true → v ∉ set → w.read k ≤ w.read v

/-- The maps `w1`, `p1` are `w`, `p` after the relaxation loop against the
vertex `curr` stored under `u`. -/
def Relaxed (curr : Vertex) (u : Label) (set : List Label) (w : WeightMap) (p : PrevMap)
    (w1 : WeightMap) (p1 : PrevMap) : Prop :=
  (∀ v, w1.contains v = w.contains v) ∧
    (∀ v, w1.read v =
      if w.contains v = true then relaxedValue curr (w.read u) set v (w.read v) else w.read v) ∧
    (∀ v, p1.lookup v =
      if w.contains v = true ∧ improves curr (w.read u) set v (w.read v) = true then some u
      else p.lookup v) ∧
    w1.keys.Pairwise (fun a b => labelLt a b = true) ∧
    p1.keys.Pairwise (fun a b => labelLt a b = true)


/-- The operations that build the graph of the edge list `A-B:1, A-C:8, B-C:3`. -/
def graph0Ops : List Op := [.connect "A" "B" 1, .connect "A" "C" 8, .connect "B" "C" 3]

/-- The operations that build a graph with zero-weight edges: `A-B:0, B-C:0,
A-D:5`. -/
def zeroWeightOps : List Op := [.connect "A" "B" 0, .connect "B" "C" 0, .connect "A" "D" 5]

/-! ## Minimum spanning tree -/

/-- Source `Graph::SumOfEdges`: the running `int` total of the weights of every
chain, in map order and chain order. -/
def SumOfEdges (g : Graph) : Weight :=
  g.map.foldl (fun sum p => p.2.next.foldl (fun s e => addInt s e.weight) sum) NO_WEIGHT

/-- The inner loop of `Graph::nextMinEdge` over the chain of the visited head
stored under `head`, from edge node `tempNext` on: the pair `(label, next)` set
so far and `minWeight`; `none` for the null dereference when a target label is
no key of the map. The second test of the `&&` runs only after the first. -/
def scanChain (g : Graph) (head : Label) :
    List Edge → Option (Label × Edge) → Weight → Option (Option (Label × Edge) × Weight)
  | [], best, minWeight => some (best, minWeight)
  | tempNext :: rest, best, minWeight =>
    if tempNext.weight < minWeight then
      match g.map.find? tempNext.label with
      | none => none
      | some target =>
        if !target.visited then scanChain g head rest (some (head, tempNext)) tempNext.weight
        else scanChain g head rest best minWeight
    else scanChain g head rest best minWeight

/-- The outer loop of `Graph::nextMinEdge` over the entries of the map: only the
chains of visited heads are scanned. -/
def scanMap (g : Graph) :
    AdjacencyMap → Option (Label × Edge) → Weight → Option (Option (Label × Edge) × Weight)
  | [], best, minWeight => some (best, minWeight)
  | (label, temp) :: rest, best, minWeight =>
    if temp.visited then
      match scanChain g label temp.next best minWeight with
      | none => none
      | some (best1, minWeight1) => scanMap g rest best1 minWeight1
    else scanMap g rest best minWeight

/-- Source `Graph::nextMinEdge`: the graph afterwards and the pair
`(label, next)` of the chosen edge, `some (g, none)` when `curr` is set to the
null pointer, `none` for a null dereference. The values of `curr`, `next` and
`label` on entry are never read: the scan overwrites them whenever `minWeight`
leaves `INT_MAX`. -/
def nextMinEdge (g : Graph) : Option (Graph × Option (Label × Edge)) :=
  match scanMap g g.map none INT_MAX with
  | none => none
  | some (best, minWeight) =>
    if minWeight ≠ INT_MAX then
      match best with
      | none => none
      | some (label, next) =>
        match ((g.setVisited label true).map.find? next.label) with
        | none => none
        | some _ => some ((g.setVisited label true).setVisited next.label true, some (label, next))
    else some (g, none)

/-- The loop of `Graph::MinSpanningTree`: the source graph and the tree
afterwards; one unit of fuel per iteration. -/
def mstLoop : Nat → Graph → Graph → Option (Graph × Graph)
  | 0, _, _ => none
  | fuel + 1, g, mst =>
    match nextMinEdge g with
    | none => none
    | some (g1, none) => some (g1.unvisitVertices, mst)
    | some (g1, some (currLabel, next)) =>
      mstLoop fuel g1 (mst.Connect currLabel next.label next.weight).2

/-- Source `Graph::MinSpanningTree`: the source graph afterwards and the
returned tree; `none` for the null dereference when the label is not a
vertex. -/
def MinSpanningTree (fuel : Nat) (g : Graph) (label : Label) : Option (Graph × Graph) :=
  match g.map.find? label with
  | none => none
  | some _ => mstLoop fuel (g.setVisited label true) (empty.AddVertex label).2


/-! ## Spanning trees (specification) -/

/-- The vertices of the tree from `o` with the edges `P`, the origin first. -/
def treeVertices (o : Label) (P : List (Label × Edge)) : List Label :=
  o :: P.map (fun q => q.2.label)

/-- The calls by which `MinSpanningTree` builds its result from the edges `P`
chosen in turn. -/
def treeOps (o : Label) (P : List (Label × Edge)) : List Op :=
  .addVertex o :: P.map (fun q => .connect q.1 q.2.label q.2.weight)

/-- The total weight of a list of edges given with their source labels. -/
def treeWeight (P : List (Label × Edge)) : Int := (P.map (fun q => q.2.weight)).sum

/-- The edge `e` of `u` leaves the set `S`. -/
def Frontier (g : Graph) (S : List Label) (u : Label) (e : Edge) : Prop :=
  u ∈ S ∧ e ∈ g.chain u ∧ e.label ∉ S

/-- The edge `e` of `u` is the choice of `nextMinEdge`: an edge leaving `S`
of least weight, which is below `INT_MAX`. -/
def Picked (g : Graph) (S : List Label) (u : Label) (e : Edge) : Prop :=
  Frontier g S u e ∧ e.weight < INT_MAX ∧ ∀ u' e', Frontier g S u' e' → e.weight ≤ e'.weight

/-- The lists of edges that grow a tree from `o`: each edge leaves the
vertices of the tree before it. -/
inductive PrimTree (g : Graph) (o : Label) : List (Label × Edge) → Prop
  | nil : PrimTree g o []
  | snoc {P : List (Label × Edge)} (u : Label) (e : Edge) :
      PrimTree g o P → Frontier g (treeVertices o P) u e → PrimTree g o (P ++ [(u, e)])

/-- The exact sum of the weights of all edges of a map. -/
def weightTotal (m : AdjacencyMap) : Int :=
  (m.map (fun p => (p.2.next.map Edge.weight).sum)).sum

/-- Every edge weight is below `INT_MAX`. -/
def WeightsBelowMax (g : Graph) : Prop := ∀ p ∈ g.map, ∀ e ∈ p.2.next, e.weight < INT_MAX

instance (g : Graph) : Decidable g.WeightsBelowMax := by
  unfold WeightsBelowMax; infer_instance

/-- The list of edges `T` has an edge from `a` to `b`. -/
def TreeStep (T : List (Label × Edge)) (a b : Label) : Prop :=
  ∃ q ∈ T, q.1 = a ∧ q.2.label = b

/-- The operations that build a graph with one edge of weight `INT_MAX`. -/
def maxWeightOps : List Op := [.connect "A" "B" 2147483647]

/-- The list of edges `T` has an edge between `a` and `b`, in either
direction. -/
def UStep (T : List (Label × Edge)) (a b : Label) : Prop := TreeStep T a b ∨ TreeStep T b a

/-- The list `T` is a spanning tree of the set reachable from `o`, rooted at
`o`: a set of edges of the graph that gives each reachable vertex other than
`o` exactly one incoming edge, gives no other vertex an incoming edge, and
holds a path from `o` to each reachable vertex. -/
def IsSpanningTree (g : Graph) (o : Label) (T : List (Label × Edge)) : Prop :=
  (∀ q ∈ T, q.2 ∈ g.chain q.1) ∧
    (T.map (fun q => q.2.label)).Nodup ∧
    (∀ v, v ∈ T.map (fun q => q.2.label) ↔ g.Reachable o v ∧ v ≠ o) ∧
    (∀ v, g.Reachable o v → Relation.ReflTransGen (TreeStep T) o v)

/-- Every edge has a reverse edge of the same weight. -/
def Symmetric (g : Graph) : Prop :=
  ∀ p ∈ g.map, ∀ e ∈ p.2.next, (⟨p.1, e.weight⟩ : Edge) ∈ g.chain e.label

instance (g : Graph) : Decidable g.Symmetric := by
  unfold Symmetric; infer_instance

/-- The list `T` of edges of the graph joins every vertex reachable from `o`
to `o`, the direction of the edges left aside. -/
def Connects (g : Graph) (o : Label) (T : List (Label × Edge)) : Prop :=
  (∀ q ∈ T, q.2 ∈ g.chain q.1) ∧ ∀ y, g.Reachable o y → Relation.ReflTransGen (UStep T) o y

/-- The edges `P` chosen so far can be completed without loss: every
connecting list of edges can be traded for one that holds `P`, is as long and
weighs no more. -/
def Promising (g : Graph) (o : Label) (P : List (Label × Edge)) : Prop :=
  ∀ T, Connects g o T →
    ∃ T1, Connects g o T1 ∧ T1.length = T.length ∧ treeWeight T1 ≤ treeWeight T ∧
      ∀ q ∈ P, q ∈ T1

/-- The operations that build the directed graph `A-B:2, A-C:3, C-B:1`. -/
def greedyOps : List Op := [.connect "A" "B" 2, .connect "A" "C" 3, .connect "C" "B" 1]

/-- The operations that build the symmetric triangle `A-B:1, B-C:2, A-C:3`. -/
def triangleOps : List Op :=
  [.connect "A" "B" 1, .connect "B" "A" 1, .connect "B" "C" 2, .connect "C" "B" 2,
    .connect "A" "C" 3, .connect "C" "A" 3]

/-! ## Counters and sums (specification) -/

/-- The edge counter of every vertex is the length of its chain. -/
def Counted (g : Graph) : Prop := ∀ p ∈ g.map, p.2.edges = p.2.next.length

instance (g : Graph) : Decidable g.Counted := by
  unfold Counted; infer_instance

/-- The operations that build the graph `A-B:2, A-C:3, C-B:-2`, which has an
edge of negative weight. -/
def negativeOps : List Op := [.connect "A" "B" 2, .connect "A" "C" 3, .connect "C" "B" (-2)]


/-! ## File loading (source) -/

/-- Source `Graph::clear`: every chain and every vertex is released, the map
is emptied and the edge total reset. -/
def clear (_g : Graph) : Graph := { map := [], edges := EMPTY }

/-- The state of the `std::ifstream` while it is read: the characters not yet
consumed, and whether the stream is still good (no extraction has failed). -/
structure InStream where
  rest : List Char
  good : Bool
deriving DecidableEq, Repr

/-- Whitespace as the stream skips it before a formatted extraction: the space
and the control characters tab, line feed, vertical tab, form feed and
carriage return. -/
def isSpace (c : Char) : Bool := decide (c.toNat = 32) || (decide (9 ≤ c.toNat) && decide (c.toNat ≤ 13))

/-- A decimal digit. -/
def isDigit (c : Char) : Bool := decide (48 ≤ c.toNat) && decide (c.toNat ≤ 57)

/-- The value of a run of decimal digits. -/
def digitsValue (ds : List Char) : Int := ds.foldl (fun acc c => acc * 10 + (c.toNat - 48 : Nat)) 0

/-- The library extraction `file >> c` into a `char`: leading whitespace is
skipped and one character is stored; at the end of the input, and on a stream
that is not good, the extraction fails and stores nothing (`none`). -/
def readChar (st : InStream) : InStream × Option Char :=
  if st.good then
    match st.rest.dropWhile isSpace with
    | [] => (⟨[], false⟩, none)
    | c :: rest => (⟨rest, true⟩, some c)
  else (st, none)

/-- The digits of the input field of an `int` after its sign: stored as the
parsed value when it is in the range of `int`; with no digit `0` is stored,
out of range the nearest bound is stored, and the extraction fails in both
cases. -/
def readDigits (negative : Bool) (field : List Char) : InStream × Option Int :=
  if field.takeWhile isDigit = [] then (⟨field, false⟩, some 0)
  else if negative then
    if digitsValue (field.takeWhile isDigit) ≤ 2147483648 then
      (⟨field.dropWhile isDigit, true⟩, some (- digitsValue (field.takeWhile isDigit)))
    else (⟨field.dropWhile isDigit, false⟩, some (-2147483648))
  else
    if digitsValue (field.takeWhile isDigit) ≤ 2147483647 then
      (⟨field.dropWhile isDigit, true⟩, some (digitsValue (field.takeWhile isDigit)))
    else (⟨field.dropWhile isDigit, false⟩, some INT_MAX)

/-- The library extraction `file >> n` into an `int`: leading whitespace is
skipped, then an optional sign and the decimal digits are consumed; at the end
of the input, and on a stream that is not good, the extraction fails and
stores nothing (`none`). -/
def readInt (st : InStream) : InStream × Option Int :=
  if st.good then
    match st.rest.dropWhile isSpace with
    | [] => (⟨[], false⟩, none)
    | c :: rest =>
      if c.toNat = 45 then readDigits true rest
      else if c.toNat = 43 then readDigits false rest
      else readDigits false (c :: rest)
  else (st, none)

/-- The loop of `Graph::extractFile`, with the number of iterations left:
each iteration extracts `c1`, `c2` and `w` and calls `Connect` on the
one-character labels; `none` when a variable is used that no extraction has
stored into. -/
def extractLoop : Nat → Graph → InStream → Option Graph
  | 0, g, _ => some g
  | n + 1, g, st =>
    match (readChar st).2, (readChar (readChar st).1).2,
        (readInt (readChar (readChar st).1).1).2 with
    | some c1, some c2, some w =>
      extractLoop n (g.Connect (String.singleton c1) (String.singleton c2) w).2
        (readInt (readChar (readChar st).1).1).1
    | _, _, _ => none

/-- Source `Graph::extractFile`: `none` when the edge count, or a variable of
the loop, is used without an extraction having stored into it. -/
def extractFile (g : Graph) (st : InStream) : Option Graph :=
  match (readInt st).2 with
  | none => none
  | some edges => extractLoop edges.toNat g (readInt st).1

/-- Source `Graph::ReadFile`: the result flag and the graph afterwards; the
file is given by its content, `none` when it cannot be opened. -/
def ReadFile (g : Graph) (file : Option (List Char)) : Option (Bool × Graph) :=
  match file with
  | none => some (false, g)
  | some content =>
    match extractFile g.clear ⟨content, true⟩ with
    | none => none
    | some g1 => some (true, g1)

/-- The content of the edge-list file of the graph `A-B:1, A-C:8, B-C:3`. -/
def graph0File : List Char := "3\nA B 1\nA C 8\nB C 3\n".toList

/-! ## Key sets of the maps of Dijkstra (specification) -/

/-- Every edge weight is strictly positive. -/
def Positive (g : Graph) : Prop := ∀ p ∈ g.map, ∀ e ∈ p.2.next, 0 < e.weight

instance (g : Graph) : Decidable g.Positive := by
  unfold Positive; infer_instance

/-- The predecessor invariant of the loop of `dijkstra`: every settled vertex
other than the origin has an entry in the predecessor map. -/
def DijkstraPrev (o : Label) (set : List Label) (p : PrevMap) : Prop :=
  ∀ v ∈ set, v ≠ o → ∃ u, p.lookup v = some u

/-! ## Undirected spanning trees (specification) -/

/-- The list `T` is an undirected spanning tree of the set reachable from `o`:
edges of the graph that join every reachable vertex to `o`, the direction of
the edges left aside, one edge less than there are reachable vertices. -/
def IsUndirectedSpanningTree (g : Graph) (o : Label) (T : List (Label × Edge)) : Prop :=
  Connects g o T ∧
    ∃ R : List Label, R.Nodup ∧ (∀ v, v ∈ R ↔ g.Reachable o v) ∧ T.length + 1 = R.length

/-- The operations that build the symmetric path `A-B, B-C` with both weights
`2147483646`. -/
def heavyOps : List Op :=
  [.connect "A" "B" 2147483646, .connect "B" "A" 2147483646,
    .connect "B" "C" 2147483646, .connect "C" "B" 2147483646]

/-! ## Records with long labels (example) -/

/-- The content of a file with one record whose labels are `AB` and `CD`. -/
def longLabelFile : List Char := "1\nAB CD 5\n".toList

/-! ## Copying (source) -/

/-- An adjacency map whose vertex pointers may be null (`none`): the map of
the graph that `Graph::clone` fills. -/
abbrev PointerMap := List (Label × Option Vertex)

/-- Source `Graph::Vertex::operator=`, with `this` given as a pointer and
`other` a head vertex, whose label and weight are `NO_LABEL` and `NO_WEIGHT`
as `AddVertex` constructs it: for each node of the chain of `other` a node
with the label and weight of `other` is linked behind `this`; `none` when a
node is linked behind the null pointer. -/
def Vertex.assign (this : Option Vertex) (other : Vertex) : Option (Option Vertex) :=
  match other.next, this with
  | [], p => some p
  | _ :: _, none => none
  | c :: rest, some v =>
    some (some { v with next := (c :: rest).map (fun _ => ⟨NO_LABEL, NO_WEIGHT⟩) })

/-- Source `*map[label] = other` of `Graph::clone`: `map[label]` inserts the
null pointer under an absent key, in key order, and the vertex assignment runs
on the pointer found. -/
def PointerMap.assignAt : PointerMap → Label → Vertex → Option PointerMap
  | [], l, other => (Vertex.assign none other).map (fun p => [(l, p)])
  | (k, p) :: m, l, other =>
    if k = l then (Vertex.assign p other).map (fun p1 => (k, p1) :: m)
    else if labelLt l k then (Vertex.assign none other).map (fun p1 => (l, p1) :: (k, p) :: m)
    else (PointerMap.assignAt m l other).map (fun m1 => (k, p) :: m1)

/-- Source `Graph::clone`: the loop over the pairs of the other map. -/
def clone (m : PointerMap) : AdjacencyMap → Option PointerMap
  | [] => some m
  | (k, v) :: rest =>
    match PointerMap.assignAt m k v with
    | none => none
    | some m1 => clone m1 rest

/-- Source `Graph::operator=` from another object, which the copy constructor
runs on the new object: the edge total and the map of `this` afterwards;
`none` when `clone` stores through the null pointer. -/
def assign (this : Graph) (other : Graph) : Option (Int × PointerMap) :=
  (clone (this.clear.map.map (fun p => (p.1, some p.2))) other.map).map
    (fun m => (other.edges, m))

/-- Source `Graph::GetEdges` on a map of pointers: `none` when the pointer
under the label is null. -/
def PointerMap.GetEdges (m : PointerMap) (label : Label) : Option String :=
  match m.lookup label with
  | none => some ""
  | some none => none
  | some (some v) => some v.getEdges

end Graph

namespace Graph

/-! ## Labels -/

theorem labelLt_iff (a b : Label) : labelLt a b = true ↔ a < b := by
  simp [labelLt, String.lt_iff_toList_lt, String.toList]

theorem labelLt_eq_false_iff (a b : Label) : labelLt a b = false ↔ b ≤ a := by
  rw [← not_lt, ← labelLt_iff]; simp

/-! ## Adjacency map lemmas -/

namespace AdjacencyMap

theorem count_eq_isSome (m : AdjacencyMap) (l : Label) :
    count m l = (find? m l).isSome := by
  induction m with
  | nil => rfl
  | cons p m ih =>
    obtain ⟨k, v⟩ := p
    by_cases h : k = l <;> simp [count, find?, h, ih]

theorem count_iff_mem_keys (m : AdjacencyMap) (l : Label) :
    count m l = true ↔ l ∈ keys m := by
  induction m with
  | nil => simp [count, keys]
  | cons p m ih =>
    obtain ⟨k, v⟩ := p
    by_cases h : k = l
    · simp [count, keys, h]
    · have h' : ¬ l = k := fun e => h e.symm
      simp [count, h, h', keys] at *
      exact ih

theorem find?_eq_none_iff (m : AdjacencyMap) (l : Label) :
    find? m l = none ↔ count m l = false := by
  rw [count_eq_isSome]; cases find? m l <;> simp

theorem find?_isSome_of_count {m : AdjacencyMap} {l : Label} (h : count m l = true) :
    ∃ v, find? m l = some v := by
  rw [count_eq_isSome] at h
  exact Option.isSome_iff_exists.mp h

theorem mem_of_find? {m : AdjacencyMap} {l : Label} {v : Vertex}
    (h : find? m l = some v) : (l, v) ∈ m := by
  induction m with
  | nil => simp [find?] at h
  | cons p m ih =>
    obtain ⟨k, x⟩ := p
    by_cases hk : k = l
    · simp [find?, hk] at h; simp [hk, h]
    · simp [find?, hk] at h; exact List.mem_cons_of_mem _ (ih h)

theorem find?_insert (m : AdjacencyMap) (l l' : Label) (v : Vertex)
    (h : count m l = false) :
    find? (insert m l v) l' = if l = l' then some v else find? m l' := by
  induction m with
  | nil => simp [insert, find?]
  | cons p m ih =>
    obtain ⟨k, x⟩ := p
    have hk : ¬ k = l := by intro e; simp [count, e] at h
    have hm : count m l = false := by simpa [count, hk] using h
    by_cases hlt : labelLt l k = true
    · simp [insert, hlt, find?]
    · simp only [insert, hlt, find?, ih hm]
      by_cases e1 : k = l'
      · have : ¬ l = l' := fun e => hk (e1.trans e.symm)
        simp [e1, this]
      · simp [e1]

theorem find?_set (m : AdjacencyMap) (l l' : Label) (v : Vertex) :
    find? (set m l v) l' =
      if l = l' then (find? m l).map (fun _ => v) else find? m l' := by
  induction m with
  | nil => simp [set, find?]
  | cons p m ih =>
    obtain ⟨k, x⟩ := p
    by_cases hk : k = l
    · subst hk
      by_cases e : k = l' <;> simp [set, find?, e]
    · by_cases e : k = l'
      · subst e
        have : ¬ l = k := fun e' => hk e'.symm
        simp [set, find?, hk, this]
      · simp [set, find?, hk, e, ih]

theorem keys_set (m : AdjacencyMap) (l : Label) (v : Vertex) :
    keys (set m l v) = keys m := by
  induction m with
  | nil => rfl
  | cons p m ih =>
    obtain ⟨k, x⟩ := p
    by_cases hk : k = l
    · simp [set, hk, keys]
    · simp only [set, hk, keys, if_false, List.map_cons] at *
      rw [ih]

theorem count_set (m : AdjacencyMap) (l l' : Label) (v : Vertex) :
    count (set m l v) l' = count m l' := by
  rw [Bool.eq_iff_iff, count_iff_mem_keys, count_iff_mem_keys, keys_set]

theorem mem_keys_insert (m : AdjacencyMap) (l l' : Label) (v : Vertex) :
    l' ∈ keys (insert m l v) ↔ l' = l ∨ l' ∈ keys m := by
  induction m with
  | nil => simp [insert, keys]
  | cons p m ih =>
    obtain ⟨k, x⟩ := p
    by_cases hlt : labelLt l k = true
    · simp [insert, hlt, keys]
    · rw [Bool.not_eq_true] at hlt
      simp only [keys] at ih
      simp only [insert, hlt, keys, List.map_cons, List.mem_cons, ih]
      simp only [Bool.false_eq_true, if_false, List.map_cons, List.mem_cons, ih]
      tauto

theorem count_insert (m : AdjacencyMap) (l l' : Label) (v : Vertex) :
    count (insert m l v) l' = (decide (l' = l) || count m l') := by
  rw [Bool.eq_iff_iff, count_iff_mem_keys, mem_keys_insert]
  simp [count_iff_mem_keys]

theorem mem_insert (m : AdjacencyMap) (l : Label) (v : Vertex) (p : Label × Vertex) :
    p ∈ insert m l v ↔ p = (l, v) ∨ p ∈ m := by
  induction m with
  | nil => simp [insert]
  | cons q m ih =>
    obtain ⟨k, x⟩ := q
    by_cases hlt : labelLt l k = true
    · simp [insert, hlt]
    · rw [Bool.not_eq_true] at hlt
      simp only [insert, hlt, Bool.false_eq_true, if_false, List.mem_cons, ih]
      tauto

theorem mem_set {m : AdjacencyMap} {l : Label} {v : Vertex} {p : Label × Vertex}
    (h : p ∈ set m l v) : p = (l, v) ∨ p ∈ m := by
  induction m with
  | nil => simp [set] at h
  | cons q m ih =>
    obtain ⟨k, x⟩ := q
    by_cases hk : k = l
    · simp only [set, hk, if_true, List.mem_cons] at h
      rcases h with h | h
      · exact Or.inl h
      · exact Or.inr (List.mem_cons_of_mem _ h)
    · simp only [set, hk, if_false, List.mem_cons] at h
      rcases h with h | h
      · exact Or.inr (by simp [h])
      · rcases ih h with h' | h'
        · exact Or.inl h'
        · exact Or.inr (List.mem_cons_of_mem _ h')

end AdjacencyMap

/-! ## Chain lemmas -/

theorem labelLt_irrefl (a : Label) : labelLt a a = false := by
  rw [labelLt_eq_false_iff]

theorem labelLt_trans {a b c : Label} (h1 : labelLt a b = true) (h2 : labelLt b c = true) :
    labelLt a c = true := by
  rw [labelLt_iff] at *; exact lt_trans h1 h2

theorem labelLt_of_not {a b : Label} (h1 : labelLt a b = false) (h2 : a ≠ b) :
    labelLt b a = true := by
  rw [labelLt_eq_false_iff] at h1; rw [labelLt_iff]
  exact lt_of_le_of_ne h1 (Ne.symm h2)

theorem chainConnect_fst (b : Label) (w : Weight) (c : List Edge)
    (hs : (c.map Edge.label).Pairwise (fun x y => labelLt x y = true)) :
    (chainConnect b w c).1 = true ↔ b ∉ c.map Edge.label := by
  induction c with
  | nil => simp [chainConnect]
  | cons e rest ih =>
    rw [List.map_cons, List.pairwise_cons] at hs
    by_cases h1 : labelLt e.label b = true
    · have hne : ¬ b = e.label := by
        intro e'; rw [e', labelLt_irrefl] at h1; exact Bool.noConfusion h1
      simp [chainConnect, h1, ih hs.2, hne]
    · rw [Bool.not_eq_true] at h1
      by_cases h2 : e.label = b
      · simp [chainConnect, h2, labelLt_irrefl]
      · have h3 : labelLt b e.label = true := labelLt_of_not h1 h2
        have h4 : ∀ x ∈ rest, ¬ b = x.label := by
          intro x hx e'
          have := labelLt_trans h3 (hs.1 x.label (List.mem_map_of_mem _ hx))
          rw [e', labelLt_irrefl] at this; exact Bool.noConfusion this
        have h5 : ¬ b = e.label := fun e' => h2 e'.symm
        simp only [chainConnect, h1, h2, Bool.false_eq_true, if_false, ne_eq, not_false_eq_true,
          if_true, List.map_cons, List.mem_cons, List.mem_map, not_or, not_exists, not_and, true_iff]
        exact ⟨h5, fun x hx e' => h4 x hx e'.symm⟩

theorem chainConnect_snd_of_true (b : Label) (w : Weight) (c : List Edge)
    (h : (chainConnect b w c).1 = true) :
    ∃ l1 l2, c = l1 ++ l2 ∧ (chainConnect b w c).2 = l1 ++ ⟨b, w⟩ :: l2 := by
  induction c with
  | nil => exact ⟨[], [], rfl, rfl⟩
  | cons e rest ih =>
    by_cases h1 : labelLt e.label b = true
    · simp only [chainConnect, h1, if_true] at h ⊢
      obtain ⟨l1, l2, e1, e2⟩ := ih h
      exact ⟨e :: l1, l2, by rw [e1]; rfl, by rw [e2]; rfl⟩
    · by_cases h2 : e.label = b
      · simp [chainConnect, h2, labelLt_irrefl] at h
      · exact ⟨[], e :: rest, rfl, by simp [chainConnect, h1, h2]⟩

theorem chainConnect_snd_of_false (b : Label) (w : Weight) (c : List Edge)
    (h : (chainConnect b w c).1 = false) : (chainConnect b w c).2 = c := by
  induction c with
  | nil => simp [chainConnect] at h
  | cons e rest ih =>
    by_cases h1 : labelLt e.label b = true
    · simp only [chainConnect, h1, if_true] at h ⊢
      rw [ih h]
    · by_cases h2 : e.label = b
      · simp [chainConnect, h2, labelLt_irrefl]
      · simp [chainConnect, h1, h2] at h

theorem mem_chainConnect (b : Label) (w : Weight) (c : List Edge) (x : Edge)
    (h : x ∈ (chainConnect b w c).2) : x = ⟨b, w⟩ ∨ x ∈ c := by
  cases hc : (chainConnect b w c).1 with
  | true =>
    obtain ⟨l1, l2, e1, e2⟩ := chainConnect_snd_of_true b w c hc
    rw [e2] at h; rw [e1]
    simp only [List.mem_append, List.mem_cons] at h ⊢
    tauto
  | false =>
    rw [chainConnect_snd_of_false b w c hc] at h; exact Or.inr h

theorem chainConnect_sorted (b : Label) (w : Weight) (c : List Edge)
    (hs : (c.map Edge.label).Pairwise (fun x y => labelLt x y = true)) :
    ((chainConnect b w c).2.map Edge.label).Pairwise (fun x y => labelLt x y = true) := by
  induction c with
  | nil => simp [chainConnect]
  | cons e rest ih =>
    rw [List.map_cons, List.pairwise_cons] at hs
    by_cases h1 : labelLt e.label b = true
    · simp only [chainConnect, h1, if_true, List.map_cons, List.pairwise_cons]
      refine ⟨?_, ih hs.2⟩
      intro y hy
      obtain ⟨x, hx, rfl⟩ := List.mem_map.mp hy
      rcases mem_chainConnect b w rest x hx with e' | hx'
      · rw [e']; exact h1
      · exact hs.1 _ (List.mem_map_of_mem _ hx')
    · rw [Bool.not_eq_true] at h1
      by_cases h2 : e.label = b
      · rw [chainConnect_snd_of_false]
        · rw [List.map_cons, List.pairwise_cons]; exact hs
        · simp [chainConnect, h2, labelLt_irrefl]
      · have h3 : labelLt b e.label = true := labelLt_of_not h1 h2
        simp only [chainConnect, h1, h2, Bool.false_eq_true, if_false, ne_eq, not_false_eq_true,
          if_true, List.map_cons, List.pairwise_cons, List.mem_cons]
        refine ⟨?_, hs⟩
        intro y hy
        rcases hy with rfl | hy
        · exact h3
        · exact labelLt_trans h3 (hs.1 y hy)

theorem chainDisconnect_fst (b : Label) (c : List Edge) :
    (chainDisconnect b c).1 = true ↔ b ∈ c.map Edge.label := by
  induction c with
  | nil => simp [chainDisconnect]
  | cons e rest ih =>
    by_cases h : e.label = b
    · simp [chainDisconnect, h]
    · have h' : ¬ b = e.label := fun e' => h e'.symm
      simp only [chainDisconnect, h, ne_eq, not_false_eq_true, if_true, ih, List.map_cons,
        List.mem_cons, h', false_or]

theorem chainDisconnect_snd_of_true (b : Label) (c : List Edge)
    (h : (chainDisconnect b c).1 = true) :
    ∃ l1 e l2, c = l1 ++ e :: l2 ∧ e.label = b ∧ b ∉ l1.map Edge.label ∧
      (chainDisconnect b c).2 = l1 ++ l2 := by
  induction c with
  | nil => simp [chainDisconnect] at h
  | cons e rest ih =>
    by_cases h1 : e.label = b
    · exact ⟨[], e, rest, rfl, h1, by simp, by simp [chainDisconnect, h1]⟩
    · simp only [chainDisconnect, h1, ne_eq, not_false_eq_true, if_true] at h ⊢
      obtain ⟨l1, x, l2, e1, e2, e3, e4⟩ := ih h
      refine ⟨e :: l1, x, l2, by rw [e1]; rfl, e2, ?_, by rw [e4]; rfl⟩
      simp only [List.map_cons, List.mem_cons, not_or]
      exact ⟨fun e' => h1 e'.symm, e3⟩

theorem chainDisconnect_snd_of_false (b : Label) (c : List Edge)
    (h : (chainDisconnect b c).1 = false) : (chainDisconnect b c).2 = c := by
  induction c with
  | nil => rfl
  | cons e rest ih =>
    by_cases h1 : e.label = b
    · simp [chainDisconnect, h1] at h
    · simp only [chainDisconnect, h1, ne_eq, not_false_eq_true, if_true] at h ⊢
      rw [ih h]

theorem chainDisconnect_sublist (b : Label) (c : List Edge) :
    (chainDisconnect b c).2.Sublist c := by
  induction c with
  | nil => exact List.Sublist.refl _
  | cons e rest ih =>
    by_cases h1 : e.label = b
    · simp only [chainDisconnect, h1, ne_eq, not_true_eq_false, if_false]
      exact List.sublist_cons_self _ _
    · simp only [chainDisconnect, h1, ne_eq, not_false_eq_true, if_true]
      exact ih.cons₂ e

/-! ## Vertex and edge management lemmas -/

theorem AddVertex_edges (g : Graph) (l : Label) : (g.AddVertex l).2.edges = g.edges := by
  unfold AddVertex; split <;> rfl

theorem AddVertex_find? (g : Graph) (l l' : Label) :
    (g.AddVertex l).2.map.find? l' =
      if l = l' ∧ g.map.count l = false then some ⟨false, [], EMPTY⟩ else g.map.find? l' := by
  unfold AddVertex
  cases h : g.map.count l with
  | true => simp
  | false => simp [AdjacencyMap.find?_insert _ _ _ _ h]

theorem AddVertex_count (g : Graph) (l l' : Label) :
    (g.AddVertex l).2.map.count l' = (decide (l' = l) || g.map.count l') := by
  unfold AddVertex
  cases h : g.map.count l with
  | true =>
    by_cases e : l' = l
    · simp [e, h]
    · simp [e]
  | false => simp [AdjacencyMap.count_insert]

theorem AddVertex_mem {g : Graph} {l : Label} {p : Label × Vertex}
    (h : p ∈ (g.AddVertex l).2.map) : p = (l, ⟨false, [], EMPTY⟩) ∨ p ∈ g.map := by
  unfold AddVertex at h
  cases hc : g.map.count l with
  | true => rw [hc] at h; exact Or.inr h
  | false => rw [hc] at h; exact (AdjacencyMap.mem_insert _ _ _ _).mp h

theorem AddVertex_chain (g : Graph) (l l' : Label) :
    (g.AddVertex l).2.chain l' = g.chain l' := by
  unfold chain
  rw [AddVertex_find?]
  by_cases h : l = l' ∧ g.map.count l = false
  · obtain ⟨rfl, h2⟩ := h
    have h3 := (AdjacencyMap.find?_eq_none_iff _ _).mpr h2
    simp [h2, h3]
  · rw [if_neg h]

theorem source_next (g : Graph) (a : Label) : (g.source a).next = g.chain a := by
  unfold source chain; cases g.map.find? a <;> rfl

theorem Connect_find?_source (g : Graph) (a b : Label) (hab : a ≠ b) :
    ((g.AddVertex a).2.AddVertex b).2.map.find? a = some (g.source a) := by
  rw [AddVertex_find?, if_neg (fun h => hab h.1.symm), AddVertex_find?]
  unfold source
  cases h : g.map.find? a with
  | some v => simp [(AdjacencyMap.find?_eq_none_iff _ _).not.mp (by rw [h]; simp)]
  | none => simp [(AdjacencyMap.find?_eq_none_iff _ _).mp h]

theorem Connect_eq (g : Graph) (a b : Label) (w : Weight) (hab : a ≠ b) :
    g.Connect a b w =
      (((g.source a).connect b w).1,
        { map := ((g.AddVertex a).2.AddVertex b).2.map.set a ((g.source a).connect b w).2,
          edges := g.edges + if ((g.source a).connect b w).1 then COUNT else EMPTY }) := by
  unfold Connect
  simp only [ne_eq, hab, not_false_eq_true, if_true, Connect_find?_source g a b hab,
    AddVertex_edges]

theorem Connect_self (g : Graph) (a : Label) (w : Weight) : g.Connect a a w = (false, g) := by
  simp [Connect]

theorem Connect_fst (g : Graph) (a b : Label) (w : Weight) (hab : a ≠ b) :
    (g.Connect a b w).1 = (chainConnect b w (g.chain a)).1 := by
  rw [Connect_eq g a b w hab, ← source_next]; rfl

theorem Connect_edges (g : Graph) (a b : Label) (w : Weight) :
    (g.Connect a b w).2.edges = g.edges + if (g.Connect a b w).1 then COUNT else EMPTY := by
  by_cases hab : a = b
  · subst hab; simp [Connect_self, EMPTY]
  · rw [Connect_eq g a b w hab]

theorem Connect_find? (g : Graph) (a b : Label) (w : Weight) (hab : a ≠ b) (l : Label) :
    (g.Connect a b w).2.map.find? l =
      if a = l then some ((g.source a).connect b w).2
      else (g.AddVertex b).2.map.find? l := by
  rw [Connect_eq g a b w hab]
  simp only [AdjacencyMap.find?_set, Connect_find?_source g a b hab]
  by_cases h : a = l
  · simp [h]
  · simp only [h, if_false]
    rw [AddVertex_find?, AddVertex_find?, AddVertex_find?, AddVertex_count]
    have h' : ¬ b = a := fun e => hab e.symm
    simp [h, h']

theorem Connect_count (g : Graph) (a b : Label) (w : Weight) (hab : a ≠ b) (l : Label) :
    (g.Connect a b w).2.map.count l = (decide (l = a) || decide (l = b) || g.map.count l) := by
  rw [Connect_eq g a b w hab]
  simp only [AdjacencyMap.count_set, AddVertex_count]
  cases g.map.count l <;> cases decide (l = a) <;> cases decide (l = b) <;> rfl

theorem Connect_chain (g : Graph) (a b : Label) (w : Weight) (hab : a ≠ b) (l : Label) :
    (g.Connect a b w).2.chain l =
      if a = l then (chainConnect b w (g.chain a)).2 else g.chain l := by
  by_cases h : a = l
  · unfold chain
    rw [Connect_find? g a b w hab, if_pos h, if_pos h]
    simp only [Vertex.connect, source_next]
    rfl
  · rw [if_neg h, ← AddVertex_chain g b l]
    unfold chain
    rw [Connect_find? g a b w hab, if_neg h]

theorem Connect_mem {g : Graph} {a b : Label} {w : Weight} (hab : a ≠ b)
    {p : Label × Vertex} (h : p ∈ (g.Connect a b w).2.map) :
    p = (a, ((g.source a).connect b w).2) ∨ p = (a, ⟨false, [], EMPTY⟩) ∨
      p = (b, ⟨false, [], EMPTY⟩) ∨ p ∈ g.map := by
  rw [Connect_eq g a b w hab] at h
  rcases AdjacencyMap.mem_set h with h | h
  · exact Or.inl h
  · rcases AddVertex_mem h with h | h
    · exact Or.inr (Or.inr (Or.inl h))
    · rcases AddVertex_mem h with h | h
      · exact Or.inr (Or.inl h)
      · exact Or.inr (Or.inr (Or.inr h))

theorem Disconnect_eq_of_not (g : Graph) (a b : Label)
    (h : ¬ (a ≠ b ∧ g.map.count a = true ∧ g.map.count b = true)) :
    g.Disconnect a b = (false, g) := by
  unfold Disconnect
  rw [if_neg h]

theorem Disconnect_eq (g : Graph) (a b : Label) (v : Vertex)
    (hab : a ≠ b) (ha : g.map.find? a = some v) (hb : g.map.count b = true) :
    g.Disconnect a b =
      ((v.disconnect b).1,
        { map := g.map.set a (v.disconnect b).2,
          edges := g.edges - if (v.disconnect b).1 then COUNT else EMPTY }) := by
  have hc : g.map.count a = true := by rw [AdjacencyMap.count_eq_isSome, ha]; rfl
  unfold Disconnect
  rw [if_pos ⟨hab, hc, hb⟩, ha]

theorem Disconnect_cases (g : Graph) (a b : Label) :
    g.Disconnect a b = (false, g) ∨
    ∃ v, a ≠ b ∧ g.map.find? a = some v ∧ g.map.count b = true ∧
      g.Disconnect a b =
        ((v.disconnect b).1,
          { map := g.map.set a (v.disconnect b).2,
            edges := g.edges - if (v.disconnect b).1 then COUNT else EMPTY }) := by
  by_cases h : a ≠ b ∧ g.map.count a = true ∧ g.map.count b = true
  · obtain ⟨v, hv⟩ := AdjacencyMap.find?_isSome_of_count h.2.1
    exact Or.inr ⟨v, h.1, hv, h.2.2, Disconnect_eq g a b v h.1 hv h.2.2⟩
  · exact Or.inl (Disconnect_eq_of_not g a b h)

/-! ## Connect and Disconnect contracts -/

/-- C1 (as stated, refuted): on the empty graph `Connect("a","b",5)` succeeds,
yet `NumberOfEdges("a")` moves from the sentinel `-1` to `1`, which is not an
increase by exactly one. -/
theorem Connect_counter_not_plus_one :
    (empty.Connect "a" "b" 5).1 = true ∧
      (empty.Connect "a" "b" 5).2.NumberOfEdgesOf "a" ≠ empty.NumberOfEdgesOf "a" + 1 := by
  decide

/-- C1 (amended): for a graph with ascending chains and labels `a ≠ b`,
`Connect(a,b,w)` returns true exactly when there was no edge `a -> b`; when it
returns true both labels are vertices afterwards, the chain of `a` is the old
chain with the single entry `(b,w)` put in, `NumberOfEdges()` grows by one, and
`NumberOfEdges(a)` grows by one when `a` was a vertex and is `1` when `a` was
missing (it was the sentinel `-1` before). -/
theorem Connect_contract (g : Graph) (hs : g.ChainsSorted) (a b : Label) (w : Weight)
    (hab : a ≠ b) :
    ((g.Connect a b w).1 = true ↔ ¬ g.hasEdge a b) ∧
    ((g.Connect a b w).1 = true →
      (g.Connect a b w).2.HasVertex a = true ∧ (g.Connect a b w).2.HasVertex b = true ∧
      (∃ l1 l2, g.chain a = l1 ++ l2 ∧ (g.Connect a b w).2.chain a = l1 ++ ⟨b, w⟩ :: l2) ∧
      (g.Connect a b w).2.NumberOfEdges = g.NumberOfEdges + 1 ∧
      (g.HasVertex a = true →
        (g.Connect a b w).2.NumberOfEdgesOf a = g.NumberOfEdgesOf a + 1) ∧
      (g.HasVertex a = false →
        g.NumberOfEdgesOf a = -1 ∧ (g.Connect a b w).2.NumberOfEdgesOf a = 1)) := by
  have hsorted : ((g.chain a).map Edge.label).Pairwise (fun x y => labelLt x y = true) := by
    unfold chain
    cases h : g.map.find? a with
    | none => exact List.Pairwise.nil
    | some v => exact hs _ (AdjacencyMap.mem_of_find? h)
  refine ⟨?_, fun hc => ⟨?_, ?_, ?_, ?_, ?_, ?_⟩⟩
  · rw [Connect_fst g a b w hab, chainConnect_fst b w _ hsorted]; rfl
  · simp [HasVertex, Connect_count g a b w hab]
  · simp [HasVertex, Connect_count g a b w hab]
  · rw [Connect_chain g a b w hab, if_pos rfl]
    rw [Connect_fst g a b w hab] at hc
    exact chainConnect_snd_of_true b w _ hc
  · simp [NumberOfEdges, Connect_edges, hc, COUNT]
  · intro ha
    obtain ⟨v, hv⟩ := AdjacencyMap.find?_isSome_of_count ha
    have hc' : (chainConnect b w v.next).1 = true := by
      rw [Connect_fst g a b w hab] at hc
      simpa [chain, hv] using hc
    simp [NumberOfEdgesOf, Connect_find? g a b w hab, source, hv, Vertex.connect,
      Vertex.numOfEdges, hc']
  · intro ha
    have hv : g.map.find? a = none := (AdjacencyMap.find?_eq_none_iff _ _).mpr ha
    have hc' : (chainConnect b w []).1 = true := rfl
    simp [NumberOfEdgesOf, Connect_find? g a b w hab, source, hv, Vertex.connect,
      Vertex.numOfEdges, hc', EMPTY, COUNT]

/-- Witness for C1: the contract at the graph `a -> d`, connecting `a -> b`. -/
theorem Connect_contract_witness :
    (run [.connect "a" "d" 40]).ChainsSorted ∧ ("a" : Label) ≠ "b" ∧
      ((run [.connect "a" "d" 40]).Connect "a" "b" 10).1 = true ∧
      ((run [.connect "a" "d" 40]).Connect "a" "b" 10).2.NumberOfEdgesOf "a" = 2 := by
  have h := Connect_contract (run [.connect "a" "d" 40]) (by decide) "a" "b" 10 (by decide)
  have h1 : ((run [.connect "a" "d" 40]).Connect "a" "b" 10).1 = true := h.1.mpr (by decide)
  refine ⟨by decide, by decide, h1, ?_⟩
  rw [(h.2 h1).2.2.2.2.1 (by decide)]
  decide

/-- C2: `Disconnect(a,b)` returns true exactly when `a ≠ b`, both labels are
vertices and the edge `a -> b` exists. -/
theorem Disconnect_true_iff (g : Graph) (a b : Label) :
    (g.Disconnect a b).1 = true ↔
      a ≠ b ∧ g.HasVertex a = true ∧ g.HasVertex b = true ∧ g.hasEdge a b := by
  rcases Disconnect_cases g a b with h | ⟨v, hab, hv, hb, h⟩
  · rw [h]
    simp only [Bool.false_eq_true, false_iff]
    intro ⟨h1, h2, h3, h4⟩
    obtain ⟨v, hv⟩ := AdjacencyMap.find?_isSome_of_count h2
    have := Disconnect_eq g a b v h1 hv h3
    rw [h] at this
    have h5 : (v.disconnect b).1 = true := by
      simp only [Vertex.disconnect, chainDisconnect_fst]
      simpa [hasEdge, targets, chain, hv] using h4
    rw [Prod.ext_iff] at this
    rw [h5] at this
    exact Bool.noConfusion this.1
  · have hc : g.map.count a = true := by rw [AdjacencyMap.count_eq_isSome, hv]; rfl
    rw [h]
    simp only [Vertex.disconnect, chainDisconnect_fst, HasVertex, hasEdge, targets, chain, hv,
      hc, hb, hab, ne_eq, not_false_eq_true, true_and]

/-! ## Invariants of built graphs -/

theorem run_append (ops : List Op) (op : Op) : run (ops ++ [op]) = (run ops).apply op := by
  simp [run, List.foldl_append]

/-- Induction over the graphs built from the empty graph. -/
theorem run_induction (P : Graph → Prop) (h0 : P empty)
    (hstep : ∀ g op, P g → P (g.apply op)) (ops : List Op) : P (run ops) := by
  induction ops using List.reverseRecOn with
  | nil => exact h0
  | append_singleton ops op ih => rw [run_append]; exact hstep _ _ ih

theorem AdjacencyMap.insert_keys_sorted (m : AdjacencyMap) (l : Label) (v : Vertex)
    (hs : (AdjacencyMap.keys m).Pairwise (fun a b => labelLt a b = true))
    (hc : AdjacencyMap.count m l = false) :
    (AdjacencyMap.keys (AdjacencyMap.insert m l v)).Pairwise (fun a b => labelLt a b = true) := by
  induction m with
  | nil => simp [AdjacencyMap.insert, AdjacencyMap.keys]
  | cons p m ih =>
    obtain ⟨k, x⟩ := p
    have hk : ¬ k = l := by intro e; simp [AdjacencyMap.count, e] at hc
    have hm : AdjacencyMap.count m l = false := by simpa [AdjacencyMap.count, hk] using hc
    have hs' := hs
    simp only [AdjacencyMap.keys, List.map_cons, List.pairwise_cons] at hs'
    by_cases hlt : labelLt l k = true
    · simp only [AdjacencyMap.insert, hlt, if_true, AdjacencyMap.keys, List.map_cons,
        List.pairwise_cons, List.mem_cons]
      refine ⟨?_, hs'⟩
      intro y hy
      rcases hy with rfl | hy
      · exact hlt
      · exact labelLt_trans hlt (hs'.1 y hy)
    · rw [Bool.not_eq_true] at hlt
      have hkl : labelLt k l = true := labelLt_of_not hlt (fun e => hk e.symm)
      simp only [AdjacencyMap.insert, hlt, Bool.false_eq_true, if_false, AdjacencyMap.keys,
        List.map_cons, List.pairwise_cons]
      refine ⟨?_, ih hs'.2 hm⟩
      intro y hy
      rcases (AdjacencyMap.mem_keys_insert m l y v).mp hy with rfl | hy'
      · exact hkl
      · exact hs'.1 y hy'

theorem AddVertex_keysSorted (g : Graph) (l : Label) (h : g.KeysSorted) :
    (g.AddVertex l).2.KeysSorted := by
  unfold AddVertex
  cases hc : g.map.count l with
  | true => exact h
  | false => exact AdjacencyMap.insert_keys_sorted _ _ _ h hc

theorem Connect_keysSorted (g : Graph) (a b : Label) (w : Weight) (h : g.KeysSorted) :
    (g.Connect a b w).2.KeysSorted := by
  by_cases hab : a = b
  · subst hab; rw [Connect_self]; exact h
  · rw [Connect_eq g a b w hab]
    simp only [KeysSorted, AdjacencyMap.keys_set]
    exact AddVertex_keysSorted _ _ (AddVertex_keysSorted _ _ h)

theorem Disconnect_keysSorted (g : Graph) (a b : Label) (h : g.KeysSorted) :
    (g.Disconnect a b).2.KeysSorted := by
  rcases Disconnect_cases g a b with e | ⟨v, _, _, _, e⟩
  · rw [e]; exact h
  · rw [e]; simp only [KeysSorted, AdjacencyMap.keys_set]; exact h

theorem run_keysSorted (ops : List Op) : (run ops).KeysSorted := by
  refine run_induction _ (by decide) ?_ ops
  intro g op h
  cases op with
  | addVertex l => exact AddVertex_keysSorted g l h
  | connect a b w => exact Connect_keysSorted g a b w h
  | disconnect a b => exact Disconnect_keysSorted g a b h

theorem pairwise_labelLt_nodup {l : List Label}
    (h : l.Pairwise (fun a b => labelLt a b = true)) : l.Nodup := by
  refine h.imp ?_
  intro a b hab e
  rw [e, labelLt_irrefl] at hab
  exact Bool.noConfusion hab

theorem AddVertex_chainsSorted (g : Graph) (l : Label) (h : g.ChainsSorted) :
    (g.AddVertex l).2.ChainsSorted := by
  intro p hp
  rcases AddVertex_mem hp with rfl | hp
  · exact List.Pairwise.nil
  · exact h p hp

theorem source_sorted (g : Graph) (a : Label) (h : g.ChainsSorted) :
    ((g.source a).next.map Edge.label).Pairwise (fun x y => labelLt x y = true) := by
  unfold source
  cases hf : g.map.find? a with
  | none => exact List.Pairwise.nil
  | some v => exact h _ (AdjacencyMap.mem_of_find? hf)

theorem Connect_chainsSorted (g : Graph) (a b : Label) (w : Weight) (h : g.ChainsSorted) :
    (g.Connect a b w).2.ChainsSorted := by
  by_cases hab : a = b
  · subst hab; rw [Connect_self]; exact h
  · intro p hp
    rcases Connect_mem hab hp with rfl | rfl | rfl | hp
    · exact chainConnect_sorted b w _ (source_sorted g a h)
    · exact List.Pairwise.nil
    · exact List.Pairwise.nil
    · exact h p hp

theorem Disconnect_chainsSorted (g : Graph) (a b : Label) (h : g.ChainsSorted) :
    (g.Disconnect a b).2.ChainsSorted := by
  rcases Disconnect_cases g a b with e | ⟨v, _, hv, _, e⟩
  · rw [e]; exact h
  · rw [e]
    intro p hp
    rcases AdjacencyMap.mem_set hp with rfl | hp
    · exact List.Pairwise.sublist ((chainDisconnect_sublist b v.next).map Edge.label)
        (h _ (AdjacencyMap.mem_of_find? hv))
    · exact h p hp

theorem run_chainsSorted (ops : List Op) : (run ops).ChainsSorted := by
  refine run_induction _ (by decide) ?_ ops
  intro g op h
  cases op with
  | addVertex l => exact AddVertex_chainsSorted g l h
  | connect a b w => exact Connect_chainsSorted g a b w h
  | disconnect a b => exact Disconnect_chainsSorted g a b h

theorem targets_sorted (g : Graph) (h : g.ChainsSorted) (label : Label) :
    (g.targets label).Pairwise (fun a b => labelLt a b = true) := by
  unfold targets chain
  cases hf : g.map.find? label with
  | none => exact List.Pairwise.nil
  | some v => exact h _ (AdjacencyMap.mem_of_find? hf)

/-- C4: in every graph built from the empty graph by `AddVertex`, `Connect` and
`Disconnect` calls, every vertex's chain is strictly ascending by target label
in the lexicographic order of strings, and so holds no target label twice. -/
theorem chains_strictly_ascending (ops : List Op) (label : Label) :
    ((run ops).targets label).Pairwise (fun a b => a < b) ∧
      ((run ops).targets label).Nodup := by
  have h := targets_sorted (run ops) (run_chainsSorted ops) label
  exact ⟨h.imp (fun hab => (labelLt_iff _ _).mp hab), pairwise_labelLt_nodup h⟩

/-! ## Edge counters -/

theorem edgeSum_insert (m : AdjacencyMap) (l : Label) (v : Vertex) :
    edgeSum (m.insert l v) = edgeSum m + v.edges := by
  induction m with
  | nil => simp [AdjacencyMap.insert, edgeSum]
  | cons p m ih =>
    obtain ⟨k, x⟩ := p
    by_cases hlt : labelLt l k = true
    · simp only [AdjacencyMap.insert, hlt, if_true, edgeSum, List.map_cons, List.sum_cons]
      omega
    · rw [Bool.not_eq_true] at hlt
      simp only [edgeSum] at ih
      simp only [AdjacencyMap.insert, hlt, Bool.false_eq_true, if_false, edgeSum, List.map_cons,
        List.sum_cons, ih]
      omega

theorem edgeSum_set (m : AdjacencyMap) (l : Label) (v0 v : Vertex)
    (h : m.find? l = some v0) :
    edgeSum (m.set l v) = edgeSum m - v0.edges + v.edges := by
  induction m with
  | nil => simp [AdjacencyMap.find?] at h
  | cons p m ih =>
    obtain ⟨k, x⟩ := p
    by_cases hk : k = l
    · simp only [AdjacencyMap.find?, hk, if_true, Option.some.injEq] at h
      subst h
      simp only [AdjacencyMap.set, hk, if_true, edgeSum, List.map_cons, List.sum_cons]
      omega
    · simp only [AdjacencyMap.find?, hk, if_false] at h
      have := ih h
      simp only [edgeSum] at this
      simp only [AdjacencyMap.set, hk, if_false, edgeSum, List.map_cons, List.sum_cons, this]
      omega

theorem AddVertex_edgeSum (g : Graph) (l : Label) :
    edgeSum (g.AddVertex l).2.map = edgeSum g.map := by
  unfold AddVertex
  cases hc : g.map.count l with
  | true => rfl
  | false => simp [edgeSum_insert, EMPTY]

theorem source_edges_of_absent (g : Graph) (a : Label) (h : g.map.find? a = none) :
    (g.source a).edges = 0 := by
  simp [source, h, EMPTY]

theorem Connect_edgeTotal (g : Graph) (a b : Label) (w : Weight)
    (h : g.edges = edgeSum g.map) :
    (g.Connect a b w).2.edges = edgeSum (g.Connect a b w).2.map := by
  by_cases hab : a = b
  · subst hab; rw [Connect_self]; exact h
  · rw [Connect_eq g a b w hab]
    simp only
    rw [edgeSum_set _ _ _ _ (Connect_find?_source g a b hab), AddVertex_edgeSum,
      AddVertex_edgeSum, h]
    simp only [Vertex.connect, COUNT, EMPTY]
    split <;> omega

theorem Disconnect_edgeTotal (g : Graph) (a b : Label) (h : g.edges = edgeSum g.map) :
    (g.Disconnect a b).2.edges = edgeSum (g.Disconnect a b).2.map := by
  rcases Disconnect_cases g a b with e | ⟨v, _, hv, _, e⟩
  · rw [e]; exact h
  · rw [e]
    simp only
    rw [edgeSum_set _ _ _ _ hv, h]
    simp only [Vertex.disconnect, COUNT, EMPTY]
    split <;> omega

theorem run_edgeTotal (ops : List Op) : (run ops).edges = edgeSum (run ops).map := by
  refine run_induction (fun g => g.edges = edgeSum g.map) (by decide) ?_ ops
  intro g op h
  cases op with
  | addVertex l =>
    show (g.AddVertex l).2.edges = edgeSum (g.AddVertex l).2.map
    rw [AddVertex_edges, AddVertex_edgeSum, h]
  | connect a b w => exact Connect_edgeTotal g a b w h
  | disconnect a b => exact Disconnect_edgeTotal g a b h

theorem keys_map_counter (m : AdjacencyMap) (e : Int) (hn : (AdjacencyMap.keys m).Nodup) :
    (AdjacencyMap.keys m).map (NumberOfEdgesOf ⟨m, e⟩) = m.map (fun p => p.2.edges) := by
  induction m with
  | nil => rfl
  | cons p m ih =>
    obtain ⟨k, x⟩ := p
    simp only [AdjacencyMap.keys, List.map_cons, List.nodup_cons] at hn
    simp only [AdjacencyMap.keys, List.map_cons, List.cons.injEq]
    refine ⟨by simp [NumberOfEdgesOf, AdjacencyMap.find?, Vertex.numOfEdges], ?_⟩
    rw [← ih hn.2]
    simp only [AdjacencyMap.keys, List.map_map]
    apply List.map_congr_left
    intro q hq
    have hne : ¬ k = q.1 := fun e' => hn.1 (e' ▸ List.mem_map_of_mem Prod.fst hq)
    simp [NumberOfEdgesOf, AdjacencyMap.find?, hne]

/-- C3: in every graph built from the empty graph by `AddVertex`, `Connect` and
`Disconnect` calls, `NumberOfEdges()` is the sum of `NumberOfEdges(label)` over
the vertices of the graph. -/
theorem edge_total_is_sum (ops : List Op) :
    (run ops).NumberOfEdges =
      ((run ops).map.keys.map (run ops).NumberOfEdgesOf).sum := by
  have h1 := run_edgeTotal ops
  have h2 := keys_map_counter (run ops).map (run ops).edges
    (pairwise_labelLt_nodup (run_keysSorted ops))
  unfold NumberOfEdges
  rw [h1, edgeSum, ← h2]

/-! ## Rendering -/

theorem toString_eq_signedDecimal (w : Int) : ToString.toString w = signedDecimal w := by
  cases w with
  | ofNat n =>
    have : ¬ (Int.ofNat n < 0) := by simp
    simp only [signedDecimal, this, if_false]
    rfl
  | negSucc n =>
    have : Int.negSucc n < 0 := Int.negSucc_lt_zero n
    simp only [signedDecimal, this, if_true]
    rfl

theorem Edge.toString_eq (e : Edge) : e.toString = renderEntry e := by
  simp [Edge.toString, renderEntry, toString_eq_signedDecimal, LEFT_P, RIGHT_P]

theorem intercalate_go_append (acc x s : String) (l : List String) :
    String.intercalate.go (acc ++ x) s l = acc ++ String.intercalate.go x s l := by
  induction l generalizing x with
  | nil => simp [String.intercalate.go]
  | cons a l ih =>
    simp only [String.intercalate.go]
    rw [String.append_assoc, String.append_assoc, ih, String.append_assoc]

theorem chainGetEdges_eq (c : List Edge) : chainGetEdges c = renderChain c := by
  induction c with
  | nil => rfl
  | cons e rest ih =>
    cases rest with
    | nil =>
      simp [chainGetEdges, renderChain, String.intercalate, String.intercalate.go,
        Edge.toString_eq]
    | cons e2 rest =>
      rw [chainGetEdges, ih]
      simp only [renderChain, ne_eq, List.cons_ne_nil, not_false_eq_true, if_true, List.map_cons,
        String.intercalate, String.intercalate.go, COMMA, Edge.toString_eq]
      rw [intercalate_go_append]

/-- C5: `GetEdges(label)` is the vertex's chain entries, each rendered as
`target(weight)` with the weight in signed decimal, joined by single commas in
chain order; it is the empty string when the vertex has no outgoing edges and
when the label is not in the graph. -/
theorem GetEdges_eq_render (g : Graph) (label : Label) :
    g.GetEdges label = renderChain (g.chain label) ∧
      (g.chain label = [] → g.GetEdges label = "") ∧
      (g.HasVertex label = false → g.GetEdges label = "") := by
  have h : g.GetEdges label = renderChain (g.chain label) := by
    unfold GetEdges chain
    cases g.map.find? label with
    | none => rfl
    | some v => exact chainGetEdges_eq v.next
  refine ⟨h, ?_, ?_⟩
  · intro hc; rw [h, hc]; rfl
  · intro hv
    have : g.map.find? label = none := (AdjacencyMap.find?_eq_none_iff _ _).mpr hv
    simp [GetEdges, this]

/-! ## Closedness and clear marks of built graphs -/

theorem source_mem_chain (g : Graph) (a : Label) (h : g.Closed) :
    ∀ e ∈ (g.source a).next, g.map.count e.label = true := by
  unfold source
  cases hf : g.map.find? a with
  | none => simp
  | some v => exact h _ (AdjacencyMap.mem_of_find? hf)

theorem AddVertex_closed (g : Graph) (l : Label) (h : g.Closed) : (g.AddVertex l).2.Closed := by
  intro p hp e he
  rw [AddVertex_count]
  rcases AddVertex_mem hp with rfl | hp
  · simp at he
  · simp [h p hp e he]

theorem Connect_closed (g : Graph) (a b : Label) (w : Weight) (h : g.Closed) :
    (g.Connect a b w).2.Closed := by
  by_cases hab : a = b
  · subst hab; rw [Connect_self]; exact h
  · intro p hp e he
    rw [Connect_count g a b w hab]
    rcases Connect_mem hab hp with rfl | rfl | rfl | hp
    · rcases mem_chainConnect b w _ e he with rfl | he'
      · simp
      · simp [source_mem_chain g a h e he']
    · simp at he
    · simp at he
    · simp [h p hp e he]

theorem Disconnect_closed (g : Graph) (a b : Label) (h : g.Closed) :
    (g.Disconnect a b).2.Closed := by
  rcases Disconnect_cases g a b with e | ⟨v, _, hv, _, e⟩
  · rw [e]; exact h
  · rw [e]
    intro p hp x hx
    simp only [AdjacencyMap.count_set]
    rcases AdjacencyMap.mem_set hp with rfl | hp
    · exact h _ (AdjacencyMap.mem_of_find? hv) x ((chainDisconnect_sublist b v.next).subset hx)
    · exact h p hp x hx

theorem run_closed (ops : List Op) : (run ops).Closed := by
  refine run_induction _ (by decide) ?_ ops
  intro g op h
  cases op with
  | addVertex l => exact AddVertex_closed g l h
  | connect a b w => exact Connect_closed g a b w h
  | disconnect a b => exact Disconnect_closed g a b h

theorem source_unvisited (g : Graph) (a : Label) (h : g.Unvisited) :
    (g.source a).visited = false := by
  unfold source
  cases hf : g.map.find? a with
  | none => rfl
  | some v => exact h _ (AdjacencyMap.mem_of_find? hf)

theorem run_unvisited (ops : List Op) : (run ops).Unvisited := by
  refine run_induction _ (by decide) ?_ ops
  intro g op h
  cases op with
  | addVertex l =>
    intro p hp
    rcases AddVertex_mem hp with rfl | hp
    · rfl
    · exact h p hp
  | connect a b w =>
    by_cases hab : a = b
    · subst hab
      show ((g.Connect a a w).2).Unvisited
      rw [Connect_self]; exact h
    · intro p hp
      rcases Connect_mem hab hp with rfl | rfl | rfl | hp
      · exact source_unvisited g a h
      · rfl
      · rfl
      · exact h p hp
  | disconnect a b =>
    show ((g.Disconnect a b).2).Unvisited
    rcases Disconnect_cases g a b with e | ⟨v, _, hv, _, e⟩
    · rw [e]; exact h
    · rw [e]
      intro p hp
      rcases AdjacencyMap.mem_set hp with rfl | hp
      · exact h (a, v) (AdjacencyMap.mem_of_find? hv)
      · exact h p hp

/-! ## Visited marks -/

theorem AdjacencyMap.find?_unvisit (m : AdjacencyMap) (l : Label) :
    AdjacencyMap.find? (AdjacencyMap.unvisit m) l =
      (AdjacencyMap.find? m l).map (fun v => { v with visited := false }) := by
  induction m with
  | nil => rfl
  | cons p m ih =>
    obtain ⟨k, x⟩ := p
    simp only [AdjacencyMap.unvisit] at ih
    by_cases hk : k = l
    · simp [AdjacencyMap.unvisit, AdjacencyMap.find?, hk]
    · simp [AdjacencyMap.unvisit, AdjacencyMap.find?, hk, ih]

theorem AdjacencyMap.unvisit_set (m : AdjacencyMap) (l : Label) (v : Vertex) (b : Bool)
    (h : AdjacencyMap.find? m l = some v) :
    AdjacencyMap.unvisit (AdjacencyMap.set m l { v with visited := b }) =
      AdjacencyMap.unvisit m := by
  induction m with
  | nil => rfl
  | cons p m ih =>
    obtain ⟨k, x⟩ := p
    by_cases hk : k = l
    · simp only [AdjacencyMap.find?, hk, if_true, Option.some.injEq] at h
      subst h
      simp [AdjacencyMap.unvisit, AdjacencyMap.set, hk]
    · simp only [AdjacencyMap.find?, hk, if_false] at h
      have := ih h
      simp only [AdjacencyMap.unvisit] at this
      simp [AdjacencyMap.unvisit, AdjacencyMap.set, hk, this]

theorem AdjacencyMap.unvisit_eq_self (m : AdjacencyMap)
    (h : ∀ p ∈ m, p.2.visited = false) : AdjacencyMap.unvisit m = m := by
  induction m with
  | nil => rfl
  | cons p m ih =>
    obtain ⟨k, x⟩ := p
    have hx : x.visited = false := h (k, x) (List.mem_cons_self _ _)
    have hm := ih (fun q hq => h q (List.mem_cons_of_mem _ hq))
    simp only [AdjacencyMap.unvisit] at hm
    simp only [AdjacencyMap.unvisit, List.map_cons, hm, List.cons.injEq, Prod.mk.injEq, true_and,
      and_true]
    cases x
    simp only at hx
    simp [hx]

theorem setVisited_unvisit (g : Graph) (l : Label) (b : Bool) :
    (g.setVisited l b).map.unvisit = g.map.unvisit := by
  unfold setVisited
  cases h : g.map.find? l with
  | none => rfl
  | some v => exact AdjacencyMap.unvisit_set _ _ _ _ h

theorem setVisited_edges (g : Graph) (l : Label) (b : Bool) :
    (g.setVisited l b).edges = g.edges := by
  unfold setVisited
  cases g.map.find? l <;> rfl

theorem isVisited_setVisited (g : Graph) (l l' : Label) (h : g.map.count l = true) :
    (g.setVisited l true).isVisited l' = true ↔ l' = l ∨ g.isVisited l' = true := by
  obtain ⟨v, hv⟩ := AdjacencyMap.find?_isSome_of_count h
  unfold setVisited isVisited
  simp only [hv, AdjacencyMap.find?_set]
  by_cases e : l = l'
  · subst e; simp
  · have e' : ¬ l' = l := fun x => e x.symm
    simp [e, e']

theorem Marked.find?_eq {g0 g : Graph} {s : List Label} (h : Marked g0 g s) (l : Label) :
    (g.map.find? l).map (fun v => { v with visited := false }) =
      (g0.map.find? l).map (fun v => { v with visited := false }) := by
  rw [← AdjacencyMap.find?_unvisit, ← AdjacencyMap.find?_unvisit, h.1]

theorem Marked.chain_eq {g0 g : Graph} {s : List Label} (h : Marked g0 g s) (l : Label) :
    g.chain l = g0.chain l := by
  have := h.find?_eq l
  unfold Graph.chain
  cases h1 : g.map.find? l <;> cases h2 : g0.map.find? l <;> simp [h1, h2] at this ⊢
  exact this.1

theorem Marked.count_eq {g0 g : Graph} {s : List Label} (h : Marked g0 g s) (l : Label) :
    g.map.count l = g0.map.count l := by
  have := h.find?_eq l
  rw [AdjacencyMap.count_eq_isSome, AdjacencyMap.count_eq_isSome]
  cases h1 : g.map.find? l <;> cases h2 : g0.map.find? l <;> simp [h1, h2] at this ⊢

theorem Marked.mark {g0 g : Graph} {s : List Label} (h : Marked g0 g s) (l : Label)
    (hl : g0.map.count l = true) : Marked g0 (g.setVisited l true) (s ++ [l]) := by
  refine ⟨by rw [setVisited_unvisit, h.1], by rw [setVisited_edges, h.2.1], ?_⟩
  intro l'
  rw [isVisited_setVisited g l l' (by rw [h.count_eq, hl]), h.2.2 l']
  simp only [List.mem_append, List.mem_singleton]
  tauto

theorem Marked.congr {g0 g : Graph} {s t : List Label} (h : Marked g0 g s)
    (hst : ∀ l, l ∈ s ↔ l ∈ t) : Marked g0 g t :=
  ⟨h.1, h.2.1, fun l => (h.2.2 l).trans (hst l)⟩

theorem Marked.unvisit_eq {g0 g : Graph} {s : List Label} (h : Marked g0 g s)
    (h0 : g0.Unvisited) : g.unvisitVertices = g0 := by
  unfold Graph.unvisitVertices
  rw [h.1, h.2.1, AdjacencyMap.unvisit_eq_self _ h0]

theorem Marked.refl (g : Graph) (h : g.Unvisited) : Marked g g [] := by
  refine ⟨rfl, rfl, ?_⟩
  intro l
  unfold isVisited
  cases hf : g.map.find? l with
  | none => simp
  | some v =>
    have := h _ (AdjacencyMap.mem_of_find? hf)
    simp only at this
    simp [this]

theorem isVisited_count {g : Graph} {l : Label} (h : g.isVisited l = true) :
    g.map.count l = true := by
  unfold isVisited at h
  rw [AdjacencyMap.count_eq_isSome]
  cases hf : g.map.find? l with
  | none => rw [hf] at h; exact Bool.noConfusion h
  | some v => rfl

theorem Closed.chain_count {g : Graph} (h : g.Closed) (l : Label) :
    ∀ e ∈ g.chain l, g.map.count e.label = true := by
  unfold Graph.chain
  cases hf : g.map.find? l with
  | none => simp
  | some v => exact h _ (AdjacencyMap.mem_of_find? hf)

theorem Closed.targets_count {g : Graph} (h : g.Closed) (l t : Label) (ht : t ∈ g.targets l) :
    g.map.count t = true := by
  obtain ⟨e, he, rfl⟩ := List.mem_map.mp ht
  exact h.chain_count l e he

/-! ## The breadth-first loop on lists -/

theorem isVisited_eq_of_find? {g : Graph} {l : Label} {v : Vertex}
    (h : g.map.find? l = some v) : v.visited = g.isVisited l := by
  simp [isVisited, h]

theorem addUnvisited_sim (g0 : Graph) (done : List Label) :
    ∀ (c : List Edge) (g : Graph) (q : List Label), Marked g0 g (done ++ q) →
      (∀ e ∈ c, g0.map.count e.label = true) →
      ∃ g1, addUnvisited g q c = some (g1, enqueueNew done q (c.map Edge.label)) ∧
        Marked g0 g1 (done ++ enqueueNew done q (c.map Edge.label)) := by
  intro c
  induction c with
  | nil => intro g q hm _; exact ⟨g, rfl, hm⟩
  | cons e rest ih =>
    intro g q hm hc
    have hce : g0.map.count e.label = true := hc e (List.mem_cons_self _ _)
    have hrest : ∀ x ∈ rest, g0.map.count x.label = true :=
      fun x hx => hc x (List.mem_cons_of_mem _ hx)
    obtain ⟨temp, ht⟩ := AdjacencyMap.find?_isSome_of_count (by rw [hm.count_eq]; exact hce)
    have hv := isVisited_eq_of_find? ht
    by_cases hvis : g.isVisited e.label = true
    · have hin : e.label ∈ done ∨ e.label ∈ q := by
        have := (hm.2.2 e.label).mp hvis
        simpa [List.mem_append] using this
      obtain ⟨g1, h1, h2⟩ := ih g q hm hrest
      refine ⟨g1, ?_, ?_⟩
      · simp only [addUnvisited, ht, hv, hvis, Bool.not_true, Bool.false_eq_true, if_false,
          List.map_cons, enqueueNew, hin, if_true]
        exact h1
      · simp only [List.map_cons, enqueueNew, hin, if_true]
        exact h2
    · have hnin : ¬ (e.label ∈ done ∨ e.label ∈ q) := by
        intro h
        exact hvis ((hm.2.2 e.label).mpr (by simpa [List.mem_append] using h))
      have hm' : Marked g0 (g.setVisited e.label true) (done ++ (q ++ [e.label])) :=
        (hm.mark e.label hce).congr (fun l => by simp [List.append_assoc])
      obtain ⟨g1, h1, h2⟩ := ih _ _ hm' hrest
      rw [Bool.not_eq_true] at hvis
      refine ⟨g1, ?_, ?_⟩
      · simp only [addUnvisited, ht, hv, hvis, Bool.not_false, if_true, List.map_cons,
          enqueueNew, hnin, if_false]
        exact h1
      · simp only [List.map_cons, enqueueNew, hnin, if_false]
        exact h2

theorem bfs_sim (g0 : Graph) (hc : g0.Closed) :
    ∀ (n : Nat) (g : Graph) (q out res : List Label), Marked g0 g (out ++ q) →
      bfsLists g0.targets n q out = some res →
      ∃ g1, bfs n g q out = some (g1, res) ∧ Marked g0 g1 res := by
  intro n
  induction n with
  | zero => intro g q out res _ h; simp [bfsLists] at h
  | succ n ih =>
    intro g q out res hm h
    cases q with
    | nil =>
      simp only [bfsLists, Option.some.injEq] at h
      subst h
      exact ⟨g, rfl, hm.congr (fun l => by simp)⟩
    | cons front q =>
      simp only [bfsLists] at h
      have hvis : g.isVisited front = true := (hm.2.2 front).mpr (by simp)
      obtain ⟨next, hn⟩ := AdjacencyMap.find?_isSome_of_count (isVisited_count hvis)
      have hchain : next.next = g0.chain front := by
        rw [← hm.chain_eq front]; simp [chain, hn]
      have hm' : Marked g0 g ((out ++ [front]) ++ q) :=
        hm.congr (fun l => by simp [List.append_assoc])
      obtain ⟨g1, h1, h2⟩ := addUnvisited_sim g0 (out ++ [front]) next.next g q hm'
        (by rw [hchain]; exact hc.chain_count front)
      rw [hchain] at h1 h2
      obtain ⟨g2, h3, h4⟩ := ih g1 _ _ res h2 h
      refine ⟨g2, ?_, h4⟩
      simp only [bfs, hn, hchain, h1]
      exact h3

theorem BFS_sim (g : Graph) (hc : g.Closed) (hu : g.Unvisited) (o : Label)
    (ho : g.map.count o = true) (n : Nat) (res : List Label)
    (h : bfsLists g.targets n [o] [] = some res) : BFS n g o = some (g, res) := by
  have hm : Marked g (g.setVisited o true) ([] ++ [o]) :=
    ((Marked.refl g hu).mark o ho).congr (fun l => by simp)
  obtain ⟨g1, h1, h2⟩ := bfs_sim g hc n _ _ _ res hm h
  simp only [BFS, ho, if_true, h1, h2.unvisit_eq hu]

theorem enqueueNew_spec (done : List Label) :
    ∀ (ts q : List Label), ∃ N, enqueueNew done q ts = q ++ N ∧ N.Sublist ts ∧
      (∀ x ∈ N, x ∉ done ∧ x ∉ q) ∧ N.Nodup ∧ (∀ t ∈ ts, t ∈ done ∨ t ∈ q ∨ t ∈ N) := by
  intro ts
  induction ts with
  | nil =>
    intro q
    exact ⟨[], by simp [enqueueNew], List.Sublist.refl _, by simp, List.nodup_nil, by simp⟩
  | cons t ts ih =>
    intro q
    by_cases h : t ∈ done ∨ t ∈ q
    · obtain ⟨N, h1, h2, h3, h4, h5⟩ := ih q
      refine ⟨N, by simp only [enqueueNew, h, if_true]; exact h1, h2.cons t, h3, h4, ?_⟩
      intro x hx
      rcases List.mem_cons.mp hx with rfl | hx
      · rcases h with h | h
        · exact Or.inl h
        · exact Or.inr (Or.inl h)
      · exact h5 x hx
    · obtain ⟨N, h1, h2, h3, h4, h5⟩ := ih (q ++ [t])
      have hnot := not_or.mp h
      refine ⟨t :: N, ?_, h2.cons₂ t, ?_, ?_, ?_⟩
      · simp only [enqueueNew, h, if_false]
        rw [h1]; simp
      · intro x hx
        rcases List.mem_cons.mp hx with rfl | hx
        · exact hnot
        · exact ⟨(h3 x hx).1, fun hq => (h3 x hx).2 (List.mem_append_left _ hq)⟩
      · refine List.nodup_cons.mpr ⟨?_, h4⟩
        intro ht
        exact (h3 t ht).2 (by simp)
      · intro x hx
        rcases List.mem_cons.mp hx with rfl | hx
        · exact Or.inr (Or.inr (List.mem_cons_self _ _))
        · rcases h5 x hx with h' | h' | h'
          · exact Or.inl h'
          · rcases List.mem_append.mp h' with h'' | h''
            · exact Or.inr (Or.inl h'')
            · exact Or.inr (Or.inr (by
                rw [List.mem_singleton.mp h'']; exact List.mem_cons_self _ _))
          · exact Or.inr (Or.inr (List.mem_cons_of_mem _ h'))

/-- An invariant of the queue and trace kept by every round of the loop holds
of the final trace. -/
theorem bfsLists_invariant (succ : Label → List Label) (Inv : List Label → List Label → Prop)
    (hstep : ∀ out front q, Inv out (front :: q) →
      Inv (out ++ [front]) (enqueueNew (out ++ [front]) q (succ front))) :
    ∀ (n : Nat) (q out res : List Label), Inv out q →
      bfsLists succ n q out = some res → Inv res [] := by
  intro n
  induction n with
  | zero => intro q out res _ h; simp [bfsLists] at h
  | succ n ih =>
    intro q out res hinv h
    cases q with
    | nil =>
      simp only [bfsLists, Option.some.injEq] at h
      subst h; exact hinv
    | cons front q =>
      simp only [bfsLists] at h
      exact ih _ _ res (hstep out front q hinv) h

theorem nodup_length_le {l V : List Label} (hn : l.Nodup) (hs : ∀ x ∈ l, x ∈ V) :
    l.length ≤ V.length :=
  (List.Nodup.subperm hn hs).length_le

theorem bfs_step_nodup (succ : Label → List Label) (V : List Label)
    (hclosed : ∀ u t, t ∈ succ u → t ∈ V) (out q : List Label) (front : Label)
    (h : (out ++ front :: q).Nodup ∧ ∀ x ∈ out ++ front :: q, x ∈ V) :
    ((out ++ [front]) ++ enqueueNew (out ++ [front]) q (succ front)).Nodup ∧
      ∀ x ∈ (out ++ [front]) ++ enqueueNew (out ++ [front]) q (succ front), x ∈ V := by
  obtain ⟨N, h1, h2, h3, h4, _⟩ := enqueueNew_spec (out ++ [front]) (succ front) q
  rw [h1]
  have e : (out ++ [front]) ++ (q ++ N) = (out ++ front :: q) ++ N := by simp
  rw [e]
  constructor
  · refine List.Nodup.append h.1 h4 ?_
    intro x hx hxN
    have := h3 x hxN
    rcases List.mem_append.mp hx with hx | hx
    · exact this.1 (List.mem_append_left _ hx)
    · rcases List.mem_cons.mp hx with rfl | hx
      · exact this.1 (by simp)
      · exact this.2 hx
  · intro x hx
    rcases List.mem_append.mp hx with hx | hx
    · exact h.2 x hx
    · exact hclosed front x (h2.subset hx)

theorem bfsLists_terminates (succ : Label → List Label) (V : List Label)
    (hclosed : ∀ u t, t ∈ succ u → t ∈ V) :
    ∀ (n : Nat) (q out : List Label), (out ++ q).Nodup → (∀ x ∈ out ++ q, x ∈ V) →
      V.length + 1 ≤ n + out.length → ∃ res, bfsLists succ n q out = some res := by
  intro n
  induction n with
  | zero =>
    intro q out hn hs hlen
    have := nodup_length_le (List.Nodup.of_append_left hn)
      (fun x hx => hs x (List.mem_append_left _ hx))
    omega
  | succ n ih =>
    intro q out hn hs hlen
    cases q with
    | nil => exact ⟨out, rfl⟩
    | cons front q =>
      have := bfs_step_nodup succ V hclosed out q front ⟨hn, hs⟩
      simp only [bfsLists]
      refine ih _ _ this.1 this.2 ?_
      simp only [List.length_append, List.length_singleton]
      omega

theorem Closed.targets_mem_keys {g : Graph} (h : g.Closed) :
    ∀ u t, t ∈ g.targets u → t ∈ g.map.keys :=
  fun u t ht => (AdjacencyMap.count_iff_mem_keys _ _).mp (h.targets_count u t ht)

theorem bfsLists_total (g : Graph) (hc : g.Closed) (o : Label) (ho : g.map.count o = true)
    (fuel : Nat) (hf : g.map.length + 1 ≤ fuel) :
    ∃ res, bfsLists g.targets fuel [o] [] = some res := by
  refine bfsLists_terminates g.targets g.map.keys hc.targets_mem_keys fuel [o] [] (by simp) ?_ ?_
  · intro x hx
    simp only [List.nil_append, List.mem_singleton] at hx
    rw [hx]; exact (AdjacencyMap.count_iff_mem_keys _ _).mp ho
  · simp only [AdjacencyMap.keys, List.length_map, List.length_nil]; omega

theorem bfsLists_nodup (g : Graph) (hc : g.Closed) (o : Label) (ho : g.map.count o = true)
    (n : Nat) (res : List Label) (h : bfsLists g.targets n [o] [] = some res) :
    res.Nodup := by
  have := bfsLists_invariant g.targets
    (fun out q => (out ++ q).Nodup ∧ ∀ x ∈ out ++ q, x ∈ g.map.keys)
    (fun out front q hinv => bfs_step_nodup g.targets g.map.keys hc.targets_mem_keys out q front hinv)
    n [o] [] res ⟨by simp, by
      intro x hx
      simp only [List.nil_append, List.mem_singleton] at hx
      rw [hx]; exact (AdjacencyMap.count_iff_mem_keys _ _).mp ho⟩ h
  simpa using this.1

theorem bfs_step_reach (g : Graph) (o : Label) (out q : List Label) (front : Label)
    (h : BfsReach g o out (front :: q)) :
    BfsReach g o (out ++ [front]) (enqueueNew (out ++ [front]) q (g.targets front)) := by
  obtain ⟨N, h1, h2, _, _, h5⟩ := enqueueNew_spec (out ++ [front]) (g.targets front) q
  obtain ⟨hr, hcl, ho⟩ := h
  rw [h1]
  have e : (out ++ [front]) ++ (q ++ N) = (out ++ front :: q) ++ N := by simp
  unfold BfsReach
  rw [e]
  refine ⟨?_, ?_, List.mem_append_left _ ho⟩
  · intro x hx
    rcases List.mem_append.mp hx with hx | hx
    · exact hr x hx
    · exact Relation.ReflTransGen.tail (hr front (by simp)) (h2.subset hx)
  · intro u hu t ht
    rcases List.mem_append.mp hu with hu | hu
    · exact List.mem_append_left _ (hcl u hu t ht)
    · rw [List.mem_singleton.mp hu] at ht
      rcases h5 t ht with h' | h' | h'
      · refine List.mem_append_left _ ?_
        rcases List.mem_append.mp h' with h'' | h''
        · exact List.mem_append_left _ h''
        · rw [List.mem_singleton.mp h'']; simp
      · exact List.mem_append_left _ (by simp [h'])
      · exact List.mem_append_right _ h'

theorem bfsLists_reach (g : Graph) (o : Label) (n : Nat) (res : List Label)
    (h : bfsLists g.targets n [o] [] = some res) : ∀ v, v ∈ res ↔ g.Reachable o v := by
  have := bfsLists_invariant g.targets (BfsReach g o)
    (fun out front q hinv => bfs_step_reach g o out q front hinv) n [o] [] res
    ⟨by
      intro x hx
      simp only [List.nil_append, List.mem_singleton] at hx
      rw [hx]; exact Relation.ReflTransGen.refl, by simp, by simp⟩ h
  obtain ⟨hr, hcl, ho⟩ := this
  simp only [List.append_nil] at hr hcl ho
  intro v
  constructor
  · exact hr v
  · intro hv
    induction hv with
    | refl => exact ho
    | tail _ hbc ih => exact hcl _ ih _ hbc

/-- C7: on a graph whose edge targets are all vertices and whose visited marks
are clear (as in every graph the operations build), for every origin that is
a vertex and enough loop fuel, `BFS` returns, leaves the graph as it was, and
passes to the visitor each label reachable from the origin exactly once and no
other label. -/
theorem BFS_visits_reachable_once (g : Graph) (hc : g.Closed) (hu : g.Unvisited) (o : Label)
    (ho : g.HasVertex o = true) (fuel : Nat) (hf : g.map.length + 1 ≤ fuel) :
    ∃ out, g.BFS fuel o = some (g, out) ∧
      ∀ v, (g.Reachable o v → out.count v = 1) ∧ (¬ g.Reachable o v → out.count v = 0) := by
  obtain ⟨res, hres⟩ := bfsLists_total g hc o ho fuel hf
  refine ⟨res, BFS_sim g hc hu o ho fuel res hres, ?_⟩
  have hn := bfsLists_nodup g hc o ho fuel res hres
  have hr := bfsLists_reach g o fuel res hres
  intro v
  constructor
  · intro hv
    exact List.count_eq_one_of_mem hn ((hr v).mpr hv)
  · intro hv
    exact List.count_eq_zero_of_not_mem (fun h => hv ((hr v).mp h))

/-- Witness for C7: the graph `A -> B, A -> C, B -> C, X -> Y` from origin `A`. -/
theorem BFS_visits_reachable_once_witness :
    (run [.connect "A" "B" 1, .connect "A" "C" 8, .connect "B" "C" 3,
        .connect "X" "Y" 10]).Closed ∧
      ∃ out, (run [.connect "A" "B" 1, .connect "A" "C" 8, .connect "B" "C" 3,
          .connect "X" "Y" 10]).BFS 6 "A" =
        some (run [.connect "A" "B" 1, .connect "A" "C" 8, .connect "B" "C" 3,
          .connect "X" "Y" 10], out) ∧
        ∀ v, ((run [.connect "A" "B" 1, .connect "A" "C" 8, .connect "B" "C" 3,
            .connect "X" "Y" 10]).Reachable "A" v → out.count v = 1) ∧
          (¬ (run [.connect "A" "B" 1, .connect "A" "C" 8, .connect "B" "C" 3,
            .connect "X" "Y" 10]).Reachable "A" v → out.count v = 0) :=
  ⟨by decide, BFS_visits_reachable_once _ (by decide) (by decide) "A" (by decide) 6 (by decide)⟩

/-! ## Level order of the breadth-first trace -/

theorem HopDistance.unique {g : Graph} {o v : Label} {k1 k2 : Nat}
    (h1 : g.HopDistance o v k1) (h2 : g.HopDistance o v k2) : k1 = k2 :=
  Nat.le_antisymm (h1.2 k2 h2.1) (h2.2 k1 h1.1)

theorem HopDistance.origin (g : Graph) (o : Label) : g.HopDistance o o 0 :=
  ⟨rfl, fun _ _ => Nat.zero_le _⟩

/-- Below the distance of the front of the queue every walk ends in a label
already in the trace or the queue. -/
theorem bfs_walk_seen (g : Graph) (o : Label) (out q : List Label) (front : Label)
    (h : BfsLevels g o out (front :: q)) (kf : Nat) (hkf : g.HopDistance o front kf) :
    ∀ m x, g.Walk o m x → m ≤ kf → x ∈ out ++ front :: q := by
  obtain ⟨hcl, ho, hd, hp, _, _⟩ := h
  intro m
  induction m with
  | zero => intro x hx _; rw [show x = o from hx]; exact ho
  | succ m ih =>
    intro x hx hm
    obtain ⟨y, hy, hyx⟩ := hx
    have hyin := ih y hy (by omega)
    obtain ⟨ky, hky⟩ := hd y hyin
    have hkym : ky ≤ m := hky.2 m hy
    rcases List.mem_append.mp hyin with hyo | hyq
    · exact hcl y hyo x hyx
    · exfalso
      rcases List.mem_cons.mp hyq with rfl | hyq
      · have := hky.unique hkf; omega
      · have hfy : g.NotFarther o front y :=
          (List.pairwise_cons.mp (List.pairwise_append.mp hp).2.1).1 y hyq
        have := hfy kf ky hkf hky
        omega

theorem bfs_step_levels (g : Graph) (o : Label) (out q : List Label) (front : Label)
    (h : BfsLevels g o out (front :: q)) :
    BfsLevels g o (out ++ [front]) (enqueueNew (out ++ [front]) q (g.targets front)) := by
  obtain ⟨N, h1, h2, h3, _, h5⟩ := enqueueNew_spec (out ++ [front]) (g.targets front) q
  have hseen := bfs_walk_seen g o out q front h
  obtain ⟨hcl, ho, hd, hp, hq, hhead⟩ := h
  obtain ⟨kf, hkf⟩ := hd front (by simp)
  have e : (out ++ [front]) ++ (q ++ N) = (out ++ front :: q) ++ N := by simp
  -- each new label is exactly one hop farther than the front
  have hnew : ∀ t ∈ N, g.HopDistance o t (kf + 1) := by
    intro t ht
    refine ⟨⟨front, hkf.1, h2.subset ht⟩, ?_⟩
    intro m hm
    by_contra hlt
    have hin := hseen kf hkf m t hm (by omega)
    have hnot := h3 t ht
    rcases List.mem_append.mp hin with hin | hin
    · exact hnot.1 (List.mem_append_left _ hin)
    · rcases List.mem_cons.mp hin with rfl | hin
      · exact hnot.1 (by simp)
      · exact hnot.2 hin
  -- no old label is more than one hop farther than the front
  have hold : ∀ x ∈ out ++ front :: q, ∀ kx, g.HopDistance o x kx → kx ≤ kf + 1 :=
    fun x hx kx hkx => hq front (List.mem_cons_self _ _) x hx kx kf hkx hkf
  -- the queue is not nearer than the front
  have hqge : ∀ y ∈ q, ∀ ky, g.HopDistance o y ky → kf ≤ ky :=
    fun y hy ky hky =>
      (List.pairwise_cons.mp (List.pairwise_append.mp hp).2.1).1 y hy kf ky hkf hky
  rw [h1]
  unfold BfsLevels
  rw [e]
  refine ⟨?_, List.mem_append_left _ ho, ?_, ?_, ?_, ?_⟩
  · intro u hu t ht
    rcases List.mem_append.mp hu with hu | hu
    · exact List.mem_append_left _ (hcl u hu t ht)
    · rw [List.mem_singleton.mp hu] at ht
      rcases h5 t ht with h' | h' | h'
      · refine List.mem_append_left _ ?_
        rcases List.mem_append.mp h' with h'' | h''
        · exact List.mem_append_left _ h''
        · rw [List.mem_singleton.mp h'']; simp
      · exact List.mem_append_left _ (by simp [h'])
      · exact List.mem_append_right _ h'
  · intro x hx
    rcases List.mem_append.mp hx with hx | hx
    · exact hd x hx
    · exact ⟨kf + 1, hnew x hx⟩
  · refine List.pairwise_append.mpr ⟨hp, ?_, ?_⟩
    · refine List.pairwise_of_forall_mem_list ?_
      intro x hx y hy kx ky hkx hky
      have := hkx.unique (hnew x hx)
      have := hky.unique (hnew y hy)
      omega
    · intro x hx t ht kx kt hkx hkt
      have := hkt.unique (hnew t ht)
      have := hold x hx kx hkx
      omega
  · intro y hy x hx kx ky hkx hky
    have hyge : kf ≤ ky := by
      rcases List.mem_append.mp hy with hy | hy
      · exact hqge y hy ky hky
      · have := hky.unique (hnew y hy); omega
    have hxle : kx ≤ kf + 1 := by
      rcases List.mem_append.mp hx with hx | hx
      · exact hold x hx kx hkx
      · have := hkx.unique (hnew x hx); omega
    omega
  · cases out with
    | nil => simpa using hhead
    | cons a out => simpa using hhead

theorem bfsLists_levels (g : Graph) (o : Label) (n : Nat) (res : List Label)
    (h : bfsLists g.targets n [o] [] = some res) : BfsLevels g o res [] := by
  refine bfsLists_invariant g.targets (BfsLevels g o)
    (fun out front q hinv => bfs_step_levels g o out q front hinv) n [o] [] res ?_ h
  refine ⟨by simp, by simp, ?_, by simp, ?_, by simp⟩
  · intro x hx
    simp only [List.nil_append, List.mem_singleton] at hx
    rw [hx]; exact ⟨0, HopDistance.origin g o⟩
  · intro y hy x hx kx ky hkx hky
    simp only [List.nil_append, List.mem_singleton] at hx hy
    subst hx; subst hy
    have := hkx.unique hky
    omega

/-- C9: on a graph whose edge targets are all vertices and whose visited marks
are clear, for every origin that is a vertex and enough loop fuel, the sequence
of labels `BFS` passes to the visitor starts with the origin and is in order of
hop distance from the origin: a label visited earlier is never farther from
the origin than a label visited later. -/
theorem BFS_level_order (g : Graph) (hc : g.Closed) (hu : g.Unvisited) (o : Label)
    (ho : g.HasVertex o = true) (fuel : Nat) (hf : g.map.length + 1 ≤ fuel) :
    ∃ out, g.BFS fuel o = some (g, out) ∧ out.head? = some o ∧
      (∀ x ∈ out, ∃ k, g.HopDistance o x k) ∧
      out.Pairwise (fun x y =>
        ∀ kx ky, g.HopDistance o x kx → g.HopDistance o y ky → kx ≤ ky) := by
  obtain ⟨res, hres⟩ := bfsLists_total g hc o ho fuel hf
  refine ⟨res, BFS_sim g hc hu o ho fuel res hres, ?_⟩
  obtain ⟨_, _, hd, hp, _, hhead⟩ := bfsLists_levels g o fuel res hres
  rw [List.append_nil] at hp hhead hd
  exact ⟨hhead, hd, hp⟩

/-- Witness for C9: the graph `A -> B, A -> C, B -> E, C -> D` from origin `A`. -/
theorem BFS_level_order_witness :
    (run [.connect "A" "B" 0, .connect "A" "C" 0, .connect "B" "E" 0,
        .connect "C" "D" 0]).Closed ∧
      ∃ out, (run [.connect "A" "B" 0, .connect "A" "C" 0, .connect "B" "E" 0,
          .connect "C" "D" 0]).BFS 6 "A" =
        some (run [.connect "A" "B" 0, .connect "A" "C" 0, .connect "B" "E" 0,
          .connect "C" "D" 0], out) ∧ out.head? = some "A" ∧
        (∀ x ∈ out, ∃ k, (run [.connect "A" "B" 0, .connect "A" "C" 0, .connect "B" "E" 0,
          .connect "C" "D" 0]).HopDistance "A" x k) ∧
        out.Pairwise (fun x y => ∀ kx ky,
          (run [.connect "A" "B" 0, .connect "A" "C" 0, .connect "B" "E" 0,
            .connect "C" "D" 0]).HopDistance "A" x kx →
          (run [.connect "A" "B" 0, .connect "A" "C" 0, .connect "B" "E" 0,
            .connect "C" "D" 0]).HopDistance "A" y ky → kx ≤ ky) :=
  ⟨by decide, BFS_level_order _ (by decide) (by decide) "A" (by decide) 6 (by decide)⟩

/-! ## Order inside the levels of the breadth-first trace -/

theorem discoverer_append_of_some (g : Graph) (out ext : List Label) (x p : Label)
    (h : g.discoverer out x = some p) : g.discoverer (out ++ ext) x = some p := by
  simp only [discoverer, List.find?_append] at h ⊢
  rw [h]; rfl

theorem discoverer_mem {g : Graph} {out : List Label} {x p : Label}
    (h : g.discoverer out x = some p) : p ∈ out :=
  List.mem_of_find?_eq_some h

theorem bfs_step_order (g : Graph) (hs : g.ChainsSorted) (o : Label) (out q : List Label)
    (front : Label) (h : BfsOrder g o out (front :: q)) :
    BfsOrder g o (out ++ [front]) (enqueueNew (out ++ [front]) q (g.targets front)) := by
  obtain ⟨N, h1, h2, h3, h4, h5⟩ := enqueueNew_spec (out ++ [front]) (g.targets front) q
  obtain ⟨hn, hcl, ho, hd, hp⟩ := h
  have e : (out ++ [front]) ++ (q ++ N) = (out ++ front :: q) ++ N := by simp
  have hNnot : ∀ t ∈ N, t ∉ out ++ front :: q := by
    intro t ht hin
    have hnot := h3 t ht
    rcases List.mem_append.mp hin with hin | hin
    · exact hnot.1 (List.mem_append_left _ hin)
    · rcases List.mem_cons.mp hin with rfl | hin
      · exact hnot.1 (by simp)
      · exact hnot.2 hin
  have hfront : front ∉ out := by
    intro hf
    exact (List.nodup_append.mp hn).2.2 hf (List.mem_cons_self _ _)
  -- the discoverer of a new label is the front
  have hdnew : ∀ t ∈ N, g.discoverer (out ++ [front]) t = some front := by
    intro t ht
    have hnone : g.discoverer out t = none := by
      simp only [discoverer, List.find?_eq_none, decide_eq_true_eq]
      intro u hu hut
      exact hNnot t ht (hcl u hu t hut)
    simp only [discoverer, List.find?_append] at hnone ⊢
    rw [hnone]
    simp only [Option.none_or, List.find?_cons, List.find?_nil]
    have : g.hasEdge front t := h2.subset ht
    simp [this]
  -- the discoverer of an old label stays
  have hdold : ∀ x ∈ out ++ front :: q, x ≠ o → ∀ p,
      g.discoverer (out ++ [front]) x = some p → g.discoverer out x = some p := by
    intro x hx hxo p hp'
    obtain ⟨p0, hp0⟩ := hd x hx hxo
    rw [discoverer_append_of_some g out [front] x p0 hp0] at hp'
    rw [hp0, ← hp']
  rw [h1]
  unfold BfsOrder
  rw [e]
  refine ⟨?_, ?_, List.mem_append_left _ ho, ?_, ?_⟩
  · exact List.Nodup.append hn h4 (fun x hx hxN => hNnot x hxN hx)
  · intro u hu t ht
    rcases List.mem_append.mp hu with hu | hu
    · exact List.mem_append_left _ (hcl u hu t ht)
    · rw [List.mem_singleton.mp hu] at ht
      rcases h5 t ht with h' | h' | h'
      · refine List.mem_append_left _ ?_
        rcases List.mem_append.mp h' with h'' | h''
        · exact List.mem_append_left _ h''
        · rw [List.mem_singleton.mp h'']; simp
      · exact List.mem_append_left _ (by simp [h'])
      · exact List.mem_append_right _ h'
  · intro x hx hxo
    rcases List.mem_append.mp hx with hx | hx
    · obtain ⟨p0, hp0⟩ := hd x hx hxo
      exact ⟨p0, discoverer_append_of_some g out [front] x p0 hp0⟩
    · exact ⟨front, hdnew x hx⟩
  · refine List.pairwise_append.mpr ⟨?_, ?_, ?_⟩
    · refine hp.imp_of_mem ?_
      intro x y hx hy hxy hxo hyo p q' hp' hq'
      rcases hxy hxo hyo p q' (hdold x hx hxo p hp') (hdold y hy hyo q' hq') with hsub | hsame
      · exact Or.inl (hsub.trans (List.sublist_append_left _ _))
      · exact Or.inr hsame
    · have hsorted : N.Pairwise (fun a b => labelLt a b = true) :=
        List.Pairwise.sublist h2 (targets_sorted g hs front)
      refine hsorted.imp_of_mem ?_
      intro x y hx hy hxy _ _ p q' hp' hq'
      rw [hdnew x hx] at hp'
      rw [hdnew y hy] at hq'
      simp only [Option.some.injEq] at hp' hq'
      exact Or.inr ⟨hp'.symm.trans hq', hxy⟩
    · intro x hx t ht hxo _ p q' hp' hq'
      rw [hdnew t ht] at hq'
      simp only [Option.some.injEq] at hq'
      subst hq'
      have hpin : p ∈ out := discoverer_mem (hdold x hx hxo p hp')
      refine Or.inl ?_
      exact List.Sublist.append (List.singleton_sublist.mpr hpin) (List.Sublist.refl [front])

theorem bfsLists_order (g : Graph) (hs : g.ChainsSorted) (o : Label) (n : Nat)
    (res : List Label) (h : bfsLists g.targets n [o] [] = some res) : BfsOrder g o res [] := by
  refine bfsLists_invariant g.targets (BfsOrder g o)
    (fun out front q hinv => bfs_step_order g hs o out q front hinv) n [o] [] res ?_ h
  refine ⟨by simp, by simp, by simp, ?_, by simp⟩
  intro x hx hxo
  simp only [List.nil_append, List.mem_singleton] at hx
  exact absurd hx hxo

theorem sublist_pair_or_swap {l : List Label} {x y : Label} (hx : x ∈ l) (hy : y ∈ l)
    (hxy : x ≠ y) : [x, y].Sublist l ∨ [y, x].Sublist l := by
  obtain ⟨s, t, rfl⟩ := List.append_of_mem hx
  rcases List.mem_append.mp hy with hys | hyt
  · right
    exact List.Sublist.append (List.singleton_sublist.mpr hys)
      ((List.Sublist.refl [x]).trans (List.singleton_sublist.mpr (List.mem_cons_self _ _)))
  · rcases List.mem_cons.mp hyt with rfl | hyt
    · exact absurd rfl hxy
    · left
      exact ((List.singleton_sublist.mpr hyt).cons₂ x).trans (List.sublist_append_right _ _)

theorem split_of_sublist_pair {l : List Label} {x y : Label} (h : [x, y].Sublist l) :
    ∃ l1 l2 l3, l = l1 ++ x :: l2 ++ y :: l3 := by
  obtain ⟨r1, r2, rfl, hx, hy⟩ := List.cons_sublist_iff.mp h
  obtain ⟨s, t, rfl⟩ := List.append_of_mem hx
  obtain ⟨s2, t2, rfl⟩ := List.append_of_mem (List.singleton_sublist.mp hy)
  exact ⟨s, t ++ s2, t2, by simp⟩

theorem levelExample_distance_E : levelExample.HopDistance "A" "E" 2 := by
  refine ⟨⟨"B", ⟨"A", rfl, by decide⟩, by decide⟩, ?_⟩
  intro m hm
  match m, hm with
  | 0, hm => exact absurd (show ((_ : Label) = "A") from hm) (by decide)
  | 1, ⟨u, hu, hue⟩ => rw [show u = "A" from hu] at hue; exact absurd hue (by decide)
  | _ + 2, _ => omega

theorem levelExample_distance_D : levelExample.HopDistance "A" "D" 2 := by
  refine ⟨⟨"C", ⟨"A", rfl, by decide⟩, by decide⟩, ?_⟩
  intro m hm
  match m, hm with
  | 0, hm => exact absurd (show ((_ : Label) = "A") from hm) (by decide)
  | 1, ⟨u, hu, hue⟩ => rw [show u = "A" from hu] at hue; exact absurd hue (by decide)
  | _ + 2, _ => omega

/-- C10 (as stated, refuted): on the graph `A -> B, A -> C, B -> E, C -> D`,
`BFS("A")` passes `A, B, C, E, D` to the visitor: `E` and `D` are both at hop
distance 2, `E` is visited before `D`, and `D` is the smaller label. -/
theorem BFS_level_not_ascending :
    levelExample.BFS 6 "A" = some (levelExample, ["A", "B", "C", "E", "D"]) ∧
      levelExample.HopDistance "A" "E" 2 ∧ levelExample.HopDistance "A" "D" 2 ∧
      ("D" : Label) < "E" :=
  ⟨by decide, levelExample_distance_E, levelExample_distance_D,
    (labelLt_iff "D" "E").mp (by decide)⟩

/-- C10 (amended): on a graph with ascending chains whose edge targets are all
vertices and whose visited marks are clear, for every origin that is a vertex
and enough loop fuel, two visited labels other than the origin that have the
same discoverer (the first visited label with an edge to them) are passed to
the visitor in ascending label order; this holds in particular for two such
labels of one level. -/
theorem BFS_ascending_per_discoverer (g : Graph) (hc : g.Closed) (hs : g.ChainsSorted)
    (hu : g.Unvisited) (o : Label) (ho : g.HasVertex o = true) (fuel : Nat)
    (hf : g.map.length + 1 ≤ fuel) :
    ∃ out, g.BFS fuel o = some (g, out) ∧
      ∀ x y p, x ∈ out → y ∈ out → x ≠ o → y ≠ o →
        g.discoverer out x = some p → g.discoverer out y = some p → x < y →
        ∃ l1 l2 l3, out = l1 ++ x :: l2 ++ y :: l3 := by
  obtain ⟨res, hres⟩ := bfsLists_total g hc o ho fuel hf
  refine ⟨res, BFS_sim g hc hu o ho fuel res hres, ?_⟩
  obtain ⟨hn, _, _, _, hp⟩ := bfsLists_order g hs o fuel res hres
  rw [List.append_nil] at hn hp
  intro x y p hx hy hxo hyo hpx hpy hxy
  rcases sublist_pair_or_swap hx hy (ne_of_lt hxy) with h | h
  · exact split_of_sublist_pair h
  · exfalso
    have hyx : g.DiscoveryOrder o res y x := by
      have := List.Pairwise.sublist h hp
      simpa using this
    rcases hyx hyo hxo p p hpy hpx with hsub | ⟨_, hlt⟩
    · have := List.Nodup.sublist hsub hn
      simp at this
    · exact lt_asymm hxy ((labelLt_iff y x).mp hlt)

/-- Witness for C10: the graph `A -> B, A -> C, B -> E, C -> D` from origin `A`. -/
theorem BFS_ascending_per_discoverer_witness :
    levelExample.Closed ∧ levelExample.ChainsSorted ∧ levelExample.Unvisited ∧
      ∃ out, levelExample.BFS 6 "A" = some (levelExample, out) ∧
        ∀ x y p, x ∈ out → y ∈ out → x ≠ "A" → y ≠ "A" →
          levelExample.discoverer out x = some p → levelExample.discoverer out y = some p →
          x < y → ∃ l1 l2 l3, out = l1 ++ x :: l2 ++ y :: l3 :=
  ⟨by decide, by decide, by decide,
    BFS_ascending_per_discoverer levelExample (by decide) (by decide) (by decide) "A"
      (by decide) 6 (by decide)⟩

/-! ## The depth-first loop on lists -/

theorem nextVertex_sim (g0 g : Graph) (out : List Label) (hm : Marked g0 g out) :
    ∀ (c : List Edge), (∀ e ∈ c, g0.map.count e.label = true) →
      nextVertex g c = some (firstUnseen out (c.map Edge.label)) := by
  intro c
  induction c with
  | nil => intro _; rfl
  | cons e rest ih =>
    intro hc
    have hce : g0.map.count e.label = true := hc e (List.mem_cons_self _ _)
    obtain ⟨temp, ht⟩ := AdjacencyMap.find?_isSome_of_count (by rw [hm.count_eq]; exact hce)
    have hv := isVisited_eq_of_find? ht
    by_cases hvis : g.isVisited e.label = true
    · have hin : e.label ∈ out := (hm.2.2 e.label).mp hvis
      simp only [nextVertex, ht, hv, hvis, Bool.not_true, Bool.false_eq_true, if_false,
        List.map_cons, firstUnseen, hin, if_true]
      exact ih (fun x hx => hc x (List.mem_cons_of_mem _ hx))
    · have hnin : e.label ∉ out := fun h => hvis ((hm.2.2 e.label).mpr h)
      rw [Bool.not_eq_true] at hvis
      simp only [nextVertex, ht, hv, hvis, Bool.not_false, if_true, List.map_cons, firstUnseen,
        hnin, if_false]

theorem firstUnseen_mem {seen ts : List Label} {w : Label}
    (h : firstUnseen seen ts = some w) : w ∈ ts ∧ w ∉ seen := by
  induction ts with
  | nil => simp [firstUnseen] at h
  | cons t ts ih =>
    by_cases ht : t ∈ seen
    · simp only [firstUnseen, ht, if_true] at h
      exact ⟨List.mem_cons_of_mem _ (ih h).1, (ih h).2⟩
    · simp only [firstUnseen, ht, if_false, Option.some.injEq] at h
      subst h
      exact ⟨List.mem_cons_self _ _, ht⟩

theorem dfs_sim (g0 : Graph) (hc : g0.Closed) (hne : g0.map.count NO_LABEL = false) :
    ∀ (n : Nat) (g : Graph) (stack out res : List Label), Marked g0 g out →
      (∀ x ∈ stack, g0.map.count x = true) →
      dfsLists g0.targets n stack out = some res →
      ∃ g1, dfs n g stack out = some (g1, res) ∧ Marked g0 g1 res := by
  intro n
  induction n with
  | zero => intro g stack out res _ _ h; simp [dfsLists] at h
  | succ n ih =>
    intro g stack out res hm hst h
    cases stack with
    | nil =>
      simp only [dfsLists, Option.some.injEq] at h
      subst h
      exact ⟨g, rfl, hm⟩
    | cons top rest =>
      have htop : g0.map.count top = true := hst top (List.mem_cons_self _ _)
      have hkey : ∀ l, g0.map.count l = true → l ≠ NO_LABEL := by
        intro l hl e; rw [e, hne] at hl; exact Bool.noConfusion hl
      obtain ⟨curr, hcurr⟩ :=
        AdjacencyMap.find?_isSome_of_count (by rw [hm.count_eq]; exact htop)
      have hv := isVisited_eq_of_find? hcurr
      have hchain : curr.next = g0.chain top := by
        rw [← hm.chain_eq top]; simp [chain, hcurr]
      by_cases hin : top ∈ out
      · have hvis : curr.visited = true := by rw [hv]; exact (hm.2.2 top).mpr hin
        have hnv := nextVertex_sim g0 g out hm curr.next
          (by rw [hchain]; exact hc.chain_count top)
        rw [hchain] at hnv
        simp only [dfsLists, hin, if_true] at h
        cases hfu : firstUnseen out (List.map Edge.label (g0.chain top)) with
        | none =>
          have h' : dfsLists g0.targets n rest out = some res := by
            simpa [targets, hfu] using h
          obtain ⟨g1, h1, h2⟩ := ih g rest out res hm
            (fun x hx => hst x (List.mem_cons_of_mem _ hx)) h'
          refine ⟨g1, ?_, h2⟩
          simp only [dfs, nextLabel, hcurr, hvis, if_true, hchain, hnv, hfu, ne_eq,
            not_true_eq_false, if_false]
          exact h1
        | some w =>
          have h' : dfsLists g0.targets n (w :: top :: rest) (out ++ [w]) = some res := by
            simpa [targets, hfu] using h
          have hw : g0.map.count w = true :=
            hc.targets_count top w (firstUnseen_mem hfu).1
          obtain ⟨g1, h1, h2⟩ := ih (g.setVisited w true) _ _ res (hm.mark w hw)
            (fun x hx => by
              rcases List.mem_cons.mp hx with rfl | hx
              · exact hw
              · exact hst x hx) h'
          refine ⟨g1, ?_, h2⟩
          simp only [dfs, nextLabel, hcurr, hvis, if_true, hchain, hnv, hfu, ne_eq,
            hkey w hw, not_false_eq_true]
          exact h1
      · have hvis : curr.visited = false := by
          rw [hv, ← Bool.not_eq_true]; exact fun h' => hin ((hm.2.2 top).mp h')
        simp only [dfsLists, hin, if_false] at h
        obtain ⟨g1, h1, h2⟩ := ih (g.setVisited top true) _ _ res (hm.mark top htop)
          (fun x hx => by
            rcases List.mem_cons.mp hx with rfl | hx
            · exact htop
            · exact hst x hx) h
        refine ⟨g1, ?_, h2⟩
        simp only [dfs, nextLabel, hcurr, hvis, Bool.false_eq_true, if_false, ne_eq,
          hkey top htop, not_false_eq_true, if_true]
        exact h1

theorem DFS_sim (g : Graph) (hc : g.Closed) (hu : g.Unvisited)
    (hne : g.map.count NO_LABEL = false) (o : Label) (ho : g.map.count o = true) (n : Nat)
    (res : List Label) (h : dfsLists g.targets n [o] [] = some res) :
    DFS n g o = some (g, res) := by
  obtain ⟨g1, h1, h2⟩ := dfs_sim g hc hne n g [o] [] res (Marked.refl g hu)
    (fun x hx => by rw [List.mem_singleton.mp hx]; exact ho) h
  simp only [DFS, ho, if_true, h1, h2.unvisit_eq hu]

/-! ## The recursive search -/

theorem recDFS_of_mem (succ : Label → List Label) (d : Nat) (v : Label) (s : List Label)
    (h : v ∈ s) : recDFS succ d v s = s := by
  cases d with
  | zero => rfl
  | succ d => simp [recDFS, h]

theorem recDFS_of_not_mem (succ : Label → List Label) (d : Nat) (v : Label) (s : List Label)
    (h : v ∉ s) : recDFS succ (d + 1) v s = exploreAll succ d (succ v) (s ++ [v]) := by
  simp [recDFS, h, exploreAll]

theorem exploreAll_nil (succ : Label → List Label) (d : Nat) (s : List Label) :
    exploreAll succ d [] s = s := rfl

theorem exploreAll_cons (succ : Label → List Label) (d : Nat) (w : Label)
    (ts s : List Label) :
    exploreAll succ d (w :: ts) s = exploreAll succ d ts (recDFS succ d w s) := rfl

theorem exploreAll_append (succ : Label → List Label) (d : Nat) (ts1 ts2 s : List Label) :
    exploreAll succ d (ts1 ++ ts2) s = exploreAll succ d ts2 (exploreAll succ d ts1 s) := by
  simp [exploreAll, List.foldl_append]

theorem exploreAll_of_subset (succ : Label → List Label) (d : Nat) (ts s : List Label)
    (h : ∀ t ∈ ts, t ∈ s) : exploreAll succ d ts s = s := by
  induction ts with
  | nil => rfl
  | cons t ts ih =>
    rw [exploreAll_cons, recDFS_of_mem succ d t s (h t (List.mem_cons_self _ _))]
    exact ih (fun x hx => h x (List.mem_cons_of_mem _ hx))

/-- The recursive search only appends fresh vertices to the pre-order. -/
theorem recDFS_good (succ : Label → List Label) (V : List Label)
    (hclosed : ∀ u t, t ∈ succ u → t ∈ V) :
    ∀ (d : Nat) (v : Label) (s : List Label), v ∈ V → s.Nodup → (∀ x ∈ s, x ∈ V) →
      (recDFS succ d v s).Nodup ∧ (∀ x ∈ recDFS succ d v s, x ∈ V) ∧
        ∃ t, recDFS succ d v s = s ++ t := by
  intro d
  induction d with
  | zero => intro v s _ hn hs; exact ⟨hn, hs, [], by simp [recDFS]⟩
  | succ d ih =>
    intro v s hv hn hs
    by_cases hvs : v ∈ s
    · rw [recDFS_of_mem succ _ v s hvs]; exact ⟨hn, hs, [], by simp⟩
    · rw [recDFS_of_not_mem succ d v s hvs]
      have key : ∀ (ts s' : List Label), (∀ w ∈ ts, w ∈ V) → s'.Nodup → (∀ x ∈ s', x ∈ V) →
          (exploreAll succ d ts s').Nodup ∧ (∀ x ∈ exploreAll succ d ts s', x ∈ V) ∧
            ∃ t, exploreAll succ d ts s' = s' ++ t := by
        intro ts
        induction ts with
        | nil => intro s' _ hn' hs'; exact ⟨hn', hs', [], by simp [exploreAll]⟩
        | cons w ts iht =>
          intro s' hts hn' hs'
          obtain ⟨h1, h2, t1, h3⟩ := ih w s' (hts w (List.mem_cons_self _ _)) hn' hs'
          obtain ⟨h4, h5, t2, h6⟩ := iht (recDFS succ d w s')
            (fun x hx => hts x (List.mem_cons_of_mem _ hx)) h1 h2
          rw [exploreAll_cons]
          exact ⟨h4, h5, t1 ++ t2, by rw [h6, h3, List.append_assoc]⟩
      have hn1 : (s ++ [v]).Nodup := by
        refine List.Nodup.append hn (by simp) ?_
        intro x hx hx'
        rw [List.mem_singleton.mp hx'] at hx
        exact hvs hx
      have hs1 : ∀ x ∈ s ++ [v], x ∈ V := by
        intro x hx
        rcases List.mem_append.mp hx with hx | hx
        · exact hs x hx
        · rw [List.mem_singleton.mp hx]; exact hv
      obtain ⟨h1, h2, t, h3⟩ := key (succ v) (s ++ [v]) (fun w hw => hclosed v w hw) hn1 hs1
      exact ⟨h1, h2, [v] ++ t, by rw [h3, List.append_assoc]⟩

theorem exploreAll_good (succ : Label → List Label) (V : List Label)
    (hclosed : ∀ u t, t ∈ succ u → t ∈ V) (d : Nat) :
    ∀ (ts s : List Label), (∀ w ∈ ts, w ∈ V) → s.Nodup → (∀ x ∈ s, x ∈ V) →
      (exploreAll succ d ts s).Nodup ∧ (∀ x ∈ exploreAll succ d ts s, x ∈ V) ∧
        ∃ t, exploreAll succ d ts s = s ++ t := by
  intro ts
  induction ts with
  | nil => intro s _ hn hs; exact ⟨hn, hs, [], by simp [exploreAll]⟩
  | cons w ts iht =>
    intro s hts hn hs
    obtain ⟨h1, h2, t1, h3⟩ :=
      recDFS_good succ V hclosed d w s (hts w (List.mem_cons_self _ _)) hn hs
    obtain ⟨h4, h5, t2, h6⟩ := iht (recDFS succ d w s)
      (fun x hx => hts x (List.mem_cons_of_mem _ hx)) h1 h2
    rw [exploreAll_cons]
    exact ⟨h4, h5, t1 ++ t2, by rw [h6, h3, List.append_assoc]⟩

theorem recDFS_mem_self (succ : Label → List Label) (V : List Label)
    (hclosed : ∀ u t, t ∈ succ u → t ∈ V) (d : Nat) (v : Label) (s : List Label)
    (hv : v ∈ V) (hn : s.Nodup) (hs : ∀ x ∈ s, x ∈ V) : v ∈ recDFS succ (d + 1) v s := by
  by_cases hvs : v ∈ s
  · rw [recDFS_of_mem succ _ v s hvs]; exact hvs
  · rw [recDFS_of_not_mem succ d v s hvs]
    have hn1 : (s ++ [v]).Nodup := by
      refine List.Nodup.append hn (by simp) ?_
      intro x hx hx'
      rw [List.mem_singleton.mp hx'] at hx
      exact hvs hx
    have hs1 : ∀ x ∈ s ++ [v], x ∈ V := by
      intro x hx
      rcases List.mem_append.mp hx with hx | hx
      · exact hs x hx
      · rw [List.mem_singleton.mp hx]; exact hv
    obtain ⟨_, _, t, h3⟩ :=
      exploreAll_good succ V hclosed d (succ v) (s ++ [v]) (fun w hw => hclosed v w hw) hn1 hs1
    rw [h3]; simp

theorem exploreAll_mem (succ : Label → List Label) (V : List Label)
    (hclosed : ∀ u t, t ∈ succ u → t ∈ V) (d : Nat) :
    ∀ (ts s : List Label), (∀ w ∈ ts, w ∈ V) → s.Nodup → (∀ x ∈ s, x ∈ V) →
      ∀ w ∈ ts, w ∈ exploreAll succ (d + 1) ts s := by
  intro ts
  induction ts with
  | nil => intro s _ _ _ w hw; simp at hw
  | cons t ts iht =>
    intro s hts hn hs w hw
    have htV := hts t (List.mem_cons_self _ _)
    obtain ⟨h1, h2, _, _⟩ := recDFS_good succ V hclosed (d + 1) t s htV hn hs
    have hts' : ∀ x ∈ ts, x ∈ V := fun x hx => hts x (List.mem_cons_of_mem _ hx)
    rw [exploreAll_cons]
    rcases List.mem_cons.mp hw with rfl | hw
    · obtain ⟨_, _, t2, h6⟩ := exploreAll_good succ V hclosed (d + 1) ts _ hts' h1 h2
      rw [h6]
      exact List.mem_append_left _ (recDFS_mem_self succ V hclosed d w s htV hn hs)
    · exact iht _ hts' h1 h2 w hw

theorem firstUnseen_none {seen ts : List Label} (h : firstUnseen seen ts = none) :
    ∀ t ∈ ts, t ∈ seen := by
  induction ts with
  | nil => intro t ht; simp at ht
  | cons a ts ih =>
    by_cases ha : a ∈ seen
    · simp only [firstUnseen, ha, if_true] at h
      intro t ht
      rcases List.mem_cons.mp ht with rfl | ht
      · exact ha
      · exact ih h t ht
    · simp [firstUnseen, ha] at h

theorem firstUnseen_none_of_subset {seen ts : List Label} (h : ∀ t ∈ ts, t ∈ seen) :
    firstUnseen seen ts = none := by
  induction ts with
  | nil => rfl
  | cons a ts ih =>
    simp only [firstUnseen, h a (List.mem_cons_self _ _), if_true]
    exact ih (fun t ht => h t (List.mem_cons_of_mem _ ht))

theorem firstUnseen_split {seen ts : List Label} {w : Label}
    (h : firstUnseen seen ts = some w) :
    ∃ pre post, ts = pre ++ w :: post ∧ (∀ x ∈ pre, x ∈ seen) ∧ w ∉ seen := by
  induction ts with
  | nil => simp [firstUnseen] at h
  | cons a ts ih =>
    by_cases ha : a ∈ seen
    · simp only [firstUnseen, ha, if_true] at h
      obtain ⟨pre, post, e, h1, h2⟩ := ih h
      refine ⟨a :: pre, post, by rw [e]; rfl, ?_, h2⟩
      intro x hx
      rcases List.mem_cons.mp hx with rfl | hx
      · exact ha
      · exact h1 x hx
    · simp only [firstUnseen, ha, if_false, Option.some.injEq] at h
      subst h
      exact ⟨[], ts, rfl, by simp, ha⟩

/-! ## The loop with a stack computes the recursive pre-order -/

theorem dfsLists_pop (succ : Label → List Label) (v : Label) (rest s : List Label) (f : Nat)
    (hv : v ∈ s) (hfu : firstUnseen s (succ v) = none) :
    dfsLists succ (f + 1) (v :: rest) s = dfsLists succ f rest s := by
  simp [dfsLists, hv, hfu]

theorem dfsLists_push (succ : Label → List Label) (v w : Label) (rest s : List Label) (f : Nat)
    (hv : v ∈ s) (hfu : firstUnseen s (succ v) = some w) :
    dfsLists succ (f + 1) (v :: rest) s = dfsLists succ f (w :: v :: rest) (s ++ [w]) := by
  simp [dfsLists, hv, hfu]

/-- With a visited vertex `v` on top of the stack, the loop explores the
successors of `v` as the recursive search does and then pops `v`. -/
theorem dfsLists_explore (succ : Label → List Label) (V : List Label)
    (hclosed : ∀ u t, t ∈ succ u → t ∈ V) :
    ∀ (m : Nat) (s : List Label), s.Nodup → (∀ x ∈ s, x ∈ V) → V.length ≤ m + s.length →
      ∀ (d : Nat), V.length ≤ d + s.length → ∀ (v : Label), v ∈ s →
      ∀ (rest : List Label) (f : Nat),
        ∃ t, exploreAll succ d (succ v) s = s ++ t ∧
          dfsLists succ (2 * t.length + 1 + f) (v :: rest) s = dfsLists succ f rest (s ++ t) := by
  intro m
  induction m with
  | zero =>
    intro s hn hs hm d _ v hv rest f
    cases hfu : firstUnseen s (succ v) with
    | none =>
      refine ⟨[], ?_, ?_⟩
      · rw [exploreAll_of_subset succ d _ s (firstUnseen_none hfu)]; simp
      · have e : 2 * ([] : List Label).length + 1 + f = f + 1 := by simp; omega
        rw [e, dfsLists_pop succ v rest s f hv hfu]; simp
    | some w =>
      exfalso
      obtain ⟨hw1, hw2⟩ := firstUnseen_mem hfu
      have hn1 : (s ++ [w]).Nodup := by
        refine List.Nodup.append hn (by simp) ?_
        intro x hx hx'
        rw [List.mem_singleton.mp hx'] at hx
        exact hw2 hx
      have := nodup_length_le hn1 (by
        intro x hx
        rcases List.mem_append.mp hx with hx | hx
        · exact hs x hx
        · rw [List.mem_singleton.mp hx]; exact hclosed v w hw1)
      simp only [List.length_append, List.length_singleton] at this
      omega
  | succ m ih =>
    intro s hn hs hm d hd v hv rest f
    cases hfu : firstUnseen s (succ v) with
    | none =>
      refine ⟨[], ?_, ?_⟩
      · rw [exploreAll_of_subset succ d _ s (firstUnseen_none hfu)]; simp
      · have e : 2 * ([] : List Label).length + 1 + f = f + 1 := by simp; omega
        rw [e, dfsLists_pop succ v rest s f hv hfu]; simp
    | some w =>
      obtain ⟨pre, post, hsplit, hpre, hw2⟩ := firstUnseen_split hfu
      have hw1 : w ∈ succ v := (firstUnseen_mem hfu).1
      have hwV : w ∈ V := hclosed v w hw1
      have hn1 : (s ++ [w]).Nodup := by
        refine List.Nodup.append hn (by simp) ?_
        intro x hx hx'
        rw [List.mem_singleton.mp hx'] at hx
        exact hw2 hx
      have hs1 : ∀ x ∈ s ++ [w], x ∈ V := by
        intro x hx
        rcases List.mem_append.mp hx with hx | hx
        · exact hs x hx
        · rw [List.mem_singleton.mp hx]; exact hwV
      have hlen := nodup_length_le hn1 hs1
      simp only [List.length_append, List.length_singleton] at hlen
      -- the recursion depth is positive
      obtain ⟨d', rfl⟩ : ∃ d', d = d' + 1 := ⟨d - 1, by omega⟩
      -- explore below `w`
      obtain ⟨t1, he1, hl1⟩ := ih (s ++ [w]) hn1 hs1
        (by simp only [List.length_append, List.length_singleton]; omega) d'
        (by simp only [List.length_append, List.length_singleton]; omega) w (by simp)
        (v :: rest) (2 * 0 + 1 + 0)
      have hrec : recDFS succ (d' + 1) w s = s ++ [w] ++ t1 := by
        rw [recDFS_of_not_mem succ d' w s hw2, he1]
      obtain ⟨hn2, hs2, _, _⟩ := recDFS_good succ V hclosed (d' + 1) w s hwV hn hs
      rw [hrec] at hn2 hs2
      -- back at `v`, explore the rest of its successors
      obtain ⟨t2, he2, hl2⟩ := ih (s ++ [w] ++ t1) hn2 hs2
        (by simp only [List.length_append, List.length_singleton]; omega) (d' + 1)
        (by simp only [List.length_append, List.length_singleton]; omega) v (by simp [hv])
        rest f
      refine ⟨[w] ++ t1 ++ t2, ?_, ?_⟩
      · have e1 : exploreAll succ (d' + 1) (succ v) s =
            exploreAll succ (d' + 1) post (s ++ [w] ++ t1) := by
          rw [hsplit, exploreAll_append, exploreAll_cons,
            exploreAll_of_subset succ _ pre s hpre, hrec]
        have e2 : exploreAll succ (d' + 1) (succ v) (s ++ [w] ++ t1) =
            exploreAll succ (d' + 1) post (s ++ [w] ++ t1) := by
          rw [hsplit, exploreAll_append, exploreAll_cons,
            exploreAll_of_subset succ _ pre _ (fun x hx => by simp [hpre x hx]),
            recDFS_of_mem succ _ w _ (by simp)]
        rw [e1, ← e2, he2]; simp
      · obtain ⟨t1', he1', hl1'⟩ := ih (s ++ [w]) hn1 hs1
          (by simp only [List.length_append, List.length_singleton]; omega) d'
          (by simp only [List.length_append, List.length_singleton]; omega) w (by simp)
          (v :: rest) (2 * t2.length + 1 + f)
        have ht : t1' = t1 := List.append_cancel_left (he1'.symm.trans he1)
        subst ht
        have e : 2 * ([w] ++ t1' ++ t2).length + 1 + f =
            (2 * t1'.length + 1 + (2 * t2.length + 1 + f)) + 1 := by
          simp only [List.length_append, List.length_singleton]; omega
        rw [e, dfsLists_push succ v w rest s _ hv hfu, hl1', hl2]
        simp

theorem dfsLists_eq_recDFS (succ : Label → List Label) (V : List Label)
    (hclosed : ∀ u t, t ∈ succ u → t ∈ V) (o : Label) (ho : o ∈ V) (d : Nat)
    (hd : V.length ≤ d) (fuel : Nat) (hf : 2 * V.length + 2 ≤ fuel) :
    dfsLists succ fuel [o] [] = some (recDFS succ (d + 1) o []) := by
  have hpos : 0 < V.length := List.length_pos_of_mem ho
  have hn1 : ([o] : List Label).Nodup := by simp
  have hs1 : ∀ x ∈ [o], x ∈ V := by
    intro x hx; rw [List.mem_singleton.mp hx]; exact ho
  have hrec : recDFS succ (d + 1) o [] = exploreAll succ d (succ o) [o] := by
    rw [recDFS_of_not_mem succ d o [] (by simp)]; rfl
  obtain ⟨t1, he1, _⟩ := dfsLists_explore succ V hclosed V.length [o] hn1 hs1 (by simp) d
    (by simp; omega) o (by simp) [o] 0
  obtain ⟨hn2, hs2, _, _⟩ :=
    exploreAll_good succ V hclosed d (succ o) [o] (fun w hw => hclosed o w hw) hn1 hs1
  rw [he1] at hn2 hs2
  have hlen := nodup_length_le hn2 hs2
  simp only [List.length_append, List.length_singleton] at hlen
  -- every successor of the origin is in the pre-order
  have hall : ∀ w ∈ succ o, w ∈ [o] ++ t1 := by
    obtain ⟨d', rfl⟩ : ∃ d', d = d' + 1 := ⟨d - 1, by omega⟩
    intro w hw
    rw [← he1]
    exact exploreAll_mem succ V hclosed d' (succ o) [o] (fun w hw => hclosed o w hw) hn1 hs1 w hw
  obtain ⟨extra, hfuel⟩ : ∃ extra, fuel = (2 * t1.length + 1 + (extra + 1 + 1)) + 1 :=
    ⟨fuel - (2 * t1.length + 4), by omega⟩
  obtain ⟨t1', he1', hl1⟩ := dfsLists_explore succ V hclosed V.length [o] hn1 hs1 (by simp) d
    (by simp; omega) o (by simp) [o] (extra + 1 + 1)
  have ht : t1' = t1 := List.append_cancel_left (he1'.symm.trans he1)
  subst ht
  have hstart : dfsLists succ ((2 * t1'.length + 1 + (extra + 1 + 1)) + 1) [o] [] =
      dfsLists succ (2 * t1'.length + 1 + (extra + 1 + 1)) [o, o] [o] := by
    simp [dfsLists]
  rw [hfuel, hstart, hl1,
    dfsLists_pop succ o [] ([o] ++ t1') (extra + 1) (by simp) (firstUnseen_none_of_subset hall),
    hrec, he1]
  rfl

theorem ascendingTargets_eq (g : Graph) (hs : g.ChainsSorted) :
    g.ascendingTargets = g.targets := by
  funext v
  unfold ascendingTargets
  apply List.Sorted.insertionSort_eq
  refine (targets_sorted g hs v).imp ?_
  intro a b hab
  rw [labelLt_eq_false_iff]
  exact le_of_lt ((labelLt_iff a b).mp hab)

/-- C8: on a graph without a vertex of the empty label (with ascending chains,
edge targets that are vertices and clear visited marks, as in every graph the
operations build), for every origin that is a vertex and enough loop fuel, the
sequence of labels the stack-based `DFS` passes to the visitor is the pre-order
of the recursive depth-first search that starts at the origin and explores the
outgoing edges of each vertex in ascending target-label order; the graph is
left as it was. -/
theorem DFS_eq_recursive_preorder (g : Graph) (hc : g.Closed) (hs : g.ChainsSorted)
    (hu : g.Unvisited) (hne : g.HasVertex NO_LABEL = false) (o : Label)
    (ho : g.HasVertex o = true) (fuel : Nat) (hf : 2 * g.map.length + 2 ≤ fuel)
    (depth : Nat) (hd : g.map.length + 1 ≤ depth) :
    g.DFS fuel o = some (g, g.recursivePreorder depth o) := by
  obtain ⟨d, rfl⟩ : ∃ d, depth = d + 1 := ⟨depth - 1, by omega⟩
  have hV : g.map.keys.length = g.map.length := by simp [AdjacencyMap.keys]
  have h := dfsLists_eq_recDFS g.targets g.map.keys hc.targets_mem_keys o
    ((AdjacencyMap.count_iff_mem_keys _ _).mp ho) d (by omega) fuel (by omega)
  unfold recursivePreorder
  rw [ascendingTargets_eq g hs]
  exact DFS_sim g hc hu hne o ho fuel _ h

/-- Witness for C8: the graph `O -> P, O -> Q, P -> R, Q -> R, R -> O, R -> S`
from origin `O`. -/
theorem DFS_eq_recursive_preorder_witness :
    (run [.connect "O" "P" 5, .connect "O" "Q" 2, .connect "P" "R" 2, .connect "Q" "R" 1,
        .connect "R" "O" 1, .connect "R" "S" 3]).HasVertex NO_LABEL = false ∧
      (run [.connect "O" "P" 5, .connect "O" "Q" 2, .connect "P" "R" 2, .connect "Q" "R" 1,
        .connect "R" "O" 1, .connect "R" "S" 3]).DFS 12 "O" =
      some (run [.connect "O" "P" 5, .connect "O" "Q" 2, .connect "P" "R" 2,
        .connect "Q" "R" 1, .connect "R" "O" 1, .connect "R" "S" 3],
        (run [.connect "O" "P" 5, .connect "O" "Q" 2, .connect "P" "R" 2, .connect "Q" "R" 1,
        .connect "R" "O" 1, .connect "R" "S" 3]).recursivePreorder 6 "O") :=
  ⟨by decide, DFS_eq_recursive_preorder _ (by decide) (by decide) (by decide) (by decide) "O"
    (by decide) 12 (by decide) 6 (by decide)⟩

/-- C6 (failing input): on the graph `A -> B, B -> "", B -> C` the call
`DFS("A")` passes only `A` and `B` to the visitor, although `C` and the vertex
with the empty label are reachable from `A`: the empty label returned by
`nextLabel` for the found vertex is taken for "no vertex left". -/
theorem DFS_misses_reachable :
    emptyLabelExample.DFS 10 "A" = some (emptyLabelExample, ["A", "B"]) ∧
      emptyLabelExample.Reachable "A" "C" ∧ emptyLabelExample.Reachable "A" "" ∧
      emptyLabelExample.BFS 10 "A" = some (emptyLabelExample, ["A", "B", "", "C"]) := by
  refine ⟨by decide, ?_, ?_, by decide⟩
  · exact Relation.ReflTransGen.tail
      (Relation.ReflTransGen.tail Relation.ReflTransGen.refl (show emptyLabelExample.hasEdge "A" "B" by decide))
      (show emptyLabelExample.hasEdge "B" "C" by decide)
  · exact Relation.ReflTransGen.tail
      (Relation.ReflTransGen.tail Relation.ReflTransGen.refl (show emptyLabelExample.hasEdge "A" "B" by decide))
      (show emptyLabelExample.hasEdge "B" "" by decide)

/-! ## The depth-first trace and reachability -/

/-- An invariant of stack and trace kept by every round of the loop holds of
the final trace. -/
theorem dfsLists_invariant (succ : Label → List Label) (Inv : List Label → List Label → Prop)
    (hstart : ∀ top rest out, top ∉ out → Inv (top :: rest) out →
      Inv (top :: top :: rest) (out ++ [top]))
    (hpush : ∀ top rest out w, top ∈ out → firstUnseen out (succ top) = some w →
      Inv (top :: rest) out → Inv (w :: top :: rest) (out ++ [w]))
    (hpop : ∀ top rest out, top ∈ out → firstUnseen out (succ top) = none →
      Inv (top :: rest) out → Inv rest out) :
    ∀ (n : Nat) (stack out res : List Label), Inv stack out →
      dfsLists succ n stack out = some res → Inv [] res := by
  intro n
  induction n with
  | zero => intro stack out res _ h; simp [dfsLists] at h
  | succ n ih =>
    intro stack out res hinv h
    cases stack with
    | nil =>
      simp only [dfsLists, Option.some.injEq] at h
      subst h; exact hinv
    | cons top rest =>
      by_cases hin : top ∈ out
      · cases hfu : firstUnseen out (succ top) with
        | none =>
          rw [dfsLists_pop succ top rest out n hin hfu] at h
          exact ih _ _ res (hpop top rest out hin hfu hinv) h
        | some w =>
          rw [dfsLists_push succ top w rest out n hin hfu] at h
          exact ih _ _ res (hpush top rest out w hin hfu hinv) h
      · simp only [dfsLists, hin, if_false] at h
        exact ih _ _ res (hstart top rest out hin hinv) h

theorem dfsLists_reach (g : Graph) (o : Label) (n : Nat) (res : List Label)
    (h : dfsLists g.targets n [o] [] = some res) : ∀ v, v ∈ res ↔ g.Reachable o v := by
  have hinv : DfsReach g o [] res := by
    refine dfsLists_invariant g.targets (DfsReach g o) ?_ ?_ ?_ n [o] [] res ?_ h
    · intro top rest out _ ⟨h1, h2, h3, h4⟩
      refine ⟨?_, ?_, ?_, ?_⟩
      · intro x hx
        rcases List.mem_append.mp hx with hx | hx
        · exact h1 x hx
        · rw [List.mem_singleton.mp hx]; exact h2 top (List.mem_cons_self _ _)
      · intro x hx
        rcases List.mem_cons.mp hx with rfl | hx
        · exact h2 x (List.mem_cons_self _ _)
        · exact h2 x hx
      · rcases h3 with h3 | h3
        · exact Or.inl (List.mem_append_left _ h3)
        · exact Or.inr (List.mem_cons_of_mem _ h3)
      · intro u hu
        rcases List.mem_append.mp hu with hu | hu
        · rcases h4 u hu with h' | h'
          · exact Or.inl (List.mem_cons_of_mem _ h')
          · exact Or.inr (fun t ht => List.mem_append_left _ (h' t ht))
        · rw [List.mem_singleton.mp hu]; exact Or.inl (List.mem_cons_self _ _)
    · intro top rest out w _ hfu ⟨h1, h2, h3, h4⟩
      have hw : g.Reachable o w :=
        Relation.ReflTransGen.tail (h2 top (List.mem_cons_self _ _)) (firstUnseen_mem hfu).1
      refine ⟨?_, ?_, ?_, ?_⟩
      · intro x hx
        rcases List.mem_append.mp hx with hx | hx
        · exact h1 x hx
        · rw [List.mem_singleton.mp hx]; exact hw
      · intro x hx
        rcases List.mem_cons.mp hx with rfl | hx
        · exact hw
        · exact h2 x hx
      · rcases h3 with h3 | h3
        · exact Or.inl (List.mem_append_left _ h3)
        · exact Or.inr (List.mem_cons_of_mem _ h3)
      · intro u hu
        rcases List.mem_append.mp hu with hu | hu
        · rcases h4 u hu with h' | h'
          · exact Or.inl (List.mem_cons_of_mem _ h')
          · exact Or.inr (fun t ht => List.mem_append_left _ (h' t ht))
        · rw [List.mem_singleton.mp hu]; exact Or.inl (List.mem_cons_self _ _)
    · intro top rest out hin hfu ⟨h1, h2, h3, h4⟩
      refine ⟨h1, fun x hx => h2 x (List.mem_cons_of_mem _ hx), ?_, ?_⟩
      · rcases h3 with h3 | h3
        · exact Or.inl h3
        · rcases List.mem_cons.mp h3 with rfl | h3
          · exact Or.inl hin
          · exact Or.inr h3
      · intro u hu
        rcases h4 u hu with h' | h'
        · rcases List.mem_cons.mp h' with rfl | h'
          · exact Or.inr (firstUnseen_none hfu)
          · exact Or.inl h'
        · exact Or.inr h'
    · refine ⟨by simp, ?_, by simp, by simp⟩
      intro x hx
      rw [List.mem_singleton.mp hx]
      exact Relation.ReflTransGen.refl
  obtain ⟨h1, _, h3, h4⟩ := hinv
  have ho : o ∈ res := by
    rcases h3 with h3 | h3
    · exact h3
    · simp at h3
  have hcl : ∀ u ∈ res, ∀ t ∈ g.targets u, t ∈ res := by
    intro u hu
    rcases h4 u hu with h' | h'
    · simp at h'
    · exact h'
  intro v
  constructor
  · exact h1 v
  · intro hv
    induction hv with
    | refl => exact ho
    | tail _ hbc ih => exact hcl _ ih _ hbc

/-- On a graph without a vertex of the empty label (edge targets are vertices,
visited marks clear), `DFS` from a vertex passes to the visitor each label
reachable from the origin exactly once and no other label. -/
theorem DFS_visits_reachable_once_of_no_empty_label (g : Graph) (hc : g.Closed)
    (hu : g.Unvisited) (hne : g.HasVertex NO_LABEL = false) (o : Label)
    (ho : g.HasVertex o = true) (fuel : Nat) (hf : 2 * g.map.length + 2 ≤ fuel) :
    ∃ out, g.DFS fuel o = some (g, out) ∧
      ∀ v, (g.Reachable o v → out.count v = 1) ∧ (¬ g.Reachable o v → out.count v = 0) := by
  have hV : g.map.keys.length = g.map.length := by simp [AdjacencyMap.keys]
  have hoV := (AdjacencyMap.count_iff_mem_keys _ _).mp ho
  have h := dfsLists_eq_recDFS g.targets g.map.keys hc.targets_mem_keys o hoV g.map.length
    (by omega) fuel (by omega)
  refine ⟨_, DFS_sim g hc hu hne o ho fuel _ h, ?_⟩
  have hn := (recDFS_good g.targets g.map.keys hc.targets_mem_keys (g.map.length + 1) o []
    hoV List.nodup_nil (by simp)).1
  have hr := dfsLists_reach g o fuel _ h
  intro v
  constructor
  · intro hv
    exact List.count_eq_one_of_mem hn ((hr v).mpr hv)
  · intro hv
    exact List.count_eq_zero_of_not_mem (fun h' => hv ((hr v).mp h'))

/-! ## AddVertex and self-connection -/

theorem AdjacencyMap.length_insert (m : AdjacencyMap) (l : Label) (v : Vertex) :
    (AdjacencyMap.insert m l v).length = m.length + 1 := by
  induction m with
  | nil => rfl
  | cons p m ih =>
    obtain ⟨k, x⟩ := p
    by_cases hlt : labelLt l k = true
    · simp [AdjacencyMap.insert, hlt]
    · rw [Bool.not_eq_true] at hlt
      simp [AdjacencyMap.insert, hlt, ih]

theorem AddVertex_fst (g : Graph) (l : Label) :
    (g.AddVertex l).1 = !g.map.count l := by
  unfold AddVertex
  cases g.map.count l <;> rfl

theorem apply_count_mono (g : Graph) (op : Op) (l : Label) (h : g.map.count l = true) :
    (g.apply op).map.count l = true := by
  cases op with
  | addVertex l' =>
    show (g.AddVertex l').2.map.count l = true
    rw [AddVertex_count, h]; simp
  | connect a b w =>
    show (g.Connect a b w).2.map.count l = true
    by_cases hab : a = b
    · subst hab; rw [Connect_self]; exact h
    · rw [Connect_count g a b w hab, h]; simp
  | disconnect a b =>
    show (g.Disconnect a b).2.map.count l = true
    rcases Disconnect_cases g a b with e | ⟨v, _, _, _, e⟩
    · rw [e]; exact h
    · rw [e]; simp only [AdjacencyMap.count_set]; exact h

theorem applyAll_count_mono (ops : List Op) :
    ∀ (g : Graph) (l : Label), g.map.count l = true → (g.applyAll ops).map.count l = true := by
  induction ops with
  | nil => intro g l h; exact h
  | cons op ops ih =>
    intro g l h
    exact ih (g.apply op) l (apply_count_mono g op l h)

/-- C19: `AddVertex(L)` returns true exactly when `HasVertex(L)` was false;
afterwards `HasVertex(L)` is true, `NumberOfVertices()` has grown by one when it
returned true and is unchanged when it returned false, and `AddVertex(L)`
returns false after any further sequence of operations. -/
theorem AddVertex_contract (g : Graph) (L : Label) :
    ((g.AddVertex L).1 = true ↔ g.HasVertex L = false) ∧
      (g.AddVertex L).2.HasVertex L = true ∧
      ((g.AddVertex L).1 = true →
        (g.AddVertex L).2.NumberOfVertices = g.NumberOfVertices + 1) ∧
      ((g.AddVertex L).1 = false →
        (g.AddVertex L).2.NumberOfVertices = g.NumberOfVertices) ∧
      ∀ ops : List Op, (((g.AddVertex L).2.applyAll ops).AddVertex L).1 = false := by
  have hhas : (g.AddVertex L).2.map.count L = true := by rw [AddVertex_count]; simp
  refine ⟨?_, hhas, ?_, ?_, ?_⟩
  · unfold AddVertex HasVertex
    cases h : g.map.count L <;> simp
  · unfold AddVertex NumberOfVertices
    cases h : g.map.count L with
    | true => simp
    | false => simp [AdjacencyMap.length_insert]
  · unfold AddVertex
    cases h : g.map.count L with
    | true => simp
    | false => simp
  · intro ops
    rw [AddVertex_fst, applyAll_count_mono ops _ L hhas]; rfl

/-- C20: `Connect(a,a,w)` returns false and leaves the graph as it was: no
vertex is created, and `HasVertex`, `NumberOfVertices()`, `NumberOfEdges()` and
every edge list are as before. -/
theorem Connect_self_unchanged (g : Graph) (a : Label) (w : Weight) :
    (g.Connect a a w).1 = false ∧ (g.Connect a a w).2 = g ∧
      (g.Connect a a w).2.HasVertex a = g.HasVertex a ∧
      (g.Connect a a w).2.NumberOfVertices = g.NumberOfVertices ∧
      (g.Connect a a w).2.NumberOfEdges = g.NumberOfEdges ∧
      ∀ l, (g.Connect a a w).2.chain l = g.chain l := by
  rw [Connect_self]
  exact ⟨rfl, rfl, rfl, rfl, rfl, fun _ => rfl⟩

/-! ## Traversals return and clear the marks on every built graph -/

theorem filter_length_lt {l : List Label} {p q : Label → Bool}
    (hqp : ∀ x ∈ l, q x = true → p x = true) (a : Label) (ha : a ∈ l) (hpa : p a = true)
    (hqa : q a = false) : (l.filter q).length < (l.filter p).length := by
  induction l with
  | nil => simp at ha
  | cons x l ih =>
    have hle : (l.filter q).length ≤ (l.filter p).length := by
      have hsub : (l.filter q).Sublist (l.filter p) := by
        have : l.filter q = (l.filter p).filter q := by
          rw [List.filter_filter]
          apply List.filter_congr
          intro y hy
          cases hq : q y with
          | false => simp
          | true => simp [hqp y (List.mem_cons_of_mem _ hy) hq]
        rw [this]; exact List.filter_sublist _
      exact hsub.length_le
    rcases List.mem_cons.mp ha with rfl | ha'
    · simp only [List.filter_cons, hpa, hqa, if_true, Bool.false_eq_true, if_false,
        List.length_cons]
      omega
    · have := ih (fun y hy => hqp y (List.mem_cons_of_mem _ hy)) ha'
      cases hq : q x with
      | false =>
        cases hp : p x with
        | false => simpa [List.filter_cons, hq, hp] using this
        | true => simp only [List.filter_cons, hq, hp, if_true, Bool.false_eq_true, if_false,
            List.length_cons]; omega
      | true =>
        have hp := hqp x (List.mem_cons_self _ _) hq
        simp only [List.filter_cons, hq, hp, if_true, List.length_cons]
        omega

theorem unvisitedCount_mark (g0 : Graph) (s : List Label) (l : Label)
    (hl : g0.map.count l = true) (hs : l ∉ s) :
    unvisitedCount g0 (s ++ [l]) + 1 ≤ unvisitedCount g0 s := by
  unfold unvisitedCount
  refine filter_length_lt ?_ l ((AdjacencyMap.count_iff_mem_keys _ _).mp hl) (by simpa using hs)
    (by simp)
  intro x _ hx
  simp only [List.mem_append, List.mem_singleton, not_or, decide_eq_true_eq] at hx ⊢
  exact hx.1

theorem unvisitedCount_le (g0 : Graph) (s : List Label) :
    unvisitedCount g0 s ≤ g0.map.length := by
  unfold unvisitedCount
  have := List.length_filter_le (fun l => decide (l ∉ s)) g0.map.keys
  simpa [AdjacencyMap.keys] using this

/-- The effect of `nextLabel` when exactly the labels of `s` are marked. -/
theorem nextLabel_marked (g0 : Graph) (hc : g0.Closed) (g : Graph) (s : List Label)
    (hm : Marked g0 g s) (top : Label) (htop : g0.map.count top = true) :
    ∃ next g1, nextLabel g top = some (next, g1) ∧
      ((next = NO_LABEL ∧ Marked g0 g1 s) ∨
        (next ∉ s ∧ g0.map.count next = true ∧ Marked g0 g1 (s ++ [next]))) := by
  obtain ⟨curr, hcurr⟩ := AdjacencyMap.find?_isSome_of_count (by rw [hm.count_eq]; exact htop)
  have hv := isVisited_eq_of_find? hcurr
  have hchain : curr.next = g0.chain top := by
    rw [← hm.chain_eq top]; simp [chain, hcurr]
  by_cases hin : top ∈ s
  · have hvis : curr.visited = true := by rw [hv]; exact (hm.2.2 top).mpr hin
    have hnv := nextVertex_sim g0 g s hm curr.next (by rw [hchain]; exact hc.chain_count top)
    rw [hchain] at hnv
    cases hfu : firstUnseen s (List.map Edge.label (g0.chain top)) with
    | none =>
      refine ⟨NO_LABEL, g, ?_, Or.inl ⟨rfl, hm⟩⟩
      simp only [nextLabel, hcurr, hvis, if_true, hchain, hnv, hfu]
    | some w =>
      have hw : g0.map.count w = true := hc.targets_count top w (firstUnseen_mem hfu).1
      refine ⟨w, g.setVisited w true, ?_, Or.inr ⟨(firstUnseen_mem hfu).2, hw, hm.mark w hw⟩⟩
      simp only [nextLabel, hcurr, hvis, if_true, hchain, hnv, hfu]
  · have hvis : curr.visited = false := by
      rw [hv, ← Bool.not_eq_true]; exact fun h' => hin ((hm.2.2 top).mp h')
    refine ⟨top, g.setVisited top true, ?_, Or.inr ⟨hin, htop, hm.mark top htop⟩⟩
    simp only [nextLabel, hcurr, hvis, Bool.false_eq_true, if_false]

/-- The loop of `dfs` returns within `2 * unvisited + stack + 1` rounds and
changes nothing but visited marks. -/
theorem dfs_total (g0 : Graph) (hc : g0.Closed) :
    ∀ (n : Nat) (g : Graph) (stack out s : List Label), Marked g0 g s →
      (∀ x ∈ stack, g0.map.count x = true) →
      2 * unvisitedCount g0 s + stack.length + 1 ≤ n →
      ∃ g1 res s1, dfs n g stack out = some (g1, res) ∧ Marked g0 g1 s1 := by
  intro n
  induction n with
  | zero => intro g stack out s _ _ h; omega
  | succ n ih =>
    intro g stack out s hm hst hn
    cases stack with
    | nil => exact ⟨g, out, s, rfl, hm⟩
    | cons top rest =>
      have htop := hst top (List.mem_cons_self _ _)
      have hrest : ∀ x ∈ rest, g0.map.count x = true :=
        fun x hx => hst x (List.mem_cons_of_mem _ hx)
      simp only [List.length_cons] at hn
      obtain ⟨next, g1, hnl, hcase⟩ := nextLabel_marked g0 hc g s hm top htop
      rcases hcase with ⟨hno, hm1⟩ | ⟨hns, hnk, hm1⟩
      · obtain ⟨g2, res, s2, h2, hm2⟩ := ih g1 rest out s hm1 hrest (by omega)
        refine ⟨g2, res, s2, ?_, hm2⟩
        simp only [dfs, hnl, hno, ne_eq, not_true_eq_false, if_false]
        exact h2
      · have hU := unvisitedCount_mark g0 s next hnk hns
        by_cases hne : next = NO_LABEL
        · obtain ⟨g2, res, s2, h2, hm2⟩ := ih g1 rest out _ hm1 hrest (by omega)
          refine ⟨g2, res, s2, ?_, hm2⟩
          simp only [dfs, hnl, hne, ne_eq, not_true_eq_false, if_false]
          exact h2
        · obtain ⟨g2, res, s2, h2, hm2⟩ := ih g1 (next :: top :: rest) (out ++ [next]) _ hm1
            (fun x hx => by
              rcases List.mem_cons.mp hx with rfl | hx
              · exact hnk
              · exact hst x hx)
            (by simp only [List.length_cons]; omega)
          refine ⟨g2, res, s2, ?_, hm2⟩
          simp only [dfs, hnl, ne_eq, hne, not_false_eq_true, if_true]
          exact h2

theorem unvisitedCount_nil (g0 : Graph) : unvisitedCount g0 [] = g0.map.length := by
  simp [unvisitedCount, AdjacencyMap.keys]

/-- On a graph whose edge targets are vertices and whose marks are clear,
`DFS` returns for every label and leaves the graph as it was. -/
theorem DFS_total (g : Graph) (hc : g.Closed) (hu : g.Unvisited) (label : Label) (fuel : Nat)
    (hf : 2 * g.map.length + 2 ≤ fuel) : ∃ out, g.DFS fuel label = some (g, out) := by
  by_cases hl : g.map.count label = true
  · obtain ⟨g1, res, s1, h1, hm1⟩ := dfs_total g hc fuel g [label] [] [] (Marked.refl g hu)
      (fun x hx => by rw [List.mem_singleton.mp hx]; exact hl)
      (by rw [unvisitedCount_nil]; simp only [List.length_singleton]; omega)
    exact ⟨res, by simp only [DFS, hl, if_true, h1, hm1.unvisit_eq hu]⟩
  · exact ⟨[], by simp [DFS, hl]⟩

/-- On a graph whose edge targets are vertices and whose marks are clear,
`BFS` returns for every label and leaves the graph as it was. -/
theorem BFS_total (g : Graph) (hc : g.Closed) (hu : g.Unvisited) (label : Label) (fuel : Nat)
    (hf : g.map.length + 1 ≤ fuel) : ∃ out, g.BFS fuel label = some (g, out) := by
  by_cases hl : g.map.count label = true
  · obtain ⟨res, hres⟩ := bfsLists_total g hc label hl fuel hf
    exact ⟨res, BFS_sim g hc hu label hl fuel res hres⟩
  · exact ⟨[], by simp [BFS, hl]⟩

/-- C11: for every graph built from the empty graph by the operations, every
label and enough loop fuel, `DFS` and `BFS` return with every visited mark
clear (the graph is as before the call), and a second run of the same traversal
on the graph left by the first passes the same sequence to the visitor. -/
theorem traversal_clears_marks (ops : List Op) (label : Label) (fuel : Nat)
    (hf : 2 * (run ops).map.length + 2 ≤ fuel) :
    (∃ g1 out, (run ops).DFS fuel label = some (g1, out) ∧ g1.Unvisited ∧
        g1 = run ops ∧ ∃ g2, g1.DFS fuel label = some (g2, out)) ∧
      (∃ g1 out, (run ops).BFS fuel label = some (g1, out) ∧ g1.Unvisited ∧
        g1 = run ops ∧ ∃ g2, g1.BFS fuel label = some (g2, out)) := by
  have hc := run_closed ops
  have hu := run_unvisited ops
  obtain ⟨out1, h1⟩ := DFS_total (run ops) hc hu label fuel hf
  obtain ⟨out2, h2⟩ := BFS_total (run ops) hc hu label fuel (by omega)
  exact ⟨⟨run ops, out1, h1, hu, rfl, run ops, h1⟩, ⟨run ops, out2, h2, hu, rfl, run ops, h2⟩⟩

/-- Witness for C11: the graph `A -> B, B -> "", B -> C` and the label `A`. -/
theorem traversal_clears_marks_witness :
    2 * (run [.connect "A" "B" 0, .connect "B" "" 0, .connect "B" "C" 0]).map.length + 2 ≤ 10 ∧
      (∃ g1 out, (run [.connect "A" "B" 0, .connect "B" "" 0, .connect "B" "C" 0]).DFS 10 "A" =
          some (g1, out) ∧ g1.Unvisited ∧
        g1 = run [.connect "A" "B" 0, .connect "B" "" 0, .connect "B" "C" 0] ∧
        ∃ g2, g1.DFS 10 "A" = some (g2, out)) ∧
      (∃ g1 out, (run [.connect "A" "B" 0, .connect "B" "" 0, .connect "B" "C" 0]).BFS 10 "A" =
          some (g1, out) ∧ g1.Unvisited ∧
        g1 = run [.connect "A" "B" 0, .connect "B" "" 0, .connect "B" "C" 0] ∧
        ∃ g2, g1.BFS 10 "A" = some (g2, out)) :=
  ⟨by decide, traversal_clears_marks _ "A" 10 (by decide)⟩

/-! ## Label maps -/

namespace LabelMap

theorem lookup_assign {α : Type} (m : LabelMap α) (k k' : Label) (v : α) :
    lookup (assign m k v) k' = if k = k' then some v else lookup m k' := by
  induction m with
  | nil => simp [assign, lookup]
  | cons p m ih =>
    obtain ⟨x, y⟩ := p
    by_cases hx : x = k
    · subst hx
      by_cases e : x = k' <;> simp [assign, lookup, e]
    · by_cases hlt : labelLt k x = true
      · simp [assign, lookup, hx, hlt]
      · rw [Bool.not_eq_true] at hlt
        by_cases e : x = k'
        · subst e
          have : ¬ k = x := fun e' => hx e'.symm
          simp [assign, lookup, hx, hlt, this]
        · simp [assign, lookup, hx, hlt, e, ih]

theorem contains_assign {α : Type} (m : LabelMap α) (k k' : Label) (v : α) :
    contains (assign m k v) k' = (decide (k = k') || contains m k') := by
  unfold contains
  rw [lookup_assign]
  by_cases e : k = k' <;> simp [e]

theorem lookup_erase {α : Type} (m : LabelMap α) (k k' : Label) :
    lookup (erase m k) k' = if k = k' then none else lookup m k' := by
  induction m with
  | nil => simp [erase, lookup]
  | cons p m ih =>
    obtain ⟨x, y⟩ := p
    simp only [erase] at ih
    by_cases hx : x = k
    · have hd : decide ((x, y).1 ≠ k) = false := by simp [hx]
      simp only [erase, List.filter_cons, hd, Bool.false_eq_true, if_false, ih]
      by_cases e : k = k'
      · simp [e]
      · have : ¬ x = k' := by rw [hx]; exact e
        simp [e, lookup, this]
    · have hd : decide ((x, y).1 ≠ k) = true := by simp [hx]
      simp only [erase, List.filter_cons, hd, if_true, lookup, ih]
      by_cases e : x = k'
      · have : ¬ k = k' := fun e' => hx (e.trans e'.symm)
        simp [e, this]
      · simp [e]

theorem contains_iff_mem_keys {α : Type} (m : LabelMap α) (k : Label) :
    contains m k = true ↔ k ∈ keys m := by
  induction m with
  | nil => simp [contains, lookup, keys]
  | cons p m ih =>
    obtain ⟨x, y⟩ := p
    by_cases hx : x = k
    · simp [contains, lookup, keys, hx]
    · have hx' : ¬ k = x := fun e => hx e.symm
      simp only [contains, keys] at ih
      simp [contains, lookup, keys, hx, hx', ih]

theorem lookup_of_mem {α : Type} {m : LabelMap α} {k : Label} {v : α}
    (hn : (keys m).Nodup) (h : (k, v) ∈ m) : lookup m k = some v := by
  induction m with
  | nil => simp at h
  | cons p m ih =>
    obtain ⟨x, y⟩ := p
    simp only [keys, List.map_cons, List.nodup_cons] at hn
    rcases List.mem_cons.mp h with e | h'
    · simp only [Prod.mk.injEq] at e
      simp [lookup, e.1, e.2]
    · have hne : ¬ x = k := by
        intro e
        exact hn.1 (e ▸ List.mem_map_of_mem Prod.fst h')
      simp only [lookup, hne, if_false]
      exact ih hn.2 h'

theorem mem_of_lookup {α : Type} {m : LabelMap α} {k : Label} {v : α}
    (h : lookup m k = some v) : (k, v) ∈ m := by
  induction m with
  | nil => simp [lookup] at h
  | cons p m ih =>
    obtain ⟨x, y⟩ := p
    by_cases hx : x = k
    · simp only [lookup, hx, if_true, Option.some.injEq] at h
      simp [hx, h]
    · simp only [lookup, hx, if_false] at h
      exact List.mem_cons_of_mem _ (ih h)

theorem keys_assign_sorted {α : Type} (m : LabelMap α) (k : Label) (v : α)
    (hs : (keys m).Pairwise (fun a b => labelLt a b = true)) :
    (keys (assign m k v)).Pairwise (fun a b => labelLt a b = true) := by
  induction m with
  | nil => simp [assign, keys]
  | cons p m ih =>
    obtain ⟨x, y⟩ := p
    have hs' := hs
    simp only [keys, List.map_cons, List.pairwise_cons] at hs'
    by_cases hx : x = k
    · simpa [assign, hx, keys] using hs
    · by_cases hlt : labelLt k x = true
      · simp only [assign, hx, hlt, if_true, if_false, keys, List.map_cons, List.pairwise_cons,
          List.mem_cons]
        refine ⟨?_, hs'⟩
        intro b hb
        rcases hb with rfl | hb
        · exact hlt
        · exact labelLt_trans hlt (hs'.1 b hb)
      · rw [Bool.not_eq_true] at hlt
        have hxk : labelLt x k = true := labelLt_of_not hlt (fun e => hx e.symm)
        simp only [assign, hx, hlt, Bool.false_eq_true, if_false, keys, List.map_cons,
          List.pairwise_cons]
        refine ⟨?_, ih hs'.2⟩
        intro b hb
        have hb' : contains (assign m k v) b = true := (contains_iff_mem_keys _ _).mpr hb
        rw [contains_assign] at hb'
        simp only [Bool.or_eq_true, decide_eq_true_eq] at hb'
        rcases hb' with rfl | hb'
        · exact hxk
        · exact hs'.1 b ((contains_iff_mem_keys _ _).mp hb')

theorem keys_erase_sorted {α : Type} (m : LabelMap α) (k : Label)
    (hs : (keys m).Pairwise (fun a b => labelLt a b = true)) :
    (keys (erase m k)).Pairwise (fun a b => labelLt a b = true) := by
  refine List.Pairwise.sublist ?_ hs
  exact (List.filter_sublist m).map Prod.fst

theorem read_eq_of_lookup {m : LabelMap Weight} {k : Label} {v : Weight}
    (h : lookup m k = some v) : read m k = v := by
  simp [read, h]

theorem lookup_of_contains {m : LabelMap Weight} {k : Label} (h : contains m k = true) :
    lookup m k = some (read m k) := by
  unfold contains at h
  unfold read
  cases hl : lookup m k with
  | none => rw [hl] at h; exact Bool.noConfusion h
  | some v => rfl

theorem touch_of_contains {m : LabelMap Weight} {k : Label} (h : contains m k = true) :
    touch m k = m := by
  simp [touch, h]

theorem read_assign (m : LabelMap Weight) (k k' : Label) (v : Weight) :
    read (assign m k v) k' = if k = k' then v else read m k' := by
  unfold read
  rw [lookup_assign]
  by_cases e : k = k' <;> simp [e]

end LabelMap

/-! ## Paths -/

theorem PathWeight.reachable {g : Graph} {o v : Label} {d : Int} (h : g.PathWeight o v d) :
    g.Reachable o v := by
  induction h with
  | nil => exact Relation.ReflTransGen.refl
  | snoc e _ he ih => exact Relation.ReflTransGen.tail ih (List.mem_map_of_mem _ he)

theorem mem_chain_mem_map {g : Graph} {u : Label} {e : Edge} (he : e ∈ g.chain u) :
    ∃ v, (u, v) ∈ g.map ∧ e ∈ v.next := by
  unfold chain at he
  cases hf : g.map.find? u with
  | none => rw [hf] at he; simp at he
  | some v => rw [hf] at he; exact ⟨v, AdjacencyMap.mem_of_find? hf, he⟩

theorem PathWeight.nonneg {g : Graph} (hn : g.NonNegative) {o v : Label} {d : Int}
    (h : g.PathWeight o v d) : 0 ≤ d := by
  induction h with
  | nil => exact le_refl _
  | snoc e _ he ih =>
    obtain ⟨x, hx, hex⟩ := mem_chain_mem_map he
    exact add_nonneg ih (hn _ hx e hex)

theorem SimplePath.pathWeight {g : Graph} {o v : Label} {l : List Label} {d : Int}
    (h : g.SimplePath o l v d) : g.PathWeight o v d := by
  induction h with
  | nil => exact PathWeight.nil
  | snoc e _ he _ ih => exact PathWeight.snoc e ih he

theorem IsShortest.at_origin {g : Graph} (hn : g.NonNegative) (o : Label) : g.IsShortest o o 0 :=
  ⟨⟨[o], SimplePath.nil⟩, fun _ h => h.nonneg hn⟩

theorem addInt_eq (a b : Int) (h0 : 0 ≤ a + b) (h1 : a + b < INT_MAX) : addInt a b = a + b := by
  unfold addInt
  unfold INT_MAX at h1
  omega

/-! ## The selection of the next vertex -/

theorem nextSmallestLoop_spec (g : Graph) (set : List Label) :
    ∀ (entries : WeightMap) (next : Option Label) (smallest : Weight),
      (∀ q ∈ entries, g.map.count q.1 = true) →
      ∃ r s, nextSmallestLoop g set entries next smallest = some r ∧
        ((r = next ∧ s = smallest) ∨
          (∃ k, r = some k ∧ (k, s) ∈ entries ∧ k ∉ set ∧ s < smallest)) ∧
        ∀ q ∈ entries, q.1 ∉ set → s ≤ q.2 := by
  intro entries
  induction entries with
  | nil => intro next smallest _; exact ⟨next, smallest, rfl, Or.inl ⟨rfl, rfl⟩, by simp⟩
  | cons q rest ih =>
    intro next smallest hk
    obtain ⟨k, d⟩ := q
    obtain ⟨x, hx⟩ := AdjacencyMap.find?_isSome_of_count (hk (k, d) (List.mem_cons_self _ _))
    have hrest : ∀ q ∈ rest, g.map.count q.1 = true :=
      fun q hq => hk q (List.mem_cons_of_mem _ hq)
    by_cases hc : k ∉ set ∧ d < smallest
    · obtain ⟨r, s, h1, h2, h3⟩ := ih (some k) d hrest
      refine ⟨r, s, by simp only [nextSmallestLoop, hx, hc, and_self, if_true]; exact h1, ?_, ?_⟩
      · rcases h2 with ⟨e1, e2⟩ | ⟨k', e1, e2, e3, e4⟩
        · exact Or.inr ⟨k, e1, by rw [e2]; exact List.mem_cons_self _ _, hc.1,
            by rw [e2]; exact hc.2⟩
        · exact Or.inr ⟨k', e1, List.mem_cons_of_mem _ e2, e3, lt_trans e4 hc.2⟩
      · have hsd : s ≤ d := by
          rcases h2 with ⟨_, e2⟩ | ⟨_, _, _, _, e4⟩
          · rw [e2]
          · exact le_of_lt e4
        intro q hq hqs
        rcases List.mem_cons.mp hq with rfl | hq
        · exact hsd
        · exact h3 q hq hqs
    · obtain ⟨r, s, h1, h2, h3⟩ := ih next smallest hrest
      refine ⟨r, s, by simp only [nextSmallestLoop, hx, hc, if_false]; exact h1, ?_, ?_⟩
      · rcases h2 with ⟨e1, e2⟩ | ⟨k', e1, e2, e3, e4⟩
        · exact Or.inl ⟨e1, e2⟩
        · exact Or.inr ⟨k', e1, List.mem_cons_of_mem _ e2, e3, e4⟩
      · have hss : s ≤ smallest := by
          rcases h2 with ⟨_, e2⟩ | ⟨_, _, _, _, e4⟩
          · rw [e2]
          · exact le_of_lt e4
        intro q hq hqs
        rcases List.mem_cons.mp hq with rfl | hq
        · have : ¬ d < smallest := fun h => hc ⟨hqs, h⟩
          exact le_trans hss (not_lt.mp this)
        · exact h3 q hq hqs

/-- The result of `nextSmallest`: the null pointer when every unsettled entry
is at `INT_MAX` or above, else an unsettled key with the least distance, which
is below `INT_MAX`. -/
theorem nextSmallest_spec (g : Graph) (set : List Label) (w : WeightMap)
    (hs : w.keys.Pairwise (fun a b => labelLt a b = true))
    (hk : ∀ k, w.contains k = g.map.count k) :
    (nextSmallest g set w = some none ∧
        ∀ v, w.contains v = true → v ∉ set → INT_MAX ≤ w.read v) ∨
      ∃ k, nextSmallest g set w = some (some k) ∧ w.contains k = true ∧ k ∉ set ∧
        w.read k < INT_MAX ∧ ∀ v, w.contains v = true → v ∉ set → w.read k ≤ w.read v := by
  have hn : w.keys.Nodup := pairwise_labelLt_nodup hs
  have hkeys : ∀ q ∈ w, g.map.count q.1 = true := by
    intro q hq
    rw [← hk, LabelMap.contains_iff_mem_keys]
    exact List.mem_map_of_mem Prod.fst hq
  obtain ⟨r, s, h1, h2, h3⟩ := nextSmallestLoop_spec g set w none INT_MAX hkeys
  have hall : ∀ v, w.contains v = true → v ∉ set → s ≤ w.read v := by
    intro v hv hvs
    exact h3 (v, w.read v) (LabelMap.mem_of_lookup (LabelMap.lookup_of_contains hv)) hvs
  rcases h2 with ⟨e1, e2⟩ | ⟨k, e1, e2, e3, e4⟩
  · left
    subst e1; subst e2
    exact ⟨h1, hall⟩
  · right
    have hl := LabelMap.lookup_of_mem hn e2
    have hr : w.read k = s := LabelMap.read_eq_of_lookup hl
    refine ⟨k, by rw [← e1]; exact h1, by simp [LabelMap.contains, hl], e3, by rw [hr]; exact e4,
      ?_⟩
    rw [hr]; exact hall

/-! ## The relaxation loop -/

theorem relaxedValue_of_not_improves {curr : Vertex} {du : Weight} {set : List Label}
    {k : Label} {x : Weight} (h : improves curr du set k x = false) :
    relaxedValue curr du set k x = x := by
  unfold improves at h
  unfold relaxedValue
  by_cases hk : k ∈ set
  · simp [hk]
  · simp only [hk, not_false_eq_true, decide_True, Bool.true_and] at h
    simp only [hk, if_false]
    cases ha : curr.getAdjacent k with
    | none => rfl
    | some e =>
      rw [ha] at h
      simp only [decide_eq_false_iff_not] at h
      simp [h]

theorem relaxedValue_of_improves {curr : Vertex} {du : Weight} {set : List Label}
    {k : Label} {x : Weight} (h : improves curr du set k x = true) :
    k ∉ set ∧ ∃ e, curr.getAdjacent k = some e ∧ addInt du e.weight < x ∧
      relaxedValue curr du set k x = addInt du e.weight := by
  unfold improves at h
  unfold relaxedValue
  simp only [Bool.and_eq_true, decide_eq_true_eq] at h
  refine ⟨h.1, ?_⟩
  cases ha : curr.getAdjacent k with
  | none => rw [ha] at h; exact absurd h.2 (by simp)
  | some e =>
    rw [ha] at h
    have hlt : addInt du e.weight < x := by simpa using h.2
    exact ⟨e, rfl, hlt, by simp [h.1, hlt]⟩

theorem relaxedValue_le (curr : Vertex) (du : Weight) (set : List Label) (k : Label)
    (x : Weight) : relaxedValue curr du set k x ≤ x := by
  cases h : improves curr du set k x with
  | false => rw [relaxedValue_of_not_improves h]
  | true =>
    obtain ⟨_, e, _, hlt, he⟩ := relaxedValue_of_improves h
    rw [he]; exact le_of_lt hlt

/-- One round of the relaxation loop on the key `k`. -/
theorem relax_round (set : List Label) (curr : Vertex) (u k : Label) (w : WeightMap)
    (p : PrevMap) (hu : w.contains u = true) (hk : w.contains k = true)
    (hsw : w.keys.Pairwise (fun a b => labelLt a b = true))
    (hsp : p.keys.Pairwise (fun a b => labelLt a b = true)) :
    ∃ w1 p1, (if k ∉ set then update curr (k, w.read k) u w p else (w, p)) = (w1, p1) ∧
      (∀ v, w1.contains v = w.contains v) ∧
      (∀ v, w1.read v = if v = k then relaxedValue curr (w.read u) set k (w.read k)
        else w.read v) ∧
      (∀ v, p1.lookup v = if v = k ∧ improves curr (w.read u) set k (w.read k) = true
        then some u else p.lookup v) ∧
      w1.keys.Pairwise (fun a b => labelLt a b = true) ∧
      p1.keys.Pairwise (fun a b => labelLt a b = true) := by
  have hsame : ∀ v, (if v = k then w.read k else w.read v) = w.read v := by
    intro v; by_cases e : v = k <;> simp [e]
  cases hi : improves curr (w.read u) set k (w.read k) with
  | false =>
    refine ⟨w, p, ?_, fun _ => rfl, ?_, by simp, hsw, hsp⟩
    · by_cases hks : k ∈ set
      · simp [hks]
      · simp only [hks, not_false_eq_true, if_true, update, LabelMap.touch_of_contains hu]
        unfold improves at hi
        simp only [hks, not_false_eq_true, decide_True, Bool.true_and] at hi
        cases ha : curr.getAdjacent k with
        | none => rfl
        | some e =>
          rw [ha] at hi
          simp only [decide_eq_false_iff_not] at hi
          simp [hi]
    · intro v
      rw [relaxedValue_of_not_improves hi, hsame]
  | true =>
    obtain ⟨hks, e, ha, hlt, hval⟩ := relaxedValue_of_improves hi
    refine ⟨w.assign k (addInt (w.read u) e.weight), p.assign k u, ?_, ?_, ?_, ?_,
      LabelMap.keys_assign_sorted _ _ _ hsw, LabelMap.keys_assign_sorted _ _ _ hsp⟩
    · simp only [hks, not_false_eq_true, if_true, update, LabelMap.touch_of_contains hu, ha, hlt]
    · intro v
      rw [LabelMap.contains_assign]
      by_cases e' : k = v
      · subst e'; simp [hk]
      · simp [e']
    · intro v
      rw [LabelMap.read_assign, hval]
      by_cases e' : k = v
      · subst e'; simp
      · have : ¬ v = k := fun x => e' x.symm
        simp [e', this]
    · intro v
      rw [LabelMap.lookup_assign]
      by_cases e' : k = v
      · subst e'; simp
      · have : ¬ v = k := fun x => e' x.symm
        simp [e', this]

theorem relaxedValue_self (curr : Vertex) (du : Weight) (set : List Label) (u : Label)
    (x : Weight) (hno : curr.getAdjacent u = none) : relaxedValue curr du set u x = x := by
  unfold relaxedValue
  by_cases h : u ∈ set <;> simp [h, hno]

/-- The relaxation loop replaces the entry of every key by its relaxed
value and records the current vertex as predecessor where it improves. -/
theorem relaxLoop_spec (g : Graph) (set : List Label) (curr : Vertex) (u : Label) (du : Weight)
    (hno : curr.getAdjacent u = none) :
    ∀ (ks : List Label) (w : WeightMap) (p : PrevMap), ks.Nodup →
      (∀ k ∈ ks, g.map.count k = true ∧ w.contains k = true) →
      w.contains u = true → w.read u = du →
      w.keys.Pairwise (fun a b => labelLt a b = true) →
      p.keys.Pairwise (fun a b => labelLt a b = true) →
      ∃ w1 p1, relaxLoop g set curr u ks w p = some (w1, p1) ∧
        (∀ v, w1.contains v = w.contains v) ∧
        (∀ v, w1.read v = if v ∈ ks then relaxedValue curr du set v (w.read v) else w.read v) ∧
        (∀ v, p1.lookup v = if v ∈ ks ∧ improves curr du set v (w.read v) = true
          then some u else p.lookup v) ∧
        w1.keys.Pairwise (fun a b => labelLt a b = true) ∧
        p1.keys.Pairwise (fun a b => labelLt a b = true) := by
  intro ks
  induction ks with
  | nil =>
    intro w p _ _ _ _ hsw hsp
    exact ⟨w, p, rfl, fun _ => rfl, by simp, by simp, hsw, hsp⟩
  | cons k ks ih =>
    intro w p hn hks hu hdu hsw hsp
    rw [List.nodup_cons] at hn
    obtain ⟨hkg, hkw⟩ := hks k (List.mem_cons_self _ _)
    obtain ⟨x, hx⟩ := AdjacencyMap.find?_isSome_of_count hkg
    obtain ⟨w', p', hstep, hc', hr', hl', hsw', hsp'⟩ :=
      relax_round set curr u k w p hu hkw hsw hsp
    rw [hdu] at hr' hl'
    have hu' : w'.contains u = true := by rw [hc']; exact hu
    have hdu' : w'.read u = du := by
      rw [hr']
      by_cases e : u = k
      · subst e; simp only [if_true]; rw [relaxedValue_self _ _ _ _ _ hno]; exact hdu
      · simp [e, hdu]
    obtain ⟨w1, p1, hloop, hc1, hr1, hl1, hsw1, hsp1⟩ := ih w' p' hn.2
      (fun k' hk' => ⟨(hks k' (List.mem_cons_of_mem _ hk')).1,
        by rw [hc']; exact (hks k' (List.mem_cons_of_mem _ hk')).2⟩) hu' hdu' hsw' hsp'
    refine ⟨w1, p1, ?_, fun v => (hc1 v).trans (hc' v), ?_, ?_, hsw1, hsp1⟩
    · have hfst : (if k ∉ set then update curr (k, w.read k) u w p else (w, p)).1 = w' := by
        rw [hstep]
      have hsnd : (if k ∉ set then update curr (k, w.read k) u w p else (w, p)).2 = p' := by
        rw [hstep]
      simp only [relaxLoop, hx]
      by_cases hks' : k ∈ set
      · simp only [hks', not_true_eq_false, if_false] at hfst hsnd ⊢
        rw [hfst, hsnd]; exact hloop
      · simp only [hks', not_false_eq_true, if_true] at hfst hsnd ⊢
        rw [hfst, hsnd]; exact hloop
    · intro v
      rw [hr1, hr']
      by_cases e : v = k
      · subst e
        simp [hn.1]
      · simp [e]
    · intro v
      rw [hl1, hl', hr']
      by_cases e : v = k
      · subst e
        simp [hn.1]
      · simp [e]

/-! ## Initial maps and final cleaning -/

theorem initNeighbors_spec (label : Label) :
    ∀ (c : List Edge) (w : WeightMap) (p : PrevMap), (c.map Edge.label).Nodup →
      w.keys.Pairwise (fun a b => labelLt a b = true) →
      p.keys.Pairwise (fun a b => labelLt a b = true) →
      (∀ e ∈ c, (initNeighbors label c w p).1.lookup e.label = some e.weight ∧
        (initNeighbors label c w p).2.lookup e.label = some label) ∧
      (∀ v, v ∉ c.map Edge.label → (initNeighbors label c w p).1.lookup v = w.lookup v ∧
        (initNeighbors label c w p).2.lookup v = p.lookup v) ∧
      (initNeighbors label c w p).1.keys.Pairwise (fun a b => labelLt a b = true) ∧
      (initNeighbors label c w p).2.keys.Pairwise (fun a b => labelLt a b = true) := by
  intro c
  induction c with
  | nil => intro w p _ hsw hsp; exact ⟨by simp, fun _ _ => ⟨rfl, rfl⟩, hsw, hsp⟩
  | cons e rest ih =>
    intro w p hn hsw hsp
    rw [List.map_cons, List.nodup_cons] at hn
    obtain ⟨h1, h2, h3, h4⟩ := ih (w.assign e.label e.weight) (p.assign e.label label) hn.2
      (LabelMap.keys_assign_sorted _ _ _ hsw) (LabelMap.keys_assign_sorted _ _ _ hsp)
    refine ⟨?_, ?_, h3, h4⟩
    · intro x hx
      rcases List.mem_cons.mp hx with rfl | hx
      · have := h2 x.label hn.1
        simp only [initNeighbors]
        rw [this.1, this.2, LabelMap.lookup_assign, LabelMap.lookup_assign]
        simp
      · exact h1 x hx
    · intro v hv
      simp only [List.map_cons, List.mem_cons, not_or] at hv
      have := h2 v hv.2
      simp only [initNeighbors]
      rw [this.1, this.2, LabelMap.lookup_assign, LabelMap.lookup_assign]
      have hne : ¬ e.label = v := fun x => hv.1 x.symm
      simp [hne]

theorem initOthers_spec :
    ∀ (ks : List Label) (w : WeightMap), w.keys.Pairwise (fun a b => labelLt a b = true) →
      (∀ v, w.contains v = true → (initOthers ks w).lookup v = w.lookup v) ∧
      (∀ v, w.contains v = false → v ∈ ks → (initOthers ks w).lookup v = some INT_MAX) ∧
      (∀ v, w.contains v = false → v ∉ ks → (initOthers ks w).lookup v = none) ∧
      (initOthers ks w).keys.Pairwise (fun a b => labelLt a b = true) := by
  intro ks
  induction ks with
  | nil =>
    intro w hs
    refine ⟨fun _ _ => rfl, by simp, ?_, hs⟩
    intro v hv _
    simp only [LabelMap.contains] at hv
    simp only [initOthers]
    cases hl : w.lookup v with
    | none => rfl
    | some d => rw [hl] at hv; exact Bool.noConfusion hv
  | cons k ks ih =>
    intro w hs
    cases hk : w.contains k with
    | true =>
      obtain ⟨h1, h2, h3, h4⟩ := ih w hs
      simp only [initOthers, hk, Bool.not_true, Bool.false_eq_true, if_false]
      refine ⟨h1, ?_, ?_, h4⟩
      · intro v hv hvk
        rcases List.mem_cons.mp hvk with rfl | hvk
        · rw [hk] at hv; exact Bool.noConfusion hv
        · exact h2 v hv hvk
      · intro v hv hvk
        exact h3 v hv (fun h => hvk (List.mem_cons_of_mem _ h))
    | false =>
      obtain ⟨h1, h2, h3, h4⟩ := ih (w.assign k INT_MAX) (LabelMap.keys_assign_sorted _ _ _ hs)
      simp only [initOthers, hk, Bool.not_false, if_true]
      refine ⟨?_, ?_, ?_, h4⟩
      · intro v hv
        have hne : ¬ k = v := by intro e; rw [e, hv] at hk; exact Bool.noConfusion hk
        rw [h1 v (by rw [LabelMap.contains_assign, hv]; simp), LabelMap.lookup_assign]
        simp [hne]
      · intro v hv hvk
        by_cases e : k = v
        · rw [h1 v (by rw [LabelMap.contains_assign]; simp [e]), LabelMap.lookup_assign]
          simp [e]
        · rcases List.mem_cons.mp hvk with rfl | hvk
          · exact absurd rfl e
          · exact h2 v (by rw [LabelMap.contains_assign, hv]; simp [e]) hvk
      · intro v hv hvk
        have e : ¬ k = v := fun e => hvk (e ▸ List.mem_cons_self _ _)
        exact h3 v (by rw [LabelMap.contains_assign, hv]; simp [e])
          (fun h => hvk (List.mem_cons_of_mem _ h))

theorem cleanWeights_spec :
    ∀ (ks : List Label) (w : WeightMap), w.keys.Pairwise (fun a b => labelLt a b = true) →
      (∀ v, (cleanWeights ks w).lookup v =
        if v ∈ ks ∧ (w.read v = INT_MAX ∨ w.read v = NO_WEIGHT) then none else w.lookup v) ∧
      (cleanWeights ks w).keys.Pairwise (fun a b => labelLt a b = true) := by
  intro ks
  induction ks with
  | nil => intro w hs; exact ⟨by simp [cleanWeights], hs⟩
  | cons k ks ih =>
    intro w hs
    by_cases hc : w.read k = INT_MAX ∨ w.read k = NO_WEIGHT
    · obtain ⟨h1, h2⟩ := ih (w.erase k) (LabelMap.keys_erase_sorted _ _ hs)
      simp only [cleanWeights, hc, if_true]
      refine ⟨?_, h2⟩
      intro v
      rw [h1 v]
      by_cases e : k = v
      · subst e
        have hr : (w.erase k).read k = NO_WEIGHT := by
          simp [LabelMap.read, LabelMap.lookup_erase, NO_WEIGHT]
        simp [hr, hc, LabelMap.lookup_erase]
      · have e' : ¬ v = k := fun x => e x.symm
        have hr : (w.erase k).read v = w.read v := by
          simp [LabelMap.read, LabelMap.lookup_erase, e]
        simp [hr, LabelMap.lookup_erase, e, e']
    · obtain ⟨h1, h2⟩ := ih w hs
      simp only [cleanWeights, hc, if_false]
      refine ⟨?_, h2⟩
      intro v
      rw [h1 v]
      by_cases e : v = k
      · subst e; simp [hc]
      · simp [e]

theorem chain_label_ne {g : Graph} (hl : g.NoSelfLoops) {u : Label} {e : Edge}
    (he : e ∈ g.chain u) : e.label ≠ u := by
  obtain ⟨v, hv, hev⟩ := mem_chain_mem_map he
  exact hl _ hv e hev

theorem chain_labels_nodup {g : Graph} (hs : g.ChainsSorted) (u : Label) :
    ((g.chain u).map Edge.label).Nodup :=
  pairwise_labelLt_nodup (targets_sorted g hs u)

theorem chain_of_find? {g : Graph} {u : Label} {v : Vertex} (h : g.map.find? u = some v) :
    g.chain u = v.next := by
  simp [chain, h]

/-- The entries of the maps built by `initMaps` from empty maps. -/
theorem initMaps_spec (g : Graph) (hc : g.Closed) (hs : g.ChainsSorted) (hl : g.NoSelfLoops)
    (o : Label) (curr : Vertex) (ho : g.map.find? o = some curr) :
    (initMaps g curr.next o (LabelMap.assign [] o NO_WEIGHT) []).1.read o = 0 ∧
      (∀ e ∈ g.chain o,
        (initMaps g curr.next o (LabelMap.assign [] o NO_WEIGHT) []).1.read e.label = e.weight ∧
        (initMaps g curr.next o (LabelMap.assign [] o NO_WEIGHT) []).2.lookup e.label = some o) ∧
      (∀ v, v ≠ o → v ∉ g.targets o → g.map.count v = true →
        (initMaps g curr.next o (LabelMap.assign [] o NO_WEIGHT) []).1.read v = INT_MAX) ∧
      (∀ v, v ∉ g.targets o →
        (initMaps g curr.next o (LabelMap.assign [] o NO_WEIGHT) []).2.lookup v = none) ∧
      (∀ v, (initMaps g curr.next o (LabelMap.assign [] o NO_WEIGHT) []).1.contains v =
        g.map.count v) ∧
      (initMaps g curr.next o (LabelMap.assign [] o NO_WEIGHT) []).1.keys.Pairwise
        (fun a b => labelLt a b = true) ∧
      (initMaps g curr.next o (LabelMap.assign [] o NO_WEIGHT) []).2.keys.Pairwise
        (fun a b => labelLt a b = true) := by
  have hchain : g.chain o = curr.next := chain_of_find? ho
  have hocount : g.map.count o = true := by rw [AdjacencyMap.count_eq_isSome, ho]; rfl
  have hw0 : (LabelMap.assign ([] : WeightMap) o NO_WEIGHT).keys.Pairwise
      (fun a b => labelLt a b = true) := by simp [LabelMap.assign, LabelMap.keys]
  have hp0 : (LabelMap.keys ([] : PrevMap)).Pairwise (fun a b => labelLt a b = true) := by
    simp [LabelMap.keys]
  obtain ⟨n1, n2, n3, n4⟩ := initNeighbors_spec o curr.next
    (LabelMap.assign [] o NO_WEIGHT) [] (by rw [← hchain]; exact chain_labels_nodup hs o) hw0 hp0
  obtain ⟨o1, o2, o3, o4⟩ := initOthers_spec g.map.keys
    (initNeighbors o curr.next (LabelMap.assign [] o NO_WEIGHT) []).1 n3
  have honot : o ∉ curr.next.map Edge.label := by
    intro h
    obtain ⟨e, he, hel⟩ := List.mem_map.mp h
    exact chain_label_ne hl (by rw [hchain]; exact he) hel
  -- the lookups in the map of the first loop
  have hn_o : (initNeighbors o curr.next (LabelMap.assign [] o NO_WEIGHT) []).1.lookup o =
      some 0 := by
    rw [(n2 o honot).1]; simp [LabelMap.assign, LabelMap.lookup, NO_WEIGHT]
  have hn_other : ∀ v, v ≠ o → v ∉ curr.next.map Edge.label →
      (initNeighbors o curr.next (LabelMap.assign [] o NO_WEIGHT) []).1.lookup v = none := by
    intro v hvo hv
    rw [(n2 v hv).1]
    have : ¬ o = v := fun e => hvo e.symm
    simp [LabelMap.assign, LabelMap.lookup, this]
  unfold initMaps
  refine ⟨?_, ?_, ?_, ?_, ?_, o4, n4⟩
  · have := o1 o (by simp [LabelMap.contains, hn_o])
    rw [hn_o] at this
    exact LabelMap.read_eq_of_lookup this
  · intro e he
    rw [hchain] at he
    have h1 := n1 e he
    have := o1 e.label (by simp [LabelMap.contains, h1.1])
    rw [h1.1] at this
    exact ⟨LabelMap.read_eq_of_lookup this, h1.2⟩
  · intro v hvo hvt hvk
    have hv : v ∉ curr.next.map Edge.label := by
      rw [← hchain]; exact hvt
    have := o2 v (by simp [LabelMap.contains, hn_other v hvo hv])
      ((AdjacencyMap.count_iff_mem_keys _ _).mp hvk)
    exact LabelMap.read_eq_of_lookup this
  · intro v hvt
    have hv : v ∉ curr.next.map Edge.label := by
      rw [← hchain]; exact hvt
    rw [(n2 v hv).2]; rfl
  · intro v
    by_cases hvo : v = o
    · subst hvo
      have := o1 v (by simp [LabelMap.contains, hn_o])
      rw [hn_o] at this
      simp [LabelMap.contains, this, hocount]
    · by_cases hv : v ∈ curr.next.map Edge.label
      · obtain ⟨e, he, rfl⟩ := List.mem_map.mp hv
        have h1 := n1 e he
        have := o1 e.label (by simp [LabelMap.contains, h1.1])
        rw [h1.1] at this
        have hk : g.map.count e.label = true := hc.chain_count o e (by rw [hchain]; exact he)
        simp [LabelMap.contains, this, hk]
      · have hnone := hn_other v hvo hv
        cases hk : g.map.count v with
        | true =>
          have := o2 v (by simp [LabelMap.contains, hnone])
            ((AdjacencyMap.count_iff_mem_keys _ _).mp hk)
          simp [LabelMap.contains, this]
        | false =>
          have hnk : v ∉ g.map.keys := by
            rw [← AdjacencyMap.count_iff_mem_keys, hk]; simp
          have := o3 v (by simp [LabelMap.contains, hnone]) hnk
          simp [LabelMap.contains, this]

/-! ## The loop of dijkstra -/

theorem getAdjacent_self {g : Graph} (hl : g.NoSelfLoops) {u : Label} {curr : Vertex}
    (h : g.map.find? u = some curr) : curr.getAdjacent u = none := by
  unfold Vertex.getAdjacent
  rw [List.find?_eq_none]
  intro e he
  have := hl _ (AdjacencyMap.mem_of_find? h) e he
  simpa using this

theorem getAdjacent_mem {curr : Vertex} {k : Label} {e : Edge}
    (h : curr.getAdjacent k = some e) : e ∈ curr.next ∧ e.label = k := by
  unfold Vertex.getAdjacent at h
  exact ⟨List.mem_of_find?_eq_some h, by simpa using List.find?_some h⟩

theorem find?_label_of_mem (e : Edge) : ∀ (l : List Edge), (l.map Edge.label).Nodup → e ∈ l →
    l.find? (fun x => decide (x.label = e.label)) = some e := by
  intro l
  induction l with
  | nil => intro _ h; simp at h
  | cons x rest ih =>
    intro hn h
    rw [List.map_cons, List.nodup_cons] at hn
    rcases List.mem_cons.mp h with rfl | h'
    · simp
    · have hne : ¬ x.label = e.label := by
        intro e'
        exact hn.1 (e' ▸ List.mem_map_of_mem _ h')
      simp only [List.find?_cons, hne, decide_False]
      exact ih hn.2 h'

theorem getAdjacent_of_mem {curr : Vertex} {e : Edge}
    (hn : (curr.next.map Edge.label).Nodup) (h : e ∈ curr.next) :
    curr.getAdjacent e.label = some e :=
  find?_label_of_mem e curr.next hn h

/-- The relaxation loop of one round of `dijkstra` returns, with the relaxed
maps. -/
theorem relaxLoop_total (g : Graph) (hl : g.NoSelfLoops) (o : Label) (set : List Label)
    (w : WeightMap) (p : PrevMap) (hsh : DijkstraShape g o set w p) (k : Label)
    (hk : w.contains k = true) (curr : Vertex) (hcurr : g.map.find? k = some curr) :
    ∃ w1 p1, relaxLoop g set curr k w.keys w p = some (w1, p1) ∧
      Relaxed curr k set w p w1 p1 := by
  obtain ⟨hsw, hsp, hc, _, _, _, _, _, _⟩ := hsh
  obtain ⟨w1, p1, h1, h2, h3, h4, h5, h6⟩ := relaxLoop_spec g set curr k (w.read k)
    (getAdjacent_self hl hcurr) w.keys w p (pairwise_labelLt_nodup hsw)
    (fun k' hk' => by
      have := (LabelMap.contains_iff_mem_keys w k').mpr hk'
      exact ⟨by rw [← hc]; exact this, this⟩) hk rfl hsw hsp
  refine ⟨w1, p1, h1, h2, ?_, ?_, h5, h6⟩
  · intro v
    rw [h3 v]
    by_cases hv : w.contains v = true
    · simp [hv, (LabelMap.contains_iff_mem_keys w v).mp hv]
    · have : v ∉ w.keys := fun h => hv ((LabelMap.contains_iff_mem_keys w v).mpr h)
      simp [hv, this]
  · intro v
    rw [h4 v]
    by_cases hv : w.contains v = true
    · simp [hv, (LabelMap.contains_iff_mem_keys w v).mp hv]
    · have : v ∉ w.keys := fun h => hv ((LabelMap.contains_iff_mem_keys w v).mpr h)
      simp [hv, this]

theorem Relaxed.read_of_settled {curr : Vertex} {u : Label} {set : List Label}
    {w w1 : WeightMap} {p p1 : PrevMap} (h : Relaxed curr u set w p w1 p1) {v : Label}
    (hv : v ∈ set) : w1.read v = w.read v := by
  rw [h.2.1 v]
  by_cases hc : w.contains v = true
  · simp [hc, relaxedValue, hv]
  · simp [hc]

theorem Relaxed.read_self {curr : Vertex} {u : Label} {set : List Label}
    {w w1 : WeightMap} {p p1 : PrevMap} (h : Relaxed curr u set w p w1 p1)
    (hno : curr.getAdjacent u = none) : w1.read u = w.read u := by
  rw [h.2.1 u]
  by_cases hc : w.contains u = true
  · simp [hc, relaxedValue_self _ _ _ _ _ hno]
  · simp [hc]

theorem Relaxed.read_cases {curr : Vertex} {u : Label} {set : List Label}
    {w w1 : WeightMap} {p p1 : PrevMap} (h : Relaxed curr u set w p w1 p1) (v : Label) :
    (w1.read v = w.read v ∧ p1.lookup v = p.lookup v) ∨
      (w.contains v = true ∧ v ∉ set ∧ ∃ e, curr.getAdjacent v = some e ∧
        addInt (w.read u) e.weight < w.read v ∧ w1.read v = addInt (w.read u) e.weight ∧
        p1.lookup v = some u) := by
  by_cases hc : w.contains v = true
  · cases hi : improves curr (w.read u) set v (w.read v) with
    | false =>
      left
      rw [h.2.1 v, h.2.2.1 v]
      simp [hc, hi, relaxedValue_of_not_improves hi]
    | true =>
      right
      obtain ⟨hvs, e, ha, hlt, hval⟩ := relaxedValue_of_improves hi
      refine ⟨hc, hvs, e, ha, hlt, ?_, ?_⟩
      · rw [h.2.1 v]; simp [hc, hval]
      · rw [h.2.2.1 v]; simp [hc, hi]
  · left
    rw [h.2.1 v, h.2.2.1 v]
    simp [hc]

/-- The structural invariant is kept by one round of `dijkstra`. -/
theorem DijkstraShape.shape_step {g : Graph} {o : Label} {set : List Label}
    {w : WeightMap} {p : PrevMap} (hsh : DijkstraShape g o set w p) {k : Label}
    (hk : Chosen set w k) {curr : Vertex} (hcurr : g.map.find? k = some curr)
    {w1 : WeightMap} {p1 : PrevMap} (hr : Relaxed curr k set w p w1 p1) :
    DijkstraShape g o (set ++ [k]) w1 p1 := by
  obtain ⟨hsw, hsp, hc, ho, hn, hkeys, hro, hpo, hreach⟩ := hsh
  obtain ⟨hkc, hks, hklt, _⟩ := hk
  have hkreach : g.Reachable o k := hreach k hkc (ne_of_lt hklt)
  refine ⟨hr.2.2.2.1, hr.2.2.2.2, fun v => (hr.1 v).trans (hc v), List.mem_append_left _ ho,
    ?_, ?_, ?_, ?_, ?_⟩
  · refine List.Nodup.append hn (by simp) ?_
    intro x hx hx'
    rw [List.mem_singleton.mp hx'] at hx
    exact hks hx
  · intro x hx
    rcases List.mem_append.mp hx with hx | hx
    · exact hkeys x hx
    · rw [List.mem_singleton.mp hx, ← hc]; exact hkc
  · rw [hr.read_of_settled ho]; exact hro
  · rcases hr.read_cases o with ⟨_, h2⟩ | ⟨_, h2, _⟩
    · rw [h2]; exact hpo
    · exact absurd ho h2
  · intro v hv hne
    rw [hr.1 v] at hv
    rcases hr.read_cases v with ⟨h1, _⟩ | ⟨_, _, e, ha, _, _, _⟩
    · rw [h1] at hne; exact hreach v hv hne
    · obtain ⟨hmem, hlab⟩ := getAdjacent_mem ha
      refine Relation.ReflTransGen.tail hkreach ?_
      show v ∈ g.targets k
      rw [← hlab]
      exact List.mem_map_of_mem _ (by rw [chain_of_find? hcurr]; exact hmem)

/-- The loop of `dijkstra` returns within as many rounds as there are unsettled
vertices, keeps every invariant that each round keeps, and ends with every
unsettled entry at `INT_MAX` or above. -/
theorem dijkstra_run (g : Graph) (hl : g.NoSelfLoops) (o : Label)
    (Inv : List Label → WeightMap → PrevMap → Prop)
    (hshape : ∀ set w p, Inv set w p → DijkstraShape g o set w p)
    (hstep : ∀ set w p k curr w1 p1, Inv set w p → Chosen set w k →
      g.map.find? k = some curr → Relaxed curr k set w p w1 p1 → Inv (set ++ [k]) w1 p1) :
    ∀ (n : Nat) (set : List Label) (w : WeightMap) (p : PrevMap), Inv set w p →
      g.map.length + 1 ≤ n + set.length →
      ∃ set1 w1 p1, dijkstra g n set w p = some (w1, p1) ∧ Inv set1 w1 p1 ∧
        ∀ v, w1.contains v = true → v ∉ set1 → INT_MAX ≤ w1.read v := by
  intro n
  induction n with
  | zero =>
    intro set w p hinv hn
    obtain ⟨_, _, _, _, hnd, hkeys, _, _, _⟩ := hshape set w p hinv
    have := nodup_length_le hnd (fun x hx => (AdjacencyMap.count_iff_mem_keys _ _).mp (hkeys x hx))
    simp only [AdjacencyMap.keys, List.length_map] at this
    omega
  | succ n ih =>
    intro set w p hinv hn
    have hsh := hshape set w p hinv
    rcases nextSmallest_spec g set w hsh.1 hsh.2.2.1 with ⟨hnone, hall⟩ | ⟨k, hsome, hk⟩
    · exact ⟨set, w, p, by simp only [dijkstra, hnone], hinv, hall⟩
    · obtain ⟨curr, hcurr⟩ := AdjacencyMap.find?_isSome_of_count
        (by rw [← hsh.2.2.1]; exact hk.1)
      obtain ⟨w1, p1, hrl, hrel⟩ := relaxLoop_total g hl o set w p hsh k hk.1 curr hcurr
      obtain ⟨set2, w2, p2, h2, hinv2, hall2⟩ := ih (set ++ [k]) w1 p1
        (hstep set w p k curr w1 p1 hinv hk hcurr hrel)
        (by simp only [List.length_append, List.length_singleton]; omega)
      refine ⟨set2, w2, p2, ?_, hinv2, hall2⟩
      simp only [dijkstra, hsome, hcurr, hrl]
      exact h2

/-- The structural invariant holds of the maps built by `initMaps`. -/
theorem DijkstraShape.shape_init (g : Graph) (hc : g.Closed) (hs : g.ChainsSorted)
    (hl : g.NoSelfLoops) (o : Label) (curr : Vertex) (ho : g.map.find? o = some curr) :
    DijkstraShape g o [o]
      (initMaps g curr.next o (LabelMap.assign [] o NO_WEIGHT) []).1
      (initMaps g curr.next o (LabelMap.assign [] o NO_WEIGHT) []).2 := by
  obtain ⟨h1, h2, h3, h4, h5, h6, h7⟩ := initMaps_spec g hc hs hl o curr ho
  have hocount : g.map.count o = true := by rw [AdjacencyMap.count_eq_isSome, ho]; rfl
  have honot : o ∉ g.targets o := by
    intro h
    obtain ⟨e, he, hel⟩ := List.mem_map.mp h
    exact chain_label_ne hl he hel
  refine ⟨h6, h7, h5, by simp, by simp, ?_, h1, h4 o honot, ?_⟩
  · intro k hk
    rw [List.mem_singleton.mp hk]; exact hocount
  · intro v hv hne
    by_cases hvo : v = o
    · rw [hvo]; exact Relation.ReflTransGen.refl
    · by_cases hvt : v ∈ g.targets o
      · exact Relation.ReflTransGen.tail Relation.ReflTransGen.refl hvt
      · rw [h5] at hv
        exact absurd (h3 v hvo hvt hv) hne

/-! ## The distance invariant of dijkstra -/

theorem Relaxed.read_le {curr : Vertex} {u : Label} {set : List Label}
    {w w1 : WeightMap} {p p1 : PrevMap} (h : Relaxed curr u set w p w1 p1) (v : Label) :
    w1.read v ≤ w.read v := by
  rcases h.read_cases v with ⟨h1, _⟩ | ⟨_, _, e, _, hlt, h1, _⟩
  · rw [h1]
  · rw [h1]; exact le_of_lt hlt

/-- An edge from a settled vertex to an unsettled one extends the path of the
settled vertex. -/
theorem DijkstraDist.extend {g : Graph} {o : Label} {set : List Label} {w : WeightMap}
    {p : PrevMap} (hd : DijkstraDist g o set w p) {u : Label} (hu : u ∈ set) {e : Edge}
    (he : e ∈ g.chain u) (hes : e.label ∉ set) :
    ∃ l, g.SimplePath o (e.label :: l) e.label (w.read u + e.weight) ∧ ∀ x ∈ l, x ∈ set := by
  obtain ⟨l, hl, hsub⟩ := (hd.1 u hu).1
  exact ⟨l, SimplePath.snoc e hl he (fun h => hes (hsub _ h)), hsub⟩

/-- An unsettled entry other than `INT_MAX` is the weight of a path without
repeated vertex through settled vertices. -/
theorem DijkstraDist.simplePath {g : Graph} {o : Label} {set : List Label} {w : WeightMap}
    {p : PrevMap} (hd : DijkstraDist g o set w p) {v : Label} (hv : w.contains v = true)
    (hvs : v ∉ set) (hne : w.read v ≠ INT_MAX) :
    ∃ l, g.SimplePath o (v :: l) v (w.read v) ∧ ∀ x ∈ l, x ∈ set := by
  obtain ⟨u, hu⟩ := hd.2.2.2 v hv hvs hne
  obtain ⟨hus, e, he, hev, hval⟩ := hd.2.2.1 v u hu
  rw [hval, ← hev]
  exact hd.extend hus he (hev ▸ hvs)

/-- No path to an unsettled vertex is lighter than the chosen entry. -/
theorem DijkstraDist.lower {g : Graph} (hc : g.Closed) (hn : g.NonNegative) {o : Label}
    {set : List Label} {w : WeightMap} {p : PrevMap} (hsh : DijkstraShape g o set w p)
    (hd : DijkstraDist g o set w p) {k : Label} (hk : Chosen set w k) :
    ∀ v d, g.PathWeight o v d → v ∉ set → w.read k ≤ d := by
  intro v d h
  induction h with
  | nil => intro h; exact absurd hsh.2.2.2.1 h
  | @snoc u d e hp he ih =>
    intro hes
    obtain ⟨x, hx, hex⟩ := mem_chain_mem_map he
    have hw : 0 ≤ e.weight := hn _ hx e hex
    by_cases hus : u ∈ set
    · have h1 : w.read u ≤ d := (hd.1 u hus).2 d hp
      have h2 : w.read e.label ≤ w.read u + e.weight := hd.2.1 u hus e he hes
      have h3 : w.read k ≤ w.read e.label :=
        hk.2.2.2 e.label (by rw [hsh.2.2.1]; exact hc.chain_count u e he) hes
      exact le_trans h3 (le_trans h2 (add_le_add_right h1 _))
    · exact le_trans (ih hus) (le_add_of_nonneg_right hw)

/-- A settled entry is the shortest distance of its vertex. -/
theorem DijkstraDist.shortest {g : Graph} {o : Label} {set : List Label} {w : WeightMap}
    {p : PrevMap} (hd : DijkstraDist g o set w p) {v : Label} (hv : v ∈ set) :
    g.IsShortest o v (w.read v) := by
  obtain ⟨⟨l, hl, _⟩, hmin⟩ := hd.1 v hv
  exact ⟨⟨l, hl⟩, hmin⟩

/-- The distance invariant holds of the maps built by `initMaps`. -/
theorem DijkstraDist.dist_init (g : Graph) (hc : g.Closed) (hs : g.ChainsSorted)
    (hl : g.NoSelfLoops) (hn : g.NonNegative) (o : Label) (curr : Vertex)
    (ho : g.map.find? o = some curr) :
    DijkstraDist g o [o]
      (initMaps g curr.next o (LabelMap.assign [] o NO_WEIGHT) []).1
      (initMaps g curr.next o (LabelMap.assign [] o NO_WEIGHT) []).2 := by
  obtain ⟨h1, h2, h3, h4, h5, h6, h7⟩ := initMaps_spec g hc hs hl o curr ho
  refine ⟨?_, ?_, ?_, ?_⟩
  · intro v hv
    rw [List.mem_singleton.mp hv, h1]
    exact ⟨⟨[o], SimplePath.nil, fun x hx => hx⟩, fun _ h => h.nonneg hn⟩
  · intro u hu e he _
    rw [List.mem_singleton.mp hu] at he ⊢
    rw [h1, (h2 e he).1, zero_add]
  · intro v u hvu
    by_cases hvt : v ∈ g.targets o
    · obtain ⟨e, he, hev⟩ := List.mem_map.mp hvt
      have hp := (h2 e he).2
      rw [hev, hvu] at hp
      have huo : u = o := Option.some.inj hp
      rw [huo]
      refine ⟨by simp, e, he, hev, ?_⟩
      rw [h1, ← hev, (h2 e he).1, zero_add]
    · rw [h4 v hvt] at hvu
      exact Option.noConfusion hvu
  · intro v hv hvs hne
    have hvo : v ≠ o := fun e => hvs (by simp [e])
    by_cases hvt : v ∈ g.targets o
    · obtain ⟨e, he, hev⟩ := List.mem_map.mp hvt
      exact ⟨o, hev ▸ (h2 e he).2⟩
    · rw [h5] at hv
      exact absurd (h3 v hvo hvt hv) hne

/-- The distance invariant is kept by one round of `dijkstra`. -/
theorem DijkstraDist.dist_step {g : Graph} (hc : g.Closed) (hs : g.ChainsSorted)
    (hl : g.NoSelfLoops) (hn : g.NonNegative) {o : Label} (hb : g.PathsBelowMax o)
    {set : List Label} {w : WeightMap} {p : PrevMap} (hsh : DijkstraShape g o set w p)
    (hd : DijkstraDist g o set w p) {k : Label} (hk : Chosen set w k) {curr : Vertex}
    (hcurr : g.map.find? k = some curr) {w1 : WeightMap} {p1 : PrevMap}
    (hr : Relaxed curr k set w p w1 p1) : DijkstraDist g o (set ++ [k]) w1 p1 := by
  have hklow : ∀ d, g.PathWeight o k d → w.read k ≤ d :=
    fun d h => DijkstraDist.lower hc hn hsh hd hk k d h hk.2.1
  obtain ⟨lk, hlk, hlksub⟩ := hd.simplePath hk.1 hk.2.1 (ne_of_lt hk.2.2.1)
  have hkself : w1.read k = w.read k := hr.read_self (getAdjacent_self hl hcurr)
  have hchain : g.chain k = curr.next := chain_of_find? hcurr
  have hsettled : ∀ v ∈ set ++ [k], w1.read v = w.read v := by
    intro v hv
    rcases List.mem_append.mp hv with hv | hv
    · exact hr.read_of_settled hv
    · rw [List.mem_singleton.mp hv]; exact hkself
  have hadd : ∀ e ∈ g.chain k, e.label ∉ set →
      addInt (w.read k) e.weight = w.read k + e.weight := by
    intro e he hes
    have hnot : e.label ∉ k :: lk := by
      intro h
      rcases List.mem_cons.mp h with h | h
      · exact chain_label_ne hl he h
      · exact hes (hlksub _ h)
    have hp : g.SimplePath o (e.label :: k :: lk) e.label (w.read k + e.weight) :=
      SimplePath.snoc e hlk he hnot
    exact addInt_eq _ _ (hp.pathWeight.nonneg hn) (hb _ _ _ hp)
  refine ⟨?_, ?_, ?_, ?_⟩
  · intro v hv
    rw [hsettled v hv]
    rcases List.mem_append.mp hv with hv | hv
    · obtain ⟨⟨l, hl1, hl2⟩, hmin⟩ := hd.1 v hv
      exact ⟨⟨l, hl1, fun x hx => List.mem_append_left _ (hl2 x hx)⟩, hmin⟩
    · rw [List.mem_singleton.mp hv]
      refine ⟨⟨k :: lk, hlk, ?_⟩, hklow⟩
      intro x hx
      rcases List.mem_cons.mp hx with hx | hx
      · rw [hx]; simp
      · exact List.mem_append_left _ (hlksub x hx)
  · intro u hu e he hes
    rw [hsettled u hu]
    have hes1 : e.label ∉ set := fun h => hes (List.mem_append_left _ h)
    rcases List.mem_append.mp hu with hu | hu
    · exact le_trans (hr.read_le e.label) (hd.2.1 u hu e he hes1)
    · rw [List.mem_singleton.mp hu] at he ⊢
      have hec : w.contains e.label = true := by
        rw [hsh.2.2.1]; exact hc.chain_count k e he
      have hadj : curr.getAdjacent e.label = some e :=
        getAdjacent_of_mem (hchain ▸ chain_labels_nodup hs k) (hchain ▸ he)
      rw [hr.2.1 e.label, if_pos hec]
      simp only [relaxedValue, hes1, if_false, hadj, hadd e he hes1]
      split
      · exact le_refl _
      · rename_i hnot
        exact not_lt.mp hnot
  · intro v u hvu
    rcases hr.read_cases v with ⟨h1, h2⟩ | ⟨_, hvs, e, ha, _, h1, h2⟩
    · rw [h2] at hvu
      obtain ⟨hus, e, he, hev, hval⟩ := hd.2.2.1 v u hvu
      refine ⟨List.mem_append_left _ hus, e, he, hev, ?_⟩
      rw [h1, hr.read_of_settled hus]; exact hval
    · rw [h2] at hvu
      have huk : k = u := Option.some.inj hvu
      obtain ⟨hmem, hlab⟩ := getAdjacent_mem ha
      have he : e ∈ g.chain k := by rw [hchain]; exact hmem
      rw [← huk]
      refine ⟨by simp, e, he, hlab, ?_⟩
      rw [h1, hkself, hadd e he (hlab ▸ hvs)]
  · intro v hv hvs hne
    rw [hr.1 v] at hv
    have hvs1 : v ∉ set := fun h => hvs (List.mem_append_left _ h)
    rcases hr.read_cases v with ⟨h1, h2⟩ | ⟨_, _, _, _, _, _, h2⟩
    · rw [h1] at hne; rw [h2]; exact hd.2.2.2 v hv hvs1 hne
    · exact ⟨k, h2⟩

/-! ## Dijkstra -/

/-- On a graph with the invariants of built graphs, `Dijkstra` returns within
as many rounds as there are vertices; the maps before `cleanWeights` satisfy
the structural invariant, and every unsettled entry is at `INT_MAX` or
above. -/
theorem Dijkstra_shape (g : Graph) (hc : g.Closed) (hs : g.ChainsSorted) (hl : g.NoSelfLoops)
    (o : Label) (ho : g.HasVertex o = true) (fuel : Nat) (hf : g.map.length ≤ fuel) :
    ∃ set w p, g.Dijkstra fuel o [] [] = some (cleanWeights g.map.keys w, p) ∧
      DijkstraShape g o set w p ∧
      ∀ v, w.contains v = true → v ∉ set → INT_MAX ≤ w.read v := by
  obtain ⟨curr, hcurr⟩ := AdjacencyMap.find?_isSome_of_count ho
  obtain ⟨set, w, p, hrun, hinv, hfin⟩ := dijkstra_run g hl o (DijkstraShape g o)
    (fun _ _ _ h => h) (fun _ _ _ _ _ _ _ h hk hcu hr => h.shape_step hk hcu hr) fuel [o] _ _
    (DijkstraShape.shape_init g hc hs hl o curr hcurr)
    (by simp only [List.length_singleton]; omega)
  refine ⟨set, w, p, ?_, hinv, hfin⟩
  simp only [Dijkstra, hcurr, hrun]

/-- With non-negative weights and path sums below `INT_MAX`, the maps before
`cleanWeights` also satisfy the distance invariant. -/
theorem Dijkstra_dist (g : Graph) (hc : g.Closed) (hs : g.ChainsSorted) (hl : g.NoSelfLoops)
    (hn : g.NonNegative) (o : Label) (ho : g.HasVertex o = true) (hb : g.PathsBelowMax o)
    (fuel : Nat) (hf : g.map.length ≤ fuel) :
    ∃ set w p, g.Dijkstra fuel o [] [] = some (cleanWeights g.map.keys w, p) ∧
      DijkstraShape g o set w p ∧ DijkstraDist g o set w p ∧
      ∀ v, w.contains v = true → v ∉ set → INT_MAX ≤ w.read v := by
  obtain ⟨curr, hcurr⟩ := AdjacencyMap.find?_isSome_of_count ho
  obtain ⟨set, w, p, hrun, hinv, hfin⟩ := dijkstra_run g hl o
    (fun set w p => DijkstraShape g o set w p ∧ DijkstraDist g o set w p)
    (fun _ _ _ h => h.1)
    (fun _ _ _ _ _ _ _ h hk hcu hr =>
      ⟨h.1.shape_step hk hcu hr, DijkstraDist.dist_step hc hs hl hn hb h.1 h.2 hk hcu hr⟩)
    fuel [o] _ _
    ⟨DijkstraShape.shape_init g hc hs hl o curr hcurr, DijkstraDist.dist_init g hc hs hl hn o curr hcurr⟩
    (by simp only [List.length_singleton]; omega)
  refine ⟨set, w, p, ?_, hinv.1, hinv.2, hfin⟩
  simp only [Dijkstra, hcurr, hrun]

/-- An entry of the cleaned weight map is an entry of the weight map that is
neither `INT_MAX` nor `NO_WEIGHT`. -/
theorem mem_cleanWeights {g : Graph} {w : WeightMap}
    (hs : w.keys.Pairwise (fun a b => labelLt a b = true))
    (hk : ∀ k, w.contains k = g.map.count k) {v : Label} {d : Weight}
    (h : (v, d) ∈ cleanWeights g.map.keys w) :
    w.contains v = true ∧ w.read v = d ∧ d ≠ INT_MAX ∧ d ≠ NO_WEIGHT := by
  obtain ⟨h1, h2⟩ := cleanWeights_spec g.map.keys w hs
  have hl := LabelMap.lookup_of_mem (pairwise_labelLt_nodup h2) h
  rw [h1 v] at hl
  split at hl
  · exact Option.noConfusion hl
  · rename_i hcond
    have hc : w.contains v = true := by simp [LabelMap.contains, hl]
    have hr : w.read v = d := LabelMap.read_eq_of_lookup hl
    have hv : v ∈ g.map.keys := by
      rw [← AdjacencyMap.count_iff_mem_keys, ← hk]; exact hc
    rw [hr] at hcond
    exact ⟨hc, hr, fun e => hcond ⟨hv, Or.inl e⟩, fun e => hcond ⟨hv, Or.inr e⟩⟩

/-! ## Built graphs have no self-loops -/

theorem run_noSelfLoops (ops : List Op) : (run ops).NoSelfLoops := by
  refine run_induction _ (by decide) ?_ ops
  intro g op h
  cases op with
  | addVertex l =>
    intro p hp e he
    rcases AddVertex_mem hp with rfl | hp
    · simp at he
    · exact h p hp e he
  | connect a b w =>
    by_cases hab : a = b
    · subst hab
      show ((g.Connect a a w).2).NoSelfLoops
      rw [Connect_self]; exact h
    · intro p hp e he
      rcases Connect_mem hab hp with rfl | rfl | rfl | hp
      · rcases mem_chainConnect b w _ e he with rfl | he'
        · exact fun e' => hab e'.symm
        · rw [source_next] at he'
          exact chain_label_ne h he'
      · simp at he
      · simp at he
      · exact h p hp e he
  | disconnect a b =>
    show ((g.Disconnect a b).2).NoSelfLoops
    rcases Disconnect_cases g a b with e | ⟨v, _, hv, _, e⟩
    · rw [e]; exact h
    · rw [e]
      intro p hp x hx
      rcases AdjacencyMap.mem_set hp with rfl | hp
      · exact h _ (AdjacencyMap.mem_of_find? hv) x ((chainDisconnect_sublist b v.next).subset hx)
      · exact h p hp x hx

/-! ## The results of Dijkstra -/

/-- C12: on every built graph with non-negative edge weights whose paths from
the origin (without repeated vertex) all weigh less than `INT_MAX`, `Dijkstra`
from an origin of the graph with empty output maps returns, and every entry
`(v, d)` of its WeightMap has `d` the minimum total weight over all directed
paths from the origin to `v`. -/
theorem Dijkstra_weights_shortest (ops : List Op) (o : Label)
    (hn : (run ops).NonNegative) (ho : (run ops).HasVertex o = true)
    (hb : (run ops).PathsBelowMax o) (fuel : Nat) (hf : (run ops).map.length ≤ fuel) :
    ∃ wMap pMap, (run ops).Dijkstra fuel o [] [] = some (wMap, pMap) ∧
      ∀ v d, (v, d) ∈ wMap → (run ops).IsShortest o v d := by
  obtain ⟨set, w, p, hrun, hsh, hd, hfin⟩ := Dijkstra_dist (run ops) (run_closed ops)
    (run_chainsSorted ops) (run_noSelfLoops ops) hn o ho hb fuel hf
  refine ⟨_, _, hrun, ?_⟩
  intro v d hvd
  obtain ⟨hc, hr, hmax, _⟩ := mem_cleanWeights hsh.1 hsh.2.2.1 hvd
  rw [← hr] at hmax ⊢
  by_cases hvs : v ∈ set
  · exact hd.shortest hvs
  · obtain ⟨l, hl, _⟩ := hd.simplePath hc hvs hmax
    exact absurd (hb _ _ _ hl) (not_lt.mpr (hfin v hc hvs))

/-- C14: on every built graph, `Dijkstra` from an origin of the graph with
empty output maps returns a WeightMap that has neither the origin nor any
vertex that is not reachable from the origin among its keys. -/
theorem Dijkstra_weights_reachable (ops : List Op) (o : Label)
    (ho : (run ops).HasVertex o = true) (fuel : Nat) (hf : (run ops).map.length ≤ fuel) :
    ∃ wMap pMap, (run ops).Dijkstra fuel o [] [] = some (wMap, pMap) ∧
      o ∉ wMap.keys ∧ ∀ v ∈ wMap.keys, (run ops).Reachable o v := by
  obtain ⟨set, w, p, hrun, hsh, _⟩ := Dijkstra_shape (run ops) (run_closed ops)
    (run_chainsSorted ops) (run_noSelfLoops ops) o ho fuel hf
  refine ⟨_, _, hrun, ?_, ?_⟩
  · intro h
    obtain ⟨q, hq, hqo⟩ := List.mem_map.mp h
    obtain ⟨_, hr, _, h0⟩ := mem_cleanWeights hsh.1 hsh.2.2.1 (show (q.1, q.2) ∈ _ from hq)
    rw [hqo, hsh.2.2.2.2.2.2.1] at hr
    exact h0 hr.symm
  · intro v h
    obtain ⟨q, hq, hqv⟩ := List.mem_map.mp h
    obtain ⟨hc, hr, hmax, _⟩ := mem_cleanWeights hsh.1 hsh.2.2.1 (show (q.1, q.2) ∈ _ from hq)
    rw [hqv] at hc hr
    exact hsh.2.2.2.2.2.2.2.2 v hc (by rw [hr]; exact hmax)

/-- C15: on every built graph with non-negative edge weights whose paths from
the origin (without repeated vertex) all weigh less than `INT_MAX`, `Dijkstra`
from an origin of the graph with empty output maps returns a PrevMap in which
the origin is no key and every entry `(v, u)` is a predecessor on a shortest
path: the graph has an edge from `u` to `v` whose weight added to the shortest
distance of `u` is the shortest distance of `v`, the shortest distance of the
origin being `0`. -/
theorem Dijkstra_prev_shortest (ops : List Op) (o : Label)
    (hn : (run ops).NonNegative) (ho : (run ops).HasVertex o = true)
    (hb : (run ops).PathsBelowMax o) (fuel : Nat) (hf : (run ops).map.length ≤ fuel) :
    ∃ wMap pMap, (run ops).Dijkstra fuel o [] [] = some (wMap, pMap) ∧
      o ∉ pMap.keys ∧ (run ops).IsShortest o o 0 ∧
      ∀ v u, (v, u) ∈ pMap → ∃ e ∈ (run ops).chain u, e.label = v ∧
        ∃ du, (run ops).IsShortest o u du ∧ (run ops).IsShortest o v (du + e.weight) := by
  obtain ⟨set, w, p, hrun, hsh, hd, hfin⟩ := Dijkstra_dist (run ops) (run_closed ops)
    (run_chainsSorted ops) (run_noSelfLoops ops) hn o ho hb fuel hf
  have hnd : p.keys.Nodup := pairwise_labelLt_nodup hsh.2.1
  refine ⟨_, _, hrun, ?_, IsShortest.at_origin hn o, ?_⟩
  · intro h
    obtain ⟨q, hq, hqo⟩ := List.mem_map.mp h
    have := LabelMap.lookup_of_mem hnd (show (q.1, q.2) ∈ p from hq)
    rw [hqo, hsh.2.2.2.2.2.2.2.1] at this
    exact Option.noConfusion this
  · intro v u hvu
    obtain ⟨hus, e, he, hev, hval⟩ := hd.2.2.1 v u (LabelMap.lookup_of_mem hnd hvu)
    refine ⟨e, he, hev, w.read u, hd.shortest hus, ?_⟩
    rw [← hval]
    have hvs : v ∈ set := by
      by_contra hvs
      obtain ⟨l, hl, _⟩ := hd.extend hus he (hev ▸ hvs)
      have hc : w.contains v = true := by
        rw [hsh.2.2.1, ← hev]; exact (run_closed ops).chain_count u e he
      have h1 := hb _ _ _ hl
      rw [← hval] at h1
      exact absurd h1 (not_lt.mpr (hfin v hc hvs))
    exact hd.shortest hvs

/-! ## Examples of Dijkstra -/

theorem graph0_paths {l : List Label} {v : Label} {d : Int}
    (h : (run graph0Ops).SimplePath "A" l v d) :
    (v = "A" ∧ d = 0) ∨ (v = "B" ∧ d = 1) ∨ (v = "C" ∧ (d = 8 ∨ d = 4)) := by
  induction h with
  | nil => exact Or.inl ⟨rfl, rfl⟩
  | @snoc l u d e _ he _ ih =>
    rcases ih with ⟨rfl, rfl⟩ | ⟨rfl, rfl⟩ | ⟨rfl, _⟩
    · have hc : (run graph0Ops).chain "A" = [⟨"B", 1⟩, ⟨"C", 8⟩] := by decide
      rw [hc] at he
      simp only [List.mem_cons, List.mem_singleton, List.not_mem_nil, or_false] at he
      rcases he with rfl | rfl
      · exact Or.inr (Or.inl ⟨rfl, rfl⟩)
      · exact Or.inr (Or.inr ⟨rfl, Or.inl rfl⟩)
    · have hc : (run graph0Ops).chain "B" = [⟨"C", 3⟩] := by decide
      rw [hc] at he
      simp only [List.mem_cons, List.mem_singleton, List.not_mem_nil, or_false] at he
      rw [he]
      exact Or.inr (Or.inr ⟨rfl, Or.inr rfl⟩)
    · have hc : (run graph0Ops).chain "C" = [] := by decide
      rw [hc] at he
      simp at he

theorem graph0_pathsBelowMax : (run graph0Ops).PathsBelowMax "A" := by
  intro l v d h
  rcases graph0_paths h with ⟨_, rfl⟩ | ⟨_, rfl⟩ | ⟨_, rfl | rfl⟩ <;> decide

/-- Witness for C12: the graph `A-B:1, A-C:8, B-C:3` from `A`, where the result
is `{B:1, C:4}` with predecessors `{B:A, C:B}`. -/
theorem Dijkstra_weights_shortest_witness :
    (run graph0Ops).Dijkstra 3 "A" [] [] =
        some ([("B", 1), ("C", 4)], [("B", "A"), ("C", "B")]) ∧
      ∃ wMap pMap, (run graph0Ops).Dijkstra 3 "A" [] [] = some (wMap, pMap) ∧
        ∀ v d, (v, d) ∈ wMap → (run graph0Ops).IsShortest "A" v d :=
  ⟨by decide, Dijkstra_weights_shortest graph0Ops "A" (by decide) (by decide)
    graph0_pathsBelowMax 3 (by decide)⟩

/-- Witness for C14: the graph `A-B:1, A-C:8, B-C:3` from `B`, where `A` is
not reachable and the result is `{C:3}`. -/
theorem Dijkstra_weights_reachable_witness :
    (run graph0Ops).Dijkstra 3 "B" [] [] = some ([("C", 3)], [("C", "B")]) ∧
      ∃ wMap pMap, (run graph0Ops).Dijkstra 3 "B" [] [] = some (wMap, pMap) ∧
        "B" ∉ wMap.keys ∧ ∀ v ∈ wMap.keys, (run graph0Ops).Reachable "B" v :=
  ⟨by decide, Dijkstra_weights_reachable graph0Ops "B" (by decide) 3 (by decide)⟩

/-- Witness for C15: the graph `A-B:1, A-C:8, B-C:3` from `A`. -/
theorem Dijkstra_prev_shortest_witness :
    ∃ wMap pMap, (run graph0Ops).Dijkstra 3 "A" [] [] = some (wMap, pMap) ∧
      "A" ∉ pMap.keys ∧ (run graph0Ops).IsShortest "A" "A" 0 ∧
      ∀ v u, (v, u) ∈ pMap → ∃ e ∈ (run graph0Ops).chain u, e.label = v ∧
        ∃ du, (run graph0Ops).IsShortest "A" u du ∧
          (run graph0Ops).IsShortest "A" v (du + e.weight) :=
  Dijkstra_prev_shortest graph0Ops "A" (by decide) (by decide) graph0_pathsBelowMax 3
    (by decide)

theorem dijkstra_fuel_succ (g : Graph) :
    ∀ (n : Nat) (set : List Label) (w : WeightMap) (p : PrevMap) (r : WeightMap × PrevMap),
      dijkstra g n set w p = some r → dijkstra g (n + 1) set w p = some r := by
  intro n
  induction n with
  | zero => intro set w p r h; simp [dijkstra] at h
  | succ n ih =>
    intro set w p r h
    rw [dijkstra] at h ⊢
    cases hs : nextSmallest g set w with
    | none => rw [hs] at h; simp at h
    | some c =>
      cases c with
      | none => rw [hs] at h; simpa using h
      | some k =>
        rw [hs] at h
        simp only at h ⊢
        cases hf : g.map.find? k with
        | none => rw [hf] at h; simp at h
        | some curr =>
          rw [hf] at h
          simp only at h ⊢
          cases hr : relaxLoop g set curr k w.keys w p with
          | none => rw [hr] at h; simp at h
          | some q =>
            rw [hr] at h
            exact ih _ _ _ r h

theorem dijkstra_fuel_add (g : Graph) (n k : Nat) (set : List Label) (w : WeightMap)
    (p : PrevMap) (r : WeightMap × PrevMap) (h : dijkstra g n set w p = some r) :
    dijkstra g (n + k) set w p = some r := by
  induction k with
  | zero => exact h
  | succ k ih => exact dijkstra_fuel_succ g (n + k) set w p r ih

/-- More fuel does not change a result of `Dijkstra`. -/
theorem Dijkstra_fuel_le (g : Graph) (o : Label) (n m : Nat) (hnm : n ≤ m) (w0 : WeightMap)
    (p0 : PrevMap) (r : WeightMap × PrevMap) (h : g.Dijkstra n o w0 p0 = some r) :
    g.Dijkstra m o w0 p0 = some r := by
  obtain ⟨k, rfl⟩ := Nat.exists_eq_add_of_le hnm
  unfold Dijkstra at h ⊢
  cases hf : g.map.find? o with
  | none => rw [hf] at h; simp at h
  | some curr =>
    rw [hf] at h
    simp only at h ⊢
    cases hd : dijkstra g n [o] (initMaps g curr.next o (w0.assign o NO_WEIGHT) p0).1
        (initMaps g curr.next o (w0.assign o NO_WEIGHT) p0).2 with
    | none => rw [hd] at h; simp at h
    | some q =>
      rw [hd] at h
      rw [dijkstra_fuel_add g n k _ _ _ q hd]
      exact h

/-- C13: on the graph built from `A-B:0, B-C:0, A-D:5`, whose weights are
non-negative, the vertices `B` and `C` are reachable from `A` and differ from
it, yet the WeightMap of `Dijkstra` from `A` has the entry of `D` only:
`cleanWeights` erases every entry equal to `NO_WEIGHT`, which is `0`. -/
theorem Dijkstra_drops_zero_distance :
    (run zeroWeightOps).NonNegative ∧ (run zeroWeightOps).HasVertex "A" = true ∧
      (run zeroWeightOps).Reachable "A" "B" ∧ (run zeroWeightOps).Reachable "A" "C" ∧
      (run zeroWeightOps).Dijkstra 4 "A" [] [] =
        some ([("D", 5)], [("B", "A"), ("C", "B"), ("D", "A")]) ∧
      ∀ fuel wMap pMap, (run zeroWeightOps).Dijkstra fuel "A" [] [] = some (wMap, pMap) →
        "B" ∉ wMap.keys ∧ "C" ∉ wMap.keys := by
  have hAB : (run zeroWeightOps).hasEdge "A" "B" := by decide
  have hBC : (run zeroWeightOps).hasEdge "B" "C" := by decide
  refine ⟨by decide, by decide, Relation.ReflTransGen.single hAB,
    Relation.ReflTransGen.tail (Relation.ReflTransGen.single hAB) hBC, by decide, ?_⟩
  intro fuel wMap pMap h
  have h4 : (run zeroWeightOps).Dijkstra 4 "A" [] [] =
      some ([("D", 5)], [("B", "A"), ("C", "B"), ("D", "A")]) := by decide
  have hw : wMap = [("D", 5)] := by
    rcases Nat.lt_or_ge fuel 4 with hlt | hge
    · have h0 : (run zeroWeightOps).Dijkstra 0 "A" [] [] = none := by decide
      have h1 : (run zeroWeightOps).Dijkstra 1 "A" [] [] = none := by decide
      have h2 : (run zeroWeightOps).Dijkstra 2 "A" [] [] = none := by decide
      have h3 : (run zeroWeightOps).Dijkstra 3 "A" [] [] = none := by decide
      interval_cases fuel
      · rw [h0] at h; exact Option.noConfusion h
      · rw [h1] at h; exact Option.noConfusion h
      · rw [h2] at h; exact Option.noConfusion h
      · rw [h3] at h; exact Option.noConfusion h
    · have := Dijkstra_fuel_le _ "A" 4 fuel hge [] [] _ h4
      rw [this] at h
      exact (congrArg Prod.fst (Option.some.inj h)).symm
  rw [hw]
  decide

/-! ## The scan of nextMinEdge -/

theorem AdjacencyMap.find?_of_mem {m : AdjacencyMap} {l : Label} {v : Vertex}
    (hn : (AdjacencyMap.keys m).Nodup) (h : (l, v) ∈ m) : AdjacencyMap.find? m l = some v := by
  induction m with
  | nil => simp at h
  | cons p m ih =>
    obtain ⟨k, x⟩ := p
    simp only [AdjacencyMap.keys, List.map_cons, List.nodup_cons] at hn
    rcases List.mem_cons.mp h with h | h
    · simp only [Prod.mk.injEq] at h
      simp [AdjacencyMap.find?, h.1, h.2]
    · have hk : ¬ k = l := by
        intro e
        exact hn.1 (e ▸ List.mem_map_of_mem Prod.fst h)
      simp only [AdjacencyMap.find?, hk, if_false]
      exact ih hn.2 h

theorem AdjacencyMap.keys_unvisit (m : AdjacencyMap) :
    AdjacencyMap.keys (AdjacencyMap.unvisit m) = AdjacencyMap.keys m := by
  simp [AdjacencyMap.keys, AdjacencyMap.unvisit, List.map_map, Function.comp_def]

theorem Marked.keys_eq {g0 g : Graph} {s : List Label} (h : Marked g0 g s) :
    g.map.keys = g0.map.keys := by
  rw [← AdjacencyMap.keys_unvisit g.map, h.1, AdjacencyMap.keys_unvisit]

/-- The scan of one chain returns; it lowers `minWeight` to the least weight
below it of an edge to an unvisited vertex, and records the first such edge. -/
theorem scanChain_spec (g : Graph) (head : Label) :
    ∀ (c : List Edge) (best : Option (Label × Edge)) (mw : Weight),
      (∀ e ∈ c, g.map.count e.label = true) →
      ∃ best1 mw1, scanChain g head c best mw = some (best1, mw1) ∧ mw1 ≤ mw ∧
        (∀ e ∈ c, g.isVisited e.label = false → mw1 ≤ e.weight) ∧
        ((best1 = best ∧ mw1 = mw) ∨
          ∃ e ∈ c, best1 = some (head, e) ∧ mw1 = e.weight ∧ g.isVisited e.label = false ∧
            e.weight < mw) := by
  intro c
  induction c with
  | nil => intro best mw _; exact ⟨best, mw, rfl, le_refl _, by simp, Or.inl ⟨rfl, rfl⟩⟩
  | cons e rest ih =>
    intro best mw hc
    have hrest : ∀ x ∈ rest, g.map.count x.label = true :=
      fun x hx => hc x (List.mem_cons_of_mem _ hx)
    by_cases hlt : e.weight < mw
    · obtain ⟨t, ht⟩ := AdjacencyMap.find?_isSome_of_count (hc e (List.mem_cons_self _ _))
      have htv : t.visited = g.isVisited e.label := isVisited_eq_of_find? ht
      cases hv : g.isVisited e.label with
      | false =>
        obtain ⟨b1, m1, h1, h2, h3, h4⟩ := ih (some (head, e)) e.weight hrest
        refine ⟨b1, m1, ?_, le_trans h2 (le_of_lt hlt), ?_, Or.inr ?_⟩
        · simp only [scanChain, hlt, if_true, ht, htv, hv]
          exact h1
        · intro x hx hxv
          rcases List.mem_cons.mp hx with rfl | hx
          · exact h2
          · exact h3 x hx hxv
        · rcases h4 with ⟨e1, e2⟩ | ⟨x, hx, e1, e2, e3, e4⟩
          · exact ⟨e, List.mem_cons_self _ _, e1, e2, hv, hlt⟩
          · exact ⟨x, List.mem_cons_of_mem _ hx, e1, e2, e3, lt_trans e4 hlt⟩
      | true =>
        obtain ⟨b1, m1, h1, h2, h3, h4⟩ := ih best mw hrest
        refine ⟨b1, m1, ?_, h2, ?_, ?_⟩
        · simp only [scanChain, hlt, if_true, ht, htv, hv]
          exact h1
        · intro x hx hxv
          rcases List.mem_cons.mp hx with rfl | hx
          · rw [hv] at hxv; exact Bool.noConfusion hxv
          · exact h3 x hx hxv
        · rcases h4 with h4 | ⟨x, hx, h4⟩
          · exact Or.inl h4
          · exact Or.inr ⟨x, List.mem_cons_of_mem _ hx, h4⟩
    · obtain ⟨b1, m1, h1, h2, h3, h4⟩ := ih best mw hrest
      refine ⟨b1, m1, ?_, h2, ?_, ?_⟩
      · simp only [scanChain, hlt, if_false]
        exact h1
      · intro x hx hxv
        rcases List.mem_cons.mp hx with rfl | hx
        · exact le_trans h2 (not_lt.mp hlt)
        · exact h3 x hx hxv
      · rcases h4 with h4 | ⟨x, hx, h4⟩
        · exact Or.inl h4
        · exact Or.inr ⟨x, List.mem_cons_of_mem _ hx, h4⟩

/-- The scan of the map returns; it lowers `minWeight` to the least weight
below it of an edge from a visited head to an unvisited vertex, and records
the first such edge. -/
theorem scanMap_spec (g : Graph) :
    ∀ (m : AdjacencyMap) (best : Option (Label × Edge)) (mw : Weight),
      (∀ p ∈ m, ∀ e ∈ p.2.next, g.map.count e.label = true) →
      ∃ best1 mw1, scanMap g m best mw = some (best1, mw1) ∧ mw1 ≤ mw ∧
        (∀ p ∈ m, p.2.visited = true → ∀ e ∈ p.2.next, g.isVisited e.label = false →
          mw1 ≤ e.weight) ∧
        ((best1 = best ∧ mw1 = mw) ∨
          ∃ p ∈ m, p.2.visited = true ∧ ∃ e ∈ p.2.next, best1 = some (p.1, e) ∧
            mw1 = e.weight ∧ g.isVisited e.label = false ∧ e.weight < mw) := by
  intro m
  induction m with
  | nil => intro best mw _; exact ⟨best, mw, rfl, le_refl _, by simp, Or.inl ⟨rfl, rfl⟩⟩
  | cons p rest ih =>
    obtain ⟨k, v⟩ := p
    intro best mw hc
    have hrest : ∀ p ∈ rest, ∀ e ∈ p.2.next, g.map.count e.label = true :=
      fun p hp => hc p (List.mem_cons_of_mem _ hp)
    cases hv : v.visited with
    | false =>
      obtain ⟨b1, m1, h1, h2, h3, h4⟩ := ih best mw hrest
      refine ⟨b1, m1, ?_, h2, ?_, ?_⟩
      · simp only [scanMap, hv, Bool.false_eq_true, if_false]
        exact h1
      · intro p hp hpv
        rcases List.mem_cons.mp hp with rfl | hp
        · rw [hv] at hpv; exact Bool.noConfusion hpv
        · exact h3 p hp hpv
      · rcases h4 with h4 | ⟨x, hx, h4⟩
        · exact Or.inl h4
        · exact Or.inr ⟨x, List.mem_cons_of_mem _ hx, h4⟩
    | true =>
      obtain ⟨b0, m0, c1, c2, c3, c4⟩ := scanChain_spec g k v.next best mw
        (hc (k, v) (List.mem_cons_self _ _))
      obtain ⟨b1, m1, h1, h2, h3, h4⟩ := ih b0 m0 hrest
      refine ⟨b1, m1, ?_, le_trans h2 c2, ?_, ?_⟩
      · simp only [scanMap, hv, if_true, c1]
        exact h1
      · intro p hp hpv
        rcases List.mem_cons.mp hp with rfl | hp
        · intro e he hev
          exact le_trans h2 (c3 e he hev)
        · exact h3 p hp hpv
      · rcases h4 with ⟨e1, e2⟩ | ⟨x, hx, hxv, e, he, e1, e2, e3, e4⟩
        · rcases c4 with ⟨d1, d2⟩ | ⟨e, he, d1, d2, d3, d4⟩
          · exact Or.inl ⟨e1.trans d1, e2.trans d2⟩
          · exact Or.inr ⟨(k, v), List.mem_cons_self _ _, hv, e, he, e1.trans d1,
              e2.trans d2, d3, d4⟩
        · exact Or.inr ⟨x, List.mem_cons_of_mem _ hx, hxv, e, he, e1, e2, e3,
            lt_of_lt_of_le e4 c2⟩

/-- One call of `nextMinEdge` on a graph whose visited labels are those of `S`:
either no edge leaving `S` weighs less than `INT_MAX` and the null pointer is
returned, or the least edge leaving `S` is returned and its target marked. -/
theorem nextMinEdge_spec (g0 : Graph) (hc : g0.Closed) (hk : g0.KeysSorted) (g : Graph)
    (S : List Label) (hm : Marked g0 g S) :
    (nextMinEdge g = some (g, none) ∧ ∀ u e, Frontier g0 S u e → INT_MAX ≤ e.weight) ∨
      ∃ u e g1, Picked g0 S u e ∧ nextMinEdge g = some (g1, some (u, e)) ∧
        Marked g0 g1 (S ++ [e.label]) := by
  have hnd : g.map.keys.Nodup := by rw [hm.keys_eq]; exact pairwise_labelLt_nodup hk
  have hchain : ∀ p ∈ g.map, p.2.next = g0.chain p.1 := by
    intro p hp
    rw [← hm.chain_eq, chain_of_find? (AdjacencyMap.find?_of_mem hnd hp)]
  have hvis : ∀ p ∈ g.map, p.2.visited = g.isVisited p.1 :=
    fun p hp => isVisited_eq_of_find? (AdjacencyMap.find?_of_mem hnd hp)
  have hclosed : ∀ p ∈ g.map, ∀ e ∈ p.2.next, g.map.count e.label = true := by
    intro p hp e he
    rw [hm.count_eq]
    rw [hchain p hp] at he
    exact hc.chain_count p.1 e he
  obtain ⟨b1, m1, h1, _, h3, h4⟩ := scanMap_spec g g.map none INT_MAX hclosed
  have hall : ∀ u e, Frontier g0 S u e → m1 ≤ e.weight := by
    intro u e ⟨hu, he, hes⟩
    have huv : g.isVisited u = true := (hm.2.2 u).mpr hu
    obtain ⟨v, hv⟩ := AdjacencyMap.find?_isSome_of_count (isVisited_count huv)
    have hmem := AdjacencyMap.mem_of_find? hv
    refine h3 (u, v) hmem ((hvis _ hmem).trans huv) e ?_ ?_
    · rw [hchain _ hmem]; exact he
    · cases hx : g.isVisited e.label with
      | false => rfl
      | true => exact absurd ((hm.2.2 _).mp hx) hes
  rcases h4 with ⟨e1, e2⟩ | ⟨p, hp, hpv, e, he, e1, e2, e3, e4⟩
  · left
    refine ⟨?_, fun u e hf => e2 ▸ hall u e hf⟩
    simp [nextMinEdge, h1, e1, e2]
  · right
    have hpS : p.1 ∈ S := (hm.2.2 _).mp ((hvis p hp).symm.trans hpv)
    have heS : e.label ∉ S := by
      intro h
      rw [(hm.2.2 _).mpr h] at e3
      exact Bool.noConfusion e3
    have hpc : g0.map.count p.1 = true := by
      rw [← hm.count_eq]; exact isVisited_count ((hvis p hp).symm.trans hpv)
    have hec : g0.map.count e.label = true := by
      rw [← hm.count_eq]; exact hclosed p hp e he
    have hm1 : Marked g0 (g.setVisited p.1 true) S :=
      (hm.mark p.1 hpc).congr (fun l => by
        simp only [List.mem_append, List.mem_singleton]
        constructor
        · rintro (h | h)
          · exact h
          · rw [h]; exact hpS
        · exact Or.inl)
    obtain ⟨t, ht⟩ := AdjacencyMap.find?_isSome_of_count
      (show (g.setVisited p.1 true).map.count e.label = true by rw [hm1.count_eq]; exact hec)
    refine ⟨p.1, e, (g.setVisited p.1 true).setVisited e.label true,
      ⟨⟨hpS, by rw [← hchain p hp]; exact he, heS⟩, by rw [e2] at *; exact e4,
        fun u' e' hf => e2 ▸ hall u' e' hf⟩, ?_, hm1.mark e.label hec⟩
    have hne : m1 ≠ INT_MAX := by rw [e2]; exact ne_of_lt e4
    simp [nextMinEdge, h1, e1, hne, ht]

/-! ## Sums of weights -/

theorem addInt_of_range (a b : Int) (h0 : -2147483648 ≤ a + b) (h1 : a + b ≤ 2147483647) :
    addInt a b = a + b := by
  unfold addInt
  omega

theorem addInt_wrap (t w : Int) : addInt (addInt t 0) w = addInt (t + w) 0 := by
  unfold addInt
  omega

theorem foldl_addInt (c : List Edge) (t : Int) :
    c.foldl (fun s e => addInt s e.weight) (addInt t 0) =
      addInt (t + (c.map Edge.weight).sum) 0 := by
  induction c generalizing t with
  | nil => simp
  | cons e rest ih =>
    simp only [List.foldl_cons, List.map_cons, List.sum_cons]
    rw [addInt_wrap, ih, add_assoc]

theorem foldl_chains_addInt (m : AdjacencyMap) (t : Int) :
    m.foldl (fun sum p => p.2.next.foldl (fun s e => addInt s e.weight) sum) (addInt t 0) =
      addInt (t + weightTotal m) 0 := by
  induction m generalizing t with
  | nil => simp [weightTotal]
  | cons p rest ih =>
    simp only [List.foldl_cons, weightTotal, List.map_cons, List.sum_cons]
    rw [foldl_addInt, ih, add_assoc]
    rfl

/-- The running `int` total of `SumOfEdges` is the exact sum of the weights
wrapped to 32 bits. -/
theorem SumOfEdges_eq_wrap (g : Graph) : g.SumOfEdges = addInt (weightTotal g.map) 0 := by
  have h := foldl_chains_addInt g.map 0
  rw [zero_add] at h
  exact h

theorem SumOfEdges_of_range (g : Graph) (h0 : -2147483648 ≤ weightTotal g.map)
    (h1 : weightTotal g.map ≤ 2147483647) : g.SumOfEdges = weightTotal g.map := by
  rw [SumOfEdges_eq_wrap, addInt_of_range _ _ (by omega) (by omega), add_zero]

theorem weightTotal_insert (m : AdjacencyMap) (l : Label) (v : Vertex) :
    weightTotal (m.insert l v) = weightTotal m + (v.next.map Edge.weight).sum := by
  induction m with
  | nil => simp [AdjacencyMap.insert, weightTotal]
  | cons p m ih =>
    obtain ⟨k, x⟩ := p
    by_cases hlt : labelLt l k = true
    · simp only [AdjacencyMap.insert, hlt, if_true, weightTotal, List.map_cons, List.sum_cons]
      omega
    · rw [Bool.not_eq_true] at hlt
      simp only [weightTotal] at ih
      simp only [AdjacencyMap.insert, hlt, Bool.false_eq_true, if_false, weightTotal,
        List.map_cons, List.sum_cons, ih]
      omega

theorem weightTotal_set (m : AdjacencyMap) (l : Label) (v0 v : Vertex)
    (h : m.find? l = some v0) :
    weightTotal (m.set l v) =
      weightTotal m - (v0.next.map Edge.weight).sum + (v.next.map Edge.weight).sum := by
  induction m with
  | nil => simp [AdjacencyMap.find?] at h
  | cons p m ih =>
    obtain ⟨k, x⟩ := p
    by_cases hk : k = l
    · simp only [AdjacencyMap.find?, hk, if_true, Option.some.injEq] at h
      subst h
      simp only [AdjacencyMap.set, hk, if_true, weightTotal, List.map_cons, List.sum_cons]
      omega
    · simp only [AdjacencyMap.find?, hk, if_false] at h
      have := ih h
      simp only [weightTotal] at this
      simp only [AdjacencyMap.set, hk, if_false, weightTotal, List.map_cons, List.sum_cons, this]
      omega

theorem AddVertex_weightTotal (g : Graph) (l : Label) :
    weightTotal (g.AddVertex l).2.map = weightTotal g.map := by
  unfold AddVertex
  cases hc : g.map.count l with
  | true => rfl
  | false => simp [weightTotal_insert]

/-- A `Connect` that returns true raises the exact sum of the weights by the
weight of the new edge. -/
theorem Connect_weightTotal (g : Graph) (a b : Label) (w : Weight)
    (h : (g.Connect a b w).1 = true) :
    weightTotal (g.Connect a b w).2.map = weightTotal g.map + w := by
  by_cases hab : a = b
  · subst hab; rw [Connect_self] at h; exact Bool.noConfusion h
  · have hf := Connect_fst g a b w hab
    rw [h] at hf
    rw [← source_next] at hf
    obtain ⟨l1, l2, e1, e2⟩ := chainConnect_snd_of_true b w _ hf.symm
    rw [Connect_eq g a b w hab]
    simp only
    rw [weightTotal_set _ a (g.source a) _ (Connect_find?_source g a b hab),
      AddVertex_weightTotal, AddVertex_weightTotal]
    simp only [Vertex.connect, e2]
    rw [e1]
    simp only [List.map_append, List.map_cons, List.sum_append, List.sum_cons]
    omega

/-! ## Trees grown edge by edge -/

theorem treeVertices_append (o : Label) (P : List (Label × Edge)) (u : Label) (e : Edge) :
    treeVertices o (P ++ [(u, e)]) = treeVertices o P ++ [e.label] := by
  simp [treeVertices]

theorem treeOps_append (o : Label) (P : List (Label × Edge)) (u : Label) (e : Edge) :
    treeOps o (P ++ [(u, e)]) = treeOps o P ++ [.connect u e.label e.weight] := by
  simp [treeOps]

theorem treeWeight_append (P : List (Label × Edge)) (u : Label) (e : Edge) :
    treeWeight (P ++ [(u, e)]) = treeWeight P + e.weight := by
  simp [treeWeight]

theorem PrimTree.nodup {g : Graph} {o : Label} {P : List (Label × Edge)}
    (h : PrimTree g o P) : (treeVertices o P).Nodup := by
  induction h with
  | nil => simp [treeVertices]
  | snoc u e _ hf ih =>
    rw [treeVertices_append]
    refine List.Nodup.append ih (by simp) ?_
    intro x hx hx'
    rw [List.mem_singleton.mp hx'] at hx
    exact hf.2.2 hx

theorem PrimTree.edge_mem {g : Graph} {o : Label} {P : List (Label × Edge)}
    (h : PrimTree g o P) : ∀ q ∈ P, q.2 ∈ g.chain q.1 := by
  induction h with
  | nil => simp
  | snoc u e _ hf ih =>
    intro q hq
    rcases List.mem_append.mp hq with hq | hq
    · exact ih q hq
    · rw [List.mem_singleton.mp hq]; exact hf.2.1

theorem PrimTree.source_mem {g : Graph} {o : Label} {P : List (Label × Edge)}
    (h : PrimTree g o P) : ∀ q ∈ P, q.1 ∈ treeVertices o P := by
  induction h with
  | nil => simp
  | snoc u e _ hf ih =>
    intro q hq
    rw [treeVertices_append]
    rcases List.mem_append.mp hq with hq | hq
    · exact List.mem_append_left _ (ih q hq)
    · rw [List.mem_singleton.mp hq]; exact List.mem_append_left _ hf.1

theorem PrimTree.source_reach {g : Graph} {o : Label} {P : List (Label × Edge)}
    (h : PrimTree g o P) : ∀ v ∈ treeVertices o P, g.Reachable o v := by
  induction h with
  | nil =>
    intro v hv
    simp only [treeVertices, List.map_nil, List.mem_singleton] at hv
    rw [hv]; exact Relation.ReflTransGen.refl
  | snoc u e _ hf ih =>
    intro v hv
    rw [treeVertices_append] at hv
    rcases List.mem_append.mp hv with hv | hv
    · exact ih v hv
    · rw [List.mem_singleton.mp hv]
      exact Relation.ReflTransGen.tail (ih u hf.1) (List.mem_map_of_mem _ hf.2.1)

theorem PrimTree.vertices_count {g : Graph} (hc : g.Closed) {o : Label}
    (ho : g.map.count o = true) {P : List (Label × Edge)} (h : PrimTree g o P) :
    ∀ v ∈ treeVertices o P, g.map.count v = true := by
  induction h with
  | nil =>
    intro v hv
    simp only [treeVertices, List.map_nil, List.mem_singleton] at hv
    rw [hv]; exact ho
  | snoc u e _ hf ih =>
    intro v hv
    rw [treeVertices_append] at hv
    rcases List.mem_append.mp hv with hv | hv
    · exact ih v hv
    · rw [List.mem_singleton.mp hv]
      exact hc.chain_count u e hf.2.1

/-- The graph built by `treeOps` from a tree grown edge by edge has the
vertices of the tree, exactly its edges, one edge less than vertices, and the
total weight of the tree. -/
theorem PrimTree.graph {g : Graph} {o : Label} {P : List (Label × Edge)}
    (h : PrimTree g o P) :
    (∀ l, (run (treeOps o P)).map.count l = true ↔ l ∈ treeVertices o P) ∧
      (∀ u e, e ∈ (run (treeOps o P)).chain u ↔ (u, e) ∈ P) ∧
      (run (treeOps o P)).edges = P.length ∧
      weightTotal (run (treeOps o P)).map = treeWeight P := by
  induction h with
  | nil =>
    have hr : run (treeOps o []) = (empty.AddVertex o).2 := rfl
    rw [hr]
    refine ⟨?_, ?_, ?_, ?_⟩
    · intro l
      rw [AddVertex_count]
      simp [treeVertices, empty, AdjacencyMap.count]
    · intro u e
      rw [AddVertex_chain]
      simp [chain, empty, AdjacencyMap.find?]
    · rw [AddVertex_edges]; rfl
    · rw [AddVertex_weightTotal]; rfl
  | @snoc P u e hP hf ih =>
    obtain ⟨h1, h2, h3, h4⟩ := ih
    have hr : run (treeOps o (P ++ [(u, e)])) =
        ((run (treeOps o P)).Connect u e.label e.weight).2 := by
      rw [treeOps_append, run_append]; rfl
    have hne : u ≠ e.label := fun x => hf.2.2 (x ▸ hf.1)
    have hnot : e.label ∉ ((run (treeOps o P)).chain u).map Edge.label := by
      intro hx
      obtain ⟨e', he', hl⟩ := List.mem_map.mp hx
      have hmem : (u, e') ∈ P := (h2 u e').mp he'
      apply hf.2.2
      rw [← hl]
      exact List.mem_cons_of_mem _ (List.mem_map_of_mem (fun q => q.2.label) hmem)
    have hfst : ((run (treeOps o P)).Connect u e.label e.weight).1 = true := by
      rw [Connect_fst _ _ _ _ hne]
      exact (chainConnect_fst _ _ _ (targets_sorted _ (run_chainsSorted _) u)).mpr hnot
    rw [hr]
    refine ⟨?_, ?_, ?_, ?_⟩
    · intro l
      rw [Connect_count _ _ _ _ hne, treeVertices_append]
      have hu : (run (treeOps o P)).map.count u = true := (h1 u).mpr hf.1
      simp only [Bool.or_eq_true, decide_eq_true_eq, List.mem_append, List.mem_singleton, h1]
      constructor
      · rintro ((rfl | rfl) | h)
        · exact Or.inl hf.1
        · exact Or.inr rfl
        · exact Or.inl h
      · rintro (h | h)
        · exact Or.inr h
        · exact Or.inl (Or.inr h)
    · intro u' e'
      rw [Connect_chain _ _ _ _ hne]
      rw [Connect_fst _ _ _ _ hne] at hfst
      obtain ⟨l1, l2, e1, e2⟩ := chainConnect_snd_of_true _ _ _ hfst
      by_cases huu : u = u'
      · subst huu
        rw [if_pos rfl, e2]
        have hmem : e' ∈ l1 ++ l2 ↔ (u, e') ∈ P := by rw [← e1]; exact h2 u e'
        have heta : (⟨e.label, e.weight⟩ : Edge) = e := rfl
        rw [heta]
        simp only [List.mem_append, List.mem_cons, List.mem_singleton, Prod.mk.injEq, true_and,
          List.not_mem_nil, or_false]
        simp only [List.mem_append] at hmem
        constructor
        · rintro (h | h | h)
          · exact Or.inl (hmem.mp (Or.inl h))
          · exact Or.inr h
          · exact Or.inl (hmem.mp (Or.inr h))
        · rintro (h | h)
          · rcases hmem.mpr h with h | h
            · exact Or.inl h
            · exact Or.inr (Or.inr h)
          · exact Or.inr (Or.inl h)
      · rw [if_neg huu, h2]
        simp only [List.mem_append, List.mem_singleton, Prod.mk.injEq]
        constructor
        · exact Or.inl
        · rintro (h | ⟨h, _⟩)
          · exact h
          · exact absurd h.symm huu
    · rw [Connect_edges, hfst, h3]
      simp [COUNT]
    · rw [Connect_weightTotal _ _ _ _ hfst, h4, treeWeight_append]

/-! ## The loop of MinSpanningTree -/

/-- The loop of `MinSpanningTree` returns within as many rounds as there are
unvisited vertices plus one; its tree is built from a list of edges, each the
least edge leaving the tree before it; it keeps every invariant that each such
step keeps, and ends when no edge leaving the tree weighs less than
`INT_MAX`. -/
theorem mstLoop_run (g0 : Graph) (hc : g0.Closed) (hk : g0.KeysSorted) (o : Label)
    (ho : g0.map.count o = true) (Inv : List (Label × Edge) → Prop)
    (hstep : ∀ P u e, PrimTree g0 o P → Inv P → Picked g0 (treeVertices o P) u e →
      Inv (P ++ [(u, e)])) :
    ∀ (n : Nat) (g : Graph) (P : List (Label × Edge)), Marked g0 g (treeVertices o P) →
      PrimTree g0 o P → Inv P → g0.map.length + 1 ≤ n + (treeVertices o P).length →
      ∃ g1 P1, mstLoop n g (run (treeOps o P)) = some (g1.unvisitVertices, run (treeOps o P1)) ∧
        Marked g0 g1 (treeVertices o P1) ∧ PrimTree g0 o P1 ∧ Inv P1 ∧
        ∀ u e, Frontier g0 (treeVertices o P1) u e → INT_MAX ≤ e.weight := by
  intro n
  induction n with
  | zero =>
    intro g P _ hP _ hn
    have := nodup_length_le hP.nodup
      (fun x hx => (AdjacencyMap.count_iff_mem_keys _ _).mp (hP.vertices_count hc ho x hx))
    simp only [AdjacencyMap.keys, List.length_map] at this
    omega
  | succ n ih =>
    intro g P hm hP hinv hn
    rcases nextMinEdge_spec g0 hc hk g _ hm with ⟨h1, h2⟩ | ⟨u, e, g1, hpick, h1, h2⟩
    · exact ⟨g, P, by simp only [mstLoop, h1], hm, hP, hinv, h2⟩
    · rw [← treeVertices_append o P u] at h2
      obtain ⟨g2, P2, r1, r2, r3, r4, r5⟩ := ih g1 (P ++ [(u, e)]) h2
        (PrimTree.snoc u e hP hpick.1) (hstep P u e hP hinv hpick)
        (by rw [treeVertices_append, List.length_append, List.length_singleton]; omega)
      refine ⟨g2, P2, ?_, r2, r3, r4, r5⟩
      simp only [mstLoop, h1]
      rw [treeOps_append, run_append] at r1
      exact r1

/-- On a graph with the invariants of built graphs, `MinSpanningTree` from a
vertex returns with fuel for as many rounds as there are vertices; it leaves
the source graph as it was, and its result is built from a list of edges, each
the least edge leaving the tree before it, up to the point where no edge
leaving the tree weighs less than `INT_MAX`. -/
theorem MinSpanningTree_run (g0 : Graph) (hc : g0.Closed) (hk : g0.KeysSorted)
    (hu : g0.Unvisited) (o : Label) (ho : g0.map.count o = true)
    (Inv : List (Label × Edge) → Prop) (h0 : Inv [])
    (hstep : ∀ P u e, PrimTree g0 o P → Inv P → Picked g0 (treeVertices o P) u e →
      Inv (P ++ [(u, e)]))
    (fuel : Nat) (hf : g0.map.length ≤ fuel) :
    ∃ P, g0.MinSpanningTree fuel o = some (g0, run (treeOps o P)) ∧ PrimTree g0 o P ∧ Inv P ∧
      ∀ u e, Frontier g0 (treeVertices o P) u e → INT_MAX ≤ e.weight := by
  obtain ⟨v, hv⟩ := AdjacencyMap.find?_isSome_of_count ho
  have hm : Marked g0 (g0.setVisited o true) (treeVertices o []) :=
    (Marked.refl g0 hu).mark o ho
  obtain ⟨g1, P1, r1, r2, r3, r4, r5⟩ := mstLoop_run g0 hc hk o ho Inv hstep fuel _ [] hm
    PrimTree.nil h0 (by simp only [treeVertices, List.map_nil, List.length_singleton]; omega)
  refine ⟨P1, ?_, r3, r4, r5⟩
  rw [r2.unvisit_eq hu] at r1
  simp only [MinSpanningTree, hv]
  exact r1

/-- When no edge leaves the tree, the tree has every reachable vertex. -/
theorem closed_of_no_frontier {g : Graph} {o : Label} {S : List Label} (ho : o ∈ S)
    (h : ∀ u e, ¬ Frontier g S u e) : ∀ v, g.Reachable o v → v ∈ S := by
  intro v hv
  induction hv with
  | refl => exact ho
  | @tail a b _ hab ih =>
    obtain ⟨e, he, hl⟩ := List.mem_map.mp hab
    by_contra hb
    exact h a e ⟨ih, he, hl ▸ hb⟩

theorem chain_weight_below {g : Graph} (h : g.WeightsBelowMax) {u : Label} {e : Edge}
    (he : e ∈ g.chain u) : e.weight < INT_MAX := by
  obtain ⟨v, hv, hev⟩ := mem_chain_mem_map he
  exact h _ hv e hev

/-! ## The result of MinSpanningTree -/

theorem TreeStep.append {T : List (Label × Edge)} {a b : Label} (q : Label × Edge)
    (h : TreeStep T a b) : TreeStep (T ++ [q]) a b := by
  obtain ⟨x, hx, h1, h2⟩ := h
  exact ⟨x, List.mem_append_left _ hx, h1, h2⟩

/-- Every vertex of a tree grown edge by edge is reached from the origin along
edges of the tree. -/
theorem PrimTree.tree_reach {g : Graph} {o : Label} {P : List (Label × Edge)}
    (h : PrimTree g o P) : ∀ v ∈ treeVertices o P, Relation.ReflTransGen (TreeStep P) o v := by
  induction h with
  | nil =>
    intro v hv
    simp only [treeVertices, List.map_nil, List.mem_singleton] at hv
    rw [hv]
  | @snoc P u e _ hf ih =>
    intro v hv
    rw [treeVertices_append] at hv
    have hmono : ∀ x, Relation.ReflTransGen (TreeStep P) o x →
        Relation.ReflTransGen (TreeStep (P ++ [(u, e)])) o x :=
      fun x hx => Relation.ReflTransGen.mono (fun _ _ hab => hab.append (u, e)) hx
    rcases List.mem_append.mp hv with hv | hv
    · exact hmono v (ih v hv)
    · rw [List.mem_singleton.mp hv]
      exact Relation.ReflTransGen.tail (hmono u (ih u hf.1))
        ⟨(u, e), List.mem_append_right _ (List.mem_singleton.mpr rfl), rfl, rfl⟩

theorem PrimTree.graph_length {g : Graph} {o : Label} {P : List (Label × Edge)}
    (h : PrimTree g o P) : (run (treeOps o P)).map.length = P.length + 1 := by
  have hkeys : (run (treeOps o P)).map.keys.Nodup :=
    pairwise_labelLt_nodup (run_keysSorted _)
  have h1 := nodup_length_le hkeys
    (fun x hx => (h.graph.1 x).mp ((AdjacencyMap.count_iff_mem_keys _ _).mpr hx))
  have h2 := nodup_length_le h.nodup
    (fun x hx => (AdjacencyMap.count_iff_mem_keys _ _).mp ((h.graph.1 x).mpr hx))
  simp only [AdjacencyMap.keys, List.length_map, treeVertices, List.length_cons] at h1 h2
  omega

theorem PrimTree.graph_reach {g : Graph} {o : Label} {P : List (Label × Edge)}
    (h : PrimTree g o P) : ∀ v ∈ treeVertices o P, (run (treeOps o P)).Reachable o v := by
  intro v hv
  refine Relation.ReflTransGen.mono ?_ (h.tree_reach v hv)
  rintro a b ⟨q, hq, rfl, rfl⟩
  exact List.mem_map_of_mem _ ((h.graph.2.1 q.1 q.2).mpr hq)

theorem PrimTree.target_unique {g : Graph} {o : Label} {P : List (Label × Edge)}
    (h : PrimTree g o P) {q q' : Label × Edge} (hq : q ∈ P) (hq' : q' ∈ P)
    (he : q.2.label = q'.2.label) : q = q' := by
  have hn : (P.map (fun q => q.2.label)).Nodup := (List.nodup_cons.mp h.nodup).2
  exact List.inj_on_of_nodup_map hn hq hq' he

theorem PrimTree.target_ne_origin {g : Graph} {o : Label} {P : List (Label × Edge)}
    (h : PrimTree g o P) {q : Label × Edge} (hq : q ∈ P) : q.2.label ≠ o := by
  intro e
  exact (List.nodup_cons.mp h.nodup).1 (e ▸ List.mem_map_of_mem (fun q => q.2.label) hq)

/-- C16 (as stated) fails: on the graph with the single edge `A-B` of weight
`INT_MAX`, the vertex `B` is reachable from `A`, but the result of
`MinSpanningTree` from `A` has no vertex `B`. -/
theorem MinSpanningTree_skips_max_weight :
    (run maxWeightOps).HasVertex "A" = true ∧ (run maxWeightOps).Reachable "A" "B" ∧
      ∃ g1 mst, (run maxWeightOps).MinSpanningTree 2 "A" = some (g1, mst) ∧
        mst.HasVertex "B" = false := by
  have hAB : (run maxWeightOps).hasEdge "A" "B" := by decide
  refine ⟨by decide, Relation.ReflTransGen.single hAB, run maxWeightOps,
    (empty.AddVertex "A").2, by decide, by decide⟩

/-- C16 (amended): on every built graph whose edge weights are all below
`INT_MAX`, `MinSpanningTree` from an origin of the graph returns, and the
vertices of the returned graph are exactly the vertices reachable from the
origin in the source graph, the origin included. -/
theorem MinSpanningTree_vertices_reachable (ops : List Op) (o : Label)
    (ho : (run ops).HasVertex o = true) (hw : (run ops).WeightsBelowMax) (fuel : Nat)
    (hf : (run ops).map.length ≤ fuel) :
    ∃ g1 mst, (run ops).MinSpanningTree fuel o = some (g1, mst) ∧
      ∀ v, mst.HasVertex v = true ↔ (run ops).Reachable o v := by
  obtain ⟨P, h1, h2, _, h3⟩ := MinSpanningTree_run (run ops) (run_closed ops)
    (run_keysSorted ops) (run_unvisited ops) o ho (fun _ => True) trivial
    (fun _ _ _ _ _ _ => trivial) fuel hf
  refine ⟨_, _, h1, ?_⟩
  intro v
  rw [HasVertex, h2.graph.1 v]
  constructor
  · exact h2.source_reach v
  · refine closed_of_no_frontier (List.mem_cons_self _ _) ?_ v
    intro u e hfr
    exact absurd (chain_weight_below hw hfr.2.1) (not_lt.mpr (h3 u e hfr))

/-- Witness for C16 (amended): the graph `A-B:1, A-C:8, B-C:3` from `A`, where
the result has the edges `A-B:1` and `B-C:3`. -/
theorem MinSpanningTree_vertices_reachable_witness :
    (run graph0Ops).MinSpanningTree 3 "A" =
        some (run graph0Ops, run [.connect "A" "B" 1, .connect "B" "C" 3]) ∧
      ∃ g1 mst, (run graph0Ops).MinSpanningTree 3 "A" = some (g1, mst) ∧
        ∀ v, mst.HasVertex v = true ↔ (run graph0Ops).Reachable "A" v :=
  ⟨by decide,
    MinSpanningTree_vertices_reachable graph0Ops "A" (by decide) (by decide) 3 (by decide)⟩

/-- C18: on every built graph, `MinSpanningTree` from an origin of the graph
returns a tree rooted at the origin: the returned graph has the origin as a
vertex, one edge less than vertices, only edges of the source graph with their
weights, no edge into the origin, exactly one edge into every other vertex, and
every vertex reachable from the origin along its own edges. -/
theorem MinSpanningTree_is_tree (ops : List Op) (o : Label)
    (ho : (run ops).HasVertex o = true) (fuel : Nat) (hf : (run ops).map.length ≤ fuel) :
    ∃ g1 mst, (run ops).MinSpanningTree fuel o = some (g1, mst) ∧
      mst.HasVertex o = true ∧
      mst.NumberOfEdges = mst.NumberOfVertices - 1 ∧
      (∀ u e, e ∈ mst.chain u → e ∈ (run ops).chain u) ∧
      (∀ u e, e ∈ mst.chain u → e.label ≠ o) ∧
      (∀ v, mst.HasVertex v = true → v ≠ o →
        ∃ u e, e ∈ mst.chain u ∧ e.label = v ∧
          ∀ u' e', e' ∈ mst.chain u' → e'.label = v → u' = u ∧ e' = e) ∧
      (∀ v, mst.HasVertex v = true → mst.Reachable o v) := by
  obtain ⟨P, h1, h2, _, _⟩ := MinSpanningTree_run (run ops) (run_closed ops)
    (run_keysSorted ops) (run_unvisited ops) o ho (fun _ => True) trivial
    (fun _ _ _ _ _ _ => trivial) fuel hf
  obtain ⟨c1, c2, c3, _⟩ := h2.graph
  refine ⟨_, _, h1, ?_, ?_, ?_, ?_, ?_, ?_⟩
  · exact (c1 o).mpr (List.mem_cons_self _ _)
  · rw [NumberOfEdges, NumberOfVertices, c3, h2.graph_length]
    push_cast
    omega
  · intro u e he
    exact h2.edge_mem (u, e) ((c2 u e).mp he)
  · intro u e he
    exact h2.target_ne_origin ((c2 u e).mp he)
  · intro v hv hvo
    rcases List.mem_cons.mp ((c1 v).mp hv) with hv | hv
    · exact absurd hv hvo
    · obtain ⟨q, hq, hqv⟩ := List.mem_map.mp hv
      refine ⟨q.1, q.2, (c2 q.1 q.2).mpr hq, hqv, ?_⟩
      intro u' e' he' hl
      have := h2.target_unique ((c2 u' e').mp he') hq (hl.trans hqv.symm)
      exact ⟨congrArg Prod.fst this, congrArg Prod.snd this⟩
  · intro v hv
    exact h2.graph_reach v ((c1 v).mp hv)

/-- Witness for C18: the graph `A-B:1, A-C:8, B-C:3` from `A`. -/
theorem MinSpanningTree_is_tree_witness :
    ∃ g1 mst, (run graph0Ops).MinSpanningTree 3 "A" = some (g1, mst) ∧
      mst.HasVertex "A" = true ∧
      mst.NumberOfEdges = mst.NumberOfVertices - 1 ∧
      (∀ u e, e ∈ mst.chain u → e ∈ (run graph0Ops).chain u) ∧
      (∀ u e, e ∈ mst.chain u → e.label ≠ "A") ∧
      (∀ v, mst.HasVertex v = true → v ≠ "A" →
        ∃ u e, e ∈ mst.chain u ∧ e.label = v ∧
          ∀ u' e', e' ∈ mst.chain u' → e'.label = v → u' = u ∧ e' = e) ∧
      (∀ v, mst.HasVertex v = true → mst.Reachable "A" v) :=
  MinSpanningTree_is_tree graph0Ops "A" (by decide) 3 (by decide)

/-! ## The exchange step of the greedy choice -/

theorem UStep.symm {T : List (Label × Edge)} {a b : Label} (h : UStep T a b) : UStep T b a :=
  Or.symm h

theorem UStep.mono {T T1 : List (Label × Edge)} (hs : ∀ q ∈ T, q ∈ T1) {a b : Label}
    (h : UStep T a b) : UStep T1 a b := by
  rcases h with ⟨q, hq, h1, h2⟩ | ⟨q, hq, h1, h2⟩
  · exact Or.inl ⟨q, hs q hq, h1, h2⟩
  · exact Or.inr ⟨q, hs q hq, h1, h2⟩

theorem uconn_symm {T : List (Label × Edge)} {a b : Label}
    (h : Relation.ReflTransGen (UStep T) a b) : Relation.ReflTransGen (UStep T) b a := by
  induction h with
  | refl => exact Relation.ReflTransGen.refl
  | tail _ hbc ih => exact Relation.ReflTransGen.head hbc.symm ih

theorem uconn_of_tree {T : List (Label × Edge)} {a b : Label}
    (h : Relation.ReflTransGen (TreeStep T) a b) : Relation.ReflTransGen (UStep T) a b :=
  Relation.ReflTransGen.mono (fun _ _ hab => Or.inl hab) h

/-- A walk from inside `S` to outside `S` has a last edge that leaves `S`, and
stays outside `S` after it. -/
theorem last_crossing {T : List (Label × Edge)} {S : List Label} {u v : Label}
    (h : Relation.ReflTransGen (UStep T) u v) (hu : u ∈ S) (hv : v ∉ S) :
    ∃ a y, a ∈ S ∧ y ∉ S ∧ UStep T a y ∧
      Relation.ReflTransGen (fun x z => UStep T x z ∧ x ∉ S ∧ z ∉ S) y v := by
  have key : ∀ x, Relation.ReflTransGen (UStep T) x v →
      (∃ a y, a ∈ S ∧ y ∉ S ∧ UStep T a y ∧
        Relation.ReflTransGen (fun x z => UStep T x z ∧ x ∉ S ∧ z ∉ S) y v) ∨
      (x ∉ S ∧ Relation.ReflTransGen (fun x z => UStep T x z ∧ x ∉ S ∧ z ∉ S) x v) := by
    intro x hx
    induction hx using Relation.ReflTransGen.head_induction_on with
    | refl => exact Or.inr ⟨hv, Relation.ReflTransGen.refl⟩
    | @head x x1 hstep _ ih =>
      rcases ih with h | ⟨hx1, hw⟩
      · exact Or.inl h
      · by_cases hx : x ∈ S
        · exact Or.inl ⟨x, x1, hx, hx1, hstep, hw⟩
        · exact Or.inr ⟨hx, Relation.ReflTransGen.head ⟨hstep, hx, hx1⟩ hw⟩
  rcases key u h with h | ⟨h, _⟩
  · exact h
  · exact absurd hu h

theorem treeWeight_erase (T : List (Label × Edge)) (q : Label × Edge) (h : q ∈ T) :
    treeWeight (T.erase q) = treeWeight T - q.2.weight := by
  induction T with
  | nil => simp at h
  | cons x rest ih =>
    by_cases hx : x = q
    · subst hx
      simp [treeWeight]
    · have hmem : q ∈ rest := by
        rcases List.mem_cons.mp h with h | h
        · exact absurd h.symm hx
        · exact h
      have hbeq : (x == q) = false := by simpa using hx
      rw [List.erase_cons, hbeq]
      simp only [treeWeight, List.map_cons, List.sum_cons, Bool.false_eq_true, if_false] at ih ⊢
      rw [ih hmem]
      ring

theorem chain_reverse {g : Graph} (hs : g.Symmetric) {u : Label} {e : Edge}
    (he : e ∈ g.chain u) : (⟨u, e.weight⟩ : Edge) ∈ g.chain e.label := by
  obtain ⟨v, hv, hev⟩ := mem_chain_mem_map he
  exact hs _ hv e hev

/-- The exchange step: when the edges chosen so far can be completed without
loss, so can they with the least edge leaving the tree. -/
theorem Promising.exchange {g : Graph} (hs : g.Symmetric) {o : Label} {P : List (Label × Edge)}
    (hP : PrimTree g o P) (h : Promising g o P) {u : Label} {e : Edge}
    (hpick : Picked g (treeVertices o P) u e) : Promising g o (P ++ [(u, e)]) := by
  intro T hT
  obtain ⟨T1, hc1, hlen, hwt, hsub⟩ := h T hT
  by_cases hmem : (u, e) ∈ T1
  · refine ⟨T1, hc1, hlen, hwt, ?_⟩
    intro q hq
    rcases List.mem_append.mp hq with hq | hq
    · exact hsub q hq
    · rw [List.mem_singleton.mp hq]; exact hmem
  · obtain ⟨⟨huS, heg, hvS⟩, _, hmin⟩ := hpick
    have hreach : g.Reachable o e.label :=
      Relation.ReflTransGen.tail (hP.source_reach u huS) (List.mem_map_of_mem _ heg)
    have hwalk : Relation.ReflTransGen (UStep T1) u e.label :=
      Relation.ReflTransGen.trans (uconn_symm (hc1.2 u (hP.source_reach u huS)))
        (hc1.2 e.label hreach)
    obtain ⟨a, y, haS, hyS, hstep, hout⟩ := last_crossing hwalk huS hvS
    obtain ⟨f, hf, hfends, hfw⟩ : ∃ f ∈ T1,
        ((f.1 = a ∧ f.2.label = y) ∨ (f.1 = y ∧ f.2.label = a)) ∧ e.weight ≤ f.2.weight := by
      rcases hstep with ⟨f, hf, h1, h2⟩ | ⟨f, hf, h1, h2⟩
      · refine ⟨f, hf, Or.inl ⟨h1, h2⟩, hmin f.1 f.2 ⟨h1 ▸ haS, hc1.1 f hf, h2 ▸ hyS⟩⟩
      · refine ⟨f, hf, Or.inr ⟨h1, h2⟩, ?_⟩
        have hrev := chain_reverse hs (hc1.1 f hf)
        exact hmin f.2.label ⟨f.1, f.2.weight⟩ ⟨h2 ▸ haS, hrev, h1 ▸ hyS⟩
    have hfP : f ∉ P := by
      intro hfp
      have h1 := hP.source_mem f hfp
      have h2 : f.2.label ∈ treeVertices o P :=
        List.mem_cons_of_mem _ (List.mem_map_of_mem (fun q => q.2.label) hfp)
      rcases hfends with ⟨e1, e2⟩ | ⟨e1, e2⟩
      · exact hyS (e2 ▸ h2)
      · exact hyS (e1 ▸ h1)
    have hPsub : ∀ q ∈ P, q ∈ (u, e) :: T1.erase f := by
      intro q hq
      refine List.mem_cons_of_mem _ ((List.mem_erase_of_ne ?_).mpr (hsub q hq))
      intro e1
      exact hfP (e1 ▸ hq)
    have hkeep : ∀ q ∈ T1, q ≠ f → q ∈ (u, e) :: T1.erase f :=
      fun q hq hne => List.mem_cons_of_mem _ ((List.mem_erase_of_ne hne).mpr hq)
    have hPconn : ∀ x ∈ treeVertices o P,
        Relation.ReflTransGen (UStep ((u, e) :: T1.erase f)) o x := by
      intro x hx
      exact Relation.ReflTransGen.mono (fun _ _ hab => UStep.mono hPsub (Or.inl hab))
        (hP.tree_reach x hx)
    have hout1 : Relation.ReflTransGen (UStep ((u, e) :: T1.erase f)) y e.label := by
      refine Relation.ReflTransGen.mono ?_ hout
      rintro x z ⟨hxz, hx, hz⟩
      rcases hxz with ⟨q, hq, h1, h2⟩ | ⟨q, hq, h1, h2⟩
      · refine Or.inl ⟨q, hkeep q hq ?_, h1, h2⟩
        intro e1
        rw [e1] at h1 h2
        rcases hfends with ⟨e3, _⟩ | ⟨_, e4⟩
        · exact hx (h1 ▸ e3 ▸ haS)
        · exact hz (h2 ▸ e4 ▸ haS)
      · refine Or.inr ⟨q, hkeep q hq ?_, h1, h2⟩
        intro e1
        rw [e1] at h1 h2
        rcases hfends with ⟨e3, _⟩ | ⟨_, e4⟩
        · exact hz (h1 ▸ e3 ▸ haS)
        · exact hx (h2 ▸ e4 ▸ haS)
    have hnew : UStep ((u, e) :: T1.erase f) u e.label :=
      Or.inl ⟨(u, e), List.mem_cons_self _ _, rfl, rfl⟩
    have hay : Relation.ReflTransGen (UStep ((u, e) :: T1.erase f)) a y :=
      Relation.ReflTransGen.trans
        (Relation.ReflTransGen.trans (uconn_symm (hPconn a haS)) (hPconn u huS))
        (Relation.ReflTransGen.head hnew (uconn_symm hout1))
    have hstepconn : ∀ x z, UStep T1 x z →
        Relation.ReflTransGen (UStep ((u, e) :: T1.erase f)) x z := by
      have one : ∀ x z, TreeStep T1 x z →
          Relation.ReflTransGen (UStep ((u, e) :: T1.erase f)) x z := by
        rintro x z ⟨q, hq, h1, h2⟩
        by_cases hqf : q = f
        · rw [hqf] at h1 h2
          rcases hfends with ⟨e1, e2⟩ | ⟨e1, e2⟩
          · rw [← h1, ← h2, e1, e2]; exact hay
          · rw [← h1, ← h2, e1, e2]; exact uconn_symm hay
        · exact Relation.ReflTransGen.single (Or.inl ⟨q, hkeep q hq hqf, h1, h2⟩)
      intro x z hxz
      rcases hxz with h | h
      · exact one x z h
      · exact uconn_symm (one z x h)
    refine ⟨(u, e) :: T1.erase f, ⟨?_, ?_⟩, ?_, ?_, ?_⟩
    · intro q hq
      rcases List.mem_cons.mp hq with hq | hq
      · rw [hq]; exact heg
      · exact hc1.1 q (List.mem_of_mem_erase hq)
    · intro z hz
      have hw := hc1.2 z hz
      clear hz
      induction hw with
      | refl => exact Relation.ReflTransGen.refl
      | tail _ hbc ih => exact Relation.ReflTransGen.trans ih (hstepconn _ _ hbc)
    · rw [List.length_cons, List.length_erase_of_mem hf, ← hlen]
      have : 0 < T1.length := List.length_pos_of_mem hf
      omega
    · have h1 : treeWeight ((u, e) :: T1.erase f) = e.weight + treeWeight (T1.erase f) := by
        simp [treeWeight]
      rw [h1, treeWeight_erase T1 f hf]
      linarith
    · intro q hq
      rcases List.mem_append.mp hq with hq | hq
      · exact hPsub q hq
      · rw [List.mem_singleton.mp hq]; exact List.mem_cons_self _ _

/-! ## The weight of the result of MinSpanningTree -/

theorem Promising.start (g : Graph) (o : Label) : Promising g o [] :=
  fun T hT => ⟨T, hT, rfl, le_refl _, by simp⟩

theorem Reachable.count {g : Graph} (hc : g.Closed) {o v : Label} (ho : g.map.count o = true)
    (h : g.Reachable o v) : g.map.count v = true := by
  induction h with
  | refl => exact ho
  | tail _ hab _ => exact hc.targets_count _ _ hab

theorem same_length_of_same_members {l1 l2 : List Label} (h1 : l1.Nodup) (h2 : l2.Nodup)
    (h : ∀ x, x ∈ l1 ↔ x ∈ l2) : l1.length = l2.length :=
  le_antisymm (nodup_length_le h1 (fun x hx => (h x).mp hx))
    (nodup_length_le h2 (fun x hx => (h x).mpr hx))

/-- A tree grown edge by edge up to the point where no edge leaves it, which
can be completed without loss, weighs no more than any rooted spanning tree. -/
theorem PrimTree.minimal {g : Graph} {o : Label} {P : List (Label × Edge)}
    (hP : PrimTree g o P) (hprom : Promising g o P)
    (hdone : ∀ u e, ¬ Frontier g (treeVertices o P) u e) (T : List (Label × Edge))
    (hT : g.IsSpanningTree o T) : treeWeight P ≤ treeWeight T := by
  obtain ⟨t1, t2, t3, t4⟩ := hT
  obtain ⟨T1, _, hlen, hwt, hsub⟩ := hprom T ⟨t1, fun y hy => uconn_of_tree (t4 y hy)⟩
  have hPn : (P.map (fun q => q.2.label)).Nodup := (List.nodup_cons.mp hP.nodup).2
  have hmem : ∀ x, x ∈ P.map (fun q => q.2.label) ↔ x ∈ T.map (fun q => q.2.label) := by
    intro x
    rw [t3 x]
    constructor
    · intro hx
      have hx' : x ∈ treeVertices o P := List.mem_cons_of_mem _ hx
      refine ⟨hP.source_reach x hx', ?_⟩
      intro e
      exact (List.nodup_cons.mp hP.nodup).1 (e ▸ hx)
    · rintro ⟨hr, hne⟩
      rcases List.mem_cons.mp (closed_of_no_frontier (List.mem_cons_self _ _) hdone x hr)
        with h | h
      · exact absurd h hne
      · exact h
  have hlen2 : P.length = T.length := by
    have := same_length_of_same_members hPn t2 hmem
    simpa using this
  have hperm : P.Perm T1 :=
    (List.Nodup.subperm (List.Nodup.of_map _ hPn) hsub).perm_of_length_le
      (by rw [hlen, hlen2])
  have hsum : treeWeight P = treeWeight T1 :=
    (hperm.map (fun q : Label × Edge => q.2.weight)).sum_eq
  rw [hsum]
  exact hwt

/-- C17 (as stated) fails: in the directed graph `A-B:2, A-C:3, C-B:1` the
edges `A-C` and `C-B` form a spanning tree rooted at `A` of total weight `4`,
but `SumOfEdges` of the result of `MinSpanningTree` from `A` is `5`. -/
theorem MinSpanningTree_not_minimal_directed :
    (run greedyOps).HasVertex "A" = true ∧
      (run greedyOps).IsSpanningTree "A" [("A", ⟨"C", 3⟩), ("C", ⟨"B", 1⟩)] ∧
      treeWeight [("A", ⟨"C", 3⟩), ("C", ⟨"B", 1⟩)] = 4 ∧
      ∃ g1 mst, (run greedyOps).MinSpanningTree 3 "A" = some (g1, mst) ∧
        mst.SumOfEdges = 5 ∧
        ¬ mst.SumOfEdges ≤ treeWeight [("A", ⟨"C", 3⟩), ("C", ⟨"B", 1⟩)] := by
  have hAC : TreeStep [(("A" : Label), (⟨"C", 3⟩ : Edge)), ("C", ⟨"B", 1⟩)] "A" "C" :=
    ⟨("A", ⟨"C", 3⟩), by simp, rfl, rfl⟩
  have hCB : TreeStep [(("A" : Label), (⟨"C", 3⟩ : Edge)), ("C", ⟨"B", 1⟩)] "C" "B" :=
    ⟨("C", ⟨"B", 1⟩), by simp, rfl, rfl⟩
  have gAC : (run greedyOps).hasEdge "A" "C" := by decide
  have gAB : (run greedyOps).hasEdge "A" "B" := by decide
  have hkeys : ∀ v, (run greedyOps).Reachable "A" v → v = "A" ∨ v = "B" ∨ v = "C" := by
    intro v hv
    have := (AdjacencyMap.count_iff_mem_keys _ _).mp
      (Reachable.count (run_closed greedyOps) (by decide) hv)
    have hk : (run greedyOps).map.keys = ["A", "B", "C"] := by decide
    rw [hk] at this
    simpa using this
  refine ⟨by decide, ⟨by decide, by decide, ?_, ?_⟩, by decide,
    run greedyOps, run [.connect "A" "B" 2, .connect "A" "C" 3], by decide, by decide,
    by decide⟩
  · intro v
    constructor
    · intro hv
      simp only [List.map_cons, List.map_nil, List.mem_cons, List.mem_singleton,
        List.not_mem_nil, or_false] at hv
      rcases hv with rfl | rfl
      · exact ⟨Relation.ReflTransGen.single gAC, by decide⟩
      · exact ⟨Relation.ReflTransGen.single gAB, by decide⟩
    · rintro ⟨hr, hne⟩
      rcases hkeys v hr with rfl | rfl | rfl
      · exact absurd rfl hne
      · simp
      · simp
  · intro v hr
    rcases hkeys v hr with rfl | rfl | rfl
    · exact Relation.ReflTransGen.refl
    · exact Relation.ReflTransGen.tail (Relation.ReflTransGen.single hAC) hCB
    · exact Relation.ReflTransGen.single hAC

/-- C17 (amended): on every built graph that is symmetric (every edge has a
reverse edge of the same weight) and whose edge weights are all below
`INT_MAX`, `MinSpanningTree` from an origin of the graph returns a graph whose
edge weights sum to no more than the total weight of any spanning tree of the
reachable set rooted at the origin; `SumOfEdges` returns that sum, and so is
no more than the total weight of any such tree, whenever the sum is in the range
of `int`. -/
theorem MinSpanningTree_minimal_of_symmetric (ops : List Op) (o : Label)
    (ho : (run ops).HasVertex o = true) (hs : (run ops).Symmetric)
    (hw : (run ops).WeightsBelowMax) (fuel : Nat) (hf : (run ops).map.length ≤ fuel) :
    ∃ g1 mst, (run ops).MinSpanningTree fuel o = some (g1, mst) ∧
      ∀ T, (run ops).IsSpanningTree o T →
        weightTotal mst.map ≤ treeWeight T ∧
        (-2147483648 ≤ weightTotal mst.map → weightTotal mst.map ≤ 2147483647 →
          mst.SumOfEdges ≤ treeWeight T) := by
  obtain ⟨P, h1, h2, h3, h4⟩ := MinSpanningTree_run (run ops) (run_closed ops)
    (run_keysSorted ops) (run_unvisited ops) o ho (Promising (run ops) o)
    (Promising.start _ _) (fun _ _ _ hP hinv hpick => hinv.exchange hs hP hpick) fuel hf
  have hdone : ∀ u e, ¬ Frontier (run ops) (treeVertices o P) u e :=
    fun u e hfr => absurd (chain_weight_below hw hfr.2.1) (not_lt.mpr (h4 u e hfr))
  refine ⟨_, _, h1, ?_⟩
  intro T hT
  have hmin : weightTotal (run (treeOps o P)).map ≤ treeWeight T := by
    rw [h2.graph.2.2.2]
    exact h2.minimal h3 hdone T hT
  refine ⟨hmin, ?_⟩
  intro hlo hhi
  rw [SumOfEdges_of_range _ hlo hhi]
  exact hmin

/-- Witness for C17 (amended): the symmetric triangle `A-B:1, B-C:2, A-C:3`
from `A`, where the result has the edges `A-B:1` and `B-C:2` of total
weight `3`. -/
theorem MinSpanningTree_minimal_of_symmetric_witness :
    (∃ mst, (run triangleOps).MinSpanningTree 3 "A" = some (run triangleOps, mst) ∧
        mst.SumOfEdges = 3) ∧
      ∃ g1 mst, (run triangleOps).MinSpanningTree 3 "A" = some (g1, mst) ∧
        ∀ T, (run triangleOps).IsSpanningTree "A" T →
          weightTotal mst.map ≤ treeWeight T ∧
          (-2147483648 ≤ weightTotal mst.map → weightTotal mst.map ≤ 2147483647 →
            mst.SumOfEdges ≤ treeWeight T) :=
  ⟨⟨run [.connect "A" "B" 1, .connect "B" "C" 2], by decide, by decide⟩,
    MinSpanningTree_minimal_of_symmetric triangleOps "A" (by decide) (by decide) (by decide) 3
      (by decide)⟩

/-! ## Failed and undone edge operations -/

theorem AdjacencyMap.set_self {m : AdjacencyMap} {l : Label} {v : Vertex}
    (h : AdjacencyMap.find? m l = some v) : AdjacencyMap.set m l v = m := by
  induction m with
  | nil => rfl
  | cons p m ih =>
    obtain ⟨k, x⟩ := p
    by_cases hk : k = l
    · simp only [AdjacencyMap.find?, hk, if_true, Option.some.injEq] at h
      simp [AdjacencyMap.set, hk, h]
    · simp only [AdjacencyMap.find?, hk, if_false] at h
      simp [AdjacencyMap.set, hk, ih h]

theorem AdjacencyMap.length_set (m : AdjacencyMap) (l : Label) (v : Vertex) :
    (AdjacencyMap.set m l v).length = m.length := by
  induction m with
  | nil => rfl
  | cons p m ih =>
    obtain ⟨k, x⟩ := p
    by_cases hk : k = l
    · simp [AdjacencyMap.set, hk]
    · simp [AdjacencyMap.set, hk, ih]

theorem AddVertex_of_count {g : Graph} {l : Label} (h : g.map.count l = true) :
    (g.AddVertex l).2 = g := by
  simp [AddVertex, h]

theorem chain_nonempty_find? {g : Graph} {a : Label} {e : Edge} (h : e ∈ g.chain a) :
    ∃ v, g.map.find? a = some v ∧ e ∈ v.next := by
  unfold chain at h
  cases hf : g.map.find? a with
  | none => rw [hf] at h; simp at h
  | some v => rw [hf] at h; exact ⟨v, rfl, h⟩

theorem chainConnect_fst_of_not_mem (b : Label) (w : Weight) (c : List Edge)
    (h : b ∉ c.map Edge.label) : (chainConnect b w c).1 = true := by
  induction c with
  | nil => rfl
  | cons e rest ih =>
    simp only [List.map_cons, List.mem_cons, not_or] at h
    have hne : e.label ≠ b := fun x => h.1 x.symm
    by_cases h1 : labelLt e.label b = true
    · simp only [chainConnect, h1, if_true]
      exact ih h.2
    · simp [chainConnect, h1, hne]

theorem chainConnect_not_mem_left (b : Label) (w : Weight) (c : List Edge)
    (h : b ∉ c.map Edge.label) :
    ∃ l1 l2, c = l1 ++ l2 ∧ (chainConnect b w c).2 = l1 ++ ⟨b, w⟩ :: l2 ∧
      b ∉ l1.map Edge.label ∧ b ∉ l2.map Edge.label := by
  obtain ⟨l1, l2, e1, e2⟩ := chainConnect_snd_of_true b w c (chainConnect_fst_of_not_mem b w c h)
  rw [e1, List.map_append, List.mem_append, not_or] at h
  exact ⟨l1, l2, e1, e2, h.1, h.2⟩

theorem chainDisconnect_append (b : Label) (l1 l2 : List Edge) (e : Edge) (he : e.label = b)
    (h : b ∉ l1.map Edge.label) : chainDisconnect b (l1 ++ e :: l2) = (true, l1 ++ l2) := by
  induction l1 with
  | nil => simp [chainDisconnect, he]
  | cons x rest ih =>
    simp only [List.map_cons, List.mem_cons, not_or] at h
    have hne : x.label ≠ b := fun y => h.1 y.symm
    have hstep : chainDisconnect b (x :: (rest ++ e :: l2)) =
        ((chainDisconnect b (rest ++ e :: l2)).1,
          x :: (chainDisconnect b (rest ++ e :: l2)).2) := by
      simp [chainDisconnect, hne]
    rw [List.cons_append, hstep, ih h.2]
    rfl

theorem Disconnect_count (g : Graph) (a b l : Label) :
    (g.Disconnect a b).2.map.count l = g.map.count l := by
  rcases Disconnect_cases g a b with h | ⟨v, _, _, _, h⟩
  · rw [h]
  · rw [h]; exact AdjacencyMap.count_set _ _ _ _

theorem Disconnect_length (g : Graph) (a b : Label) :
    (g.Disconnect a b).2.map.length = g.map.length := by
  rcases Disconnect_cases g a b with h | ⟨v, _, _, _, h⟩
  · rw [h]
  · rw [h]; exact AdjacencyMap.length_set _ _ _

theorem Disconnect_chain_ne (g : Graph) (a b l : Label) (hl : l ≠ a) :
    (g.Disconnect a b).2.chain l = g.chain l := by
  rcases Disconnect_cases g a b with h | ⟨v, _, _, _, h⟩
  · rw [h]
  · rw [h]
    have hal : ¬ a = l := fun x => hl x.symm
    unfold chain
    simp only [AdjacencyMap.find?_set, hal, if_false]

/-- A `Disconnect` that returns true: the vertex stored under `a`, the split of
its chain around the first entry for `b`, and the graph afterwards. -/
theorem Disconnect_of_true (g : Graph) (a b : Label) (h : (g.Disconnect a b).1 = true) :
    ∃ v l1 e l2, a ≠ b ∧ g.map.find? a = some v ∧ g.map.count b = true ∧
      v.next = l1 ++ e :: l2 ∧ e.label = b ∧ b ∉ l1.map Edge.label ∧
      (g.Disconnect a b).2 =
        { map := g.map.set a { v with next := l1 ++ l2, edges := v.edges - 1 },
          edges := g.edges - COUNT } := by
  rcases Disconnect_cases g a b with h0 | ⟨v, hab, hv, hb, h0⟩
  · rw [h0] at h; exact Bool.noConfusion h
  · rw [h0] at h ⊢
    simp only [Vertex.disconnect] at h
    obtain ⟨l1, e, l2, e1, e2, e3, e4⟩ := chainDisconnect_snd_of_true b v.next h
    refine ⟨v, l1, e, l2, hab, hv, hb, e1, e2, e3, ?_⟩
    simp only [Vertex.disconnect, h, e4, if_true]

/-- A `Disconnect` that returns false leaves the graph as it was. -/
theorem Disconnect_of_false (g : Graph) (a b : Label) (h : (g.Disconnect a b).1 = false) :
    (g.Disconnect a b).2 = g := by
  rcases Disconnect_cases g a b with h0 | ⟨v, _, hv, _, h0⟩
  · rw [h0]
  · rw [h0] at h ⊢
    simp only [Vertex.disconnect] at h
    have h2 := chainDisconnect_snd_of_false b v.next h
    simp only [Vertex.disconnect, h, h2, Bool.false_eq_true, if_false, EMPTY, sub_zero]
    rw [AdjacencyMap.set_self hv]

theorem GetEdges_eq_chain (g : Graph) (l : Label) : g.GetEdges l = chainGetEdges (g.chain l) := by
  unfold GetEdges chain
  cases g.map.find? l <;> rfl

/-- C21: on every built graph that has an edge from `a` to `b` with weight
`w1`, `Connect(a,b,w2)` returns false for every `w2` and leaves the graph as
it was: the edge from `a` to `b` still has the weight `w1` and no other, and
`NumberOfEdges()`, `NumberOfEdges(a)`, `NumberOfVertices()` and every edge list
are unchanged. -/
theorem Connect_duplicate_unchanged (ops : List Op) (a b : Label) (w1 w2 : Weight)
    (h : (⟨b, w1⟩ : Edge) ∈ (run ops).chain a) :
    ((run ops).Connect a b w2).1 = false ∧ ((run ops).Connect a b w2).2 = run ops ∧
      (∀ w, (⟨b, w⟩ : Edge) ∈ ((run ops).Connect a b w2).2.chain a ↔ w = w1) ∧
      ((run ops).Connect a b w2).2.NumberOfEdges = (run ops).NumberOfEdges ∧
      ((run ops).Connect a b w2).2.NumberOfEdgesOf a = (run ops).NumberOfEdgesOf a ∧
      ((run ops).Connect a b w2).2.NumberOfVertices = (run ops).NumberOfVertices ∧
      ∀ l, ((run ops).Connect a b w2).2.chain l = (run ops).chain l ∧
        ((run ops).Connect a b w2).2.GetEdges l = (run ops).GetEdges l := by
  have hab : a ≠ b := fun x => chain_label_ne (run_noSelfLoops ops) h x.symm
  obtain ⟨v, hv, hmem⟩ := chain_nonempty_find? h
  have hca : (run ops).map.count a = true := by rw [AdjacencyMap.count_eq_isSome, hv]; rfl
  have hcb : (run ops).map.count b = true := (run_closed ops).chain_count a _ h
  have hsorted := targets_sorted _ (run_chainsSorted ops) a
  have hin : b ∈ ((run ops).chain a).map Edge.label := List.mem_map_of_mem Edge.label h
  have hfst : (chainConnect b w2 v.next).1 = false := by
    rw [← chain_of_find? hv]
    cases hx : (chainConnect b w2 ((run ops).chain a)).1 with
    | false => rfl
    | true => exact absurd hin ((chainConnect_fst b w2 _ hsorted).mp hx)
  have hsrc : (run ops).source a = v := by simp [source, hv]
  have heq : (run ops).Connect a b w2 = (false, run ops) := by
    rw [Connect_eq _ a b w2 hab, hsrc, AddVertex_of_count hca, AddVertex_of_count hcb]
    simp only [Vertex.connect, hfst, chainConnect_snd_of_false b w2 v.next hfst,
      Bool.false_eq_true, if_false, EMPTY, add_zero]
    rw [AdjacencyMap.set_self hv]
  rw [heq]
  refine ⟨rfl, rfl, ?_, rfl, rfl, rfl, fun _ => ⟨rfl, rfl⟩⟩
  intro w
  constructor
  · intro hw
    by_contra hne
    have hnd := chain_labels_nodup (run_chainsSorted ops) a
    have := List.inj_on_of_nodup_map hnd hw h rfl
    exact hne (congrArg Edge.weight this)
  · intro hw; rw [hw]; exact h

/-- Witness for C21: the graph `a -> b (10)` and a second `Connect("a","b",50)`. -/
theorem Connect_duplicate_unchanged_witness :
    (⟨"b", 10⟩ : Edge) ∈ (run [.connect "a" "b" 10]).chain "a" ∧
      ((run [.connect "a" "b" 10]).Connect "a" "b" 50).1 = false ∧
      ((run [.connect "a" "b" 10]).Connect "a" "b" 50).2 = run [.connect "a" "b" 10] :=
  ⟨by decide,
    (Connect_duplicate_unchanged [.connect "a" "b" 10] "a" "b" 10 50 (by decide)).1,
    (Connect_duplicate_unchanged [.connect "a" "b" 10] "a" "b" 10 50 (by decide)).2.1⟩

/-- C22: for every graph and labels `a`, `b`, a `Disconnect(a,b)` that returns
false leaves the graph as it was: the same vertices, the same `NumberOfEdges()`
and the same edge list for every label. -/
theorem Disconnect_false_unchanged (g : Graph) (a b : Label)
    (h : (g.Disconnect a b).1 = false) :
    (g.Disconnect a b).2 = g ∧
      (∀ l, (g.Disconnect a b).2.HasVertex l = g.HasVertex l) ∧
      (g.Disconnect a b).2.NumberOfVertices = g.NumberOfVertices ∧
      (g.Disconnect a b).2.NumberOfEdges = g.NumberOfEdges ∧
      ∀ l, (g.Disconnect a b).2.chain l = g.chain l ∧
        (g.Disconnect a b).2.GetEdges l = g.GetEdges l := by
  rw [Disconnect_of_false g a b h]
  exact ⟨rfl, fun _ => rfl, rfl, rfl, fun _ => ⟨rfl, rfl⟩⟩

/-- Witness for C22: the graph `a -> b, a -> c, a -> d` with the vertex `e`,
and `Disconnect("a","e")`. -/
theorem Disconnect_false_unchanged_witness :
    ((run [.addVertex "e", .connect "a" "b" 10, .connect "a" "d" 40,
        .connect "a" "c" 20]).Disconnect "a" "e").1 = false ∧
      ((run [.addVertex "e", .connect "a" "b" 10, .connect "a" "d" 40,
        .connect "a" "c" 20]).Disconnect "a" "e").2 =
        run [.addVertex "e", .connect "a" "b" 10, .connect "a" "d" 40, .connect "a" "c" 20] :=
  ⟨by decide, (Disconnect_false_unchanged _ "a" "e" (by decide)).1⟩

/-- C23: for every graph and labels `a ≠ b` with no edge from `a` to `b`,
`Connect(a,b,w)` followed by `Disconnect(a,b)` returns true both times and
restores `NumberOfEdges()` and the edge list of every label; the vertices
afterwards are those before together with `a` and `b`. -/
theorem Connect_Disconnect_restores (g : Graph) (a b : Label) (w : Weight) (hab : a ≠ b)
    (hno : ¬ g.hasEdge a b) :
    (g.Connect a b w).1 = true ∧ ((g.Connect a b w).2.Disconnect a b).1 = true ∧
      ((g.Connect a b w).2.Disconnect a b).2.NumberOfEdges = g.NumberOfEdges ∧
      (∀ l, ((g.Connect a b w).2.Disconnect a b).2.chain l = g.chain l ∧
        ((g.Connect a b w).2.Disconnect a b).2.GetEdges l = g.GetEdges l) ∧
      ∀ l, ((g.Connect a b w).2.Disconnect a b).2.HasVertex l =
        (decide (l = a) || decide (l = b) || g.HasVertex l) := by
  have hnot : b ∉ (g.chain a).map Edge.label := hno
  obtain ⟨l1, l2, e1, e2, e3, _⟩ := chainConnect_not_mem_left b w (g.chain a) hnot
  have hfst : (g.Connect a b w).1 = true := by
    rw [Connect_fst g a b w hab]; exact chainConnect_fst_of_not_mem b w _ hnot
  have hca : (g.Connect a b w).2.map.count a = true := by simp [Connect_count g a b w hab]
  have hcb : (g.Connect a b w).2.map.count b = true := by simp [Connect_count g a b w hab]
  obtain ⟨v, hv⟩ := AdjacencyMap.find?_isSome_of_count hca
  have hvnext : v.next = l1 ++ ⟨b, w⟩ :: l2 := by
    rw [← chain_of_find? hv, Connect_chain g a b w hab, if_pos rfl, e2]
  have hdis : chainDisconnect b v.next = (true, l1 ++ l2) := by
    rw [hvnext]; exact chainDisconnect_append b l1 l2 ⟨b, w⟩ rfl e3
  have hD := Disconnect_eq (g.Connect a b w).2 a b v hab hv hcb
  have hD1 : ((g.Connect a b w).2.Disconnect a b).1 = true := by
    rw [hD]; simp only [Vertex.disconnect, hdis]
  have hchain : ∀ l, ((g.Connect a b w).2.Disconnect a b).2.chain l = g.chain l := by
    intro l
    by_cases hl : l = a
    · rw [hl, hD]
      unfold chain
      simp only [AdjacencyMap.find?_set, if_true, hv, Option.map_some', Vertex.disconnect, hdis]
      rw [← e1]
      rfl
    · rw [Disconnect_chain_ne _ a b l hl, Connect_chain g a b w hab, if_neg (fun x => hl x.symm)]
  refine ⟨hfst, hD1, ?_, ?_, ?_⟩
  · rw [hD]
    simp only [NumberOfEdges, Vertex.disconnect, hdis, if_true, Connect_edges, hfst, COUNT]
    omega
  · intro l
    exact ⟨hchain l, by rw [GetEdges_eq_chain, GetEdges_eq_chain, hchain l]⟩
  · intro l
    simp only [HasVertex]
    rw [Disconnect_count, Connect_count g a b w hab]

/-- Witness for C23: the graph `a -> b, a -> d` and the pair `a`, `c`. -/
theorem Connect_Disconnect_restores_witness :
    (("a" : Label) ≠ "c") ∧ ¬ (run [.connect "a" "b" 10, .connect "a" "d" 40]).hasEdge "a" "c" ∧
      (((run [.connect "a" "b" 10, .connect "a" "d" 40]).Connect "a" "c" 20).2.Disconnect
        "a" "c").2.GetEdges "a" = "b(10),d(40)" := by
  have h := Connect_Disconnect_restores (run [.connect "a" "b" 10, .connect "a" "d" 40])
    "a" "c" 20 (by decide) (by decide)
  refine ⟨by decide, by decide, ?_⟩
  rw [(h.2.2.2.1 "a").2]
  decide

/-- C24: on every built graph, a `Disconnect(a,b)` that returns true removes
the entry for `b` from the edge list of `a`, which then has no entry for `b`,
and keeps the other entries in their order; it leaves the edge list of every
other label as it was, lowers `NumberOfEdges()` and `NumberOfEdges(a)` by
exactly one, and removes no vertex. -/
theorem Disconnect_true_effect (ops : List Op) (a b : Label)
    (h : ((run ops).Disconnect a b).1 = true) :
    (∃ l1 e l2, (run ops).chain a = l1 ++ e :: l2 ∧ e.label = b ∧
        ((run ops).Disconnect a b).2.chain a = l1 ++ l2 ∧
        ¬ ((run ops).Disconnect a b).2.hasEdge a b) ∧
      (∀ l, l ≠ a → ((run ops).Disconnect a b).2.chain l = (run ops).chain l) ∧
      ((run ops).Disconnect a b).2.NumberOfEdges = (run ops).NumberOfEdges - 1 ∧
      ((run ops).Disconnect a b).2.NumberOfEdgesOf a = (run ops).NumberOfEdgesOf a - 1 ∧
      ((run ops).Disconnect a b).2.NumberOfVertices = (run ops).NumberOfVertices ∧
      ∀ l, ((run ops).Disconnect a b).2.HasVertex l = (run ops).HasVertex l := by
  obtain ⟨v, l1, e, l2, _, hv, _, e1, e2, e3, hD⟩ := Disconnect_of_true (run ops) a b h
  have hca : (run ops).map.count a = true := by rw [AdjacencyMap.count_eq_isSome, hv]; rfl
  have hchain : (run ops).chain a = l1 ++ e :: l2 := by rw [chain_of_find? hv, e1]
  have hafter : ((run ops).Disconnect a b).2.chain a = l1 ++ l2 := by
    rw [hD]
    unfold chain
    simp only [AdjacencyMap.find?_set, if_true, hv, Option.map_some']
  refine ⟨⟨l1, e, l2, hchain, e2, hafter, ?_⟩, ?_, ?_, ?_, ?_, ?_⟩
  · have hnd := chain_labels_nodup (run_chainsSorted ops) a
    rw [hchain, List.map_append, List.map_cons, e2] at hnd
    have h2 : b ∉ l2.map Edge.label := by
      have := (List.nodup_append.mp hnd).2.1
      exact (List.nodup_cons.mp this).1
    show b ∉ (((run ops).Disconnect a b).2.chain a).map Edge.label
    rw [hafter, List.map_append, List.mem_append, not_or]
    exact ⟨e3, h2⟩
  · intro l hl
    exact Disconnect_chain_ne _ a b l hl
  · rw [hD]; rfl
  · rw [hD]
    simp only [NumberOfEdgesOf, AdjacencyMap.find?_set, if_true, hv, Option.map_some',
      Vertex.numOfEdges]
  · simp only [NumberOfVertices, Disconnect_length]
  · intro l
    simp only [HasVertex, Disconnect_count]

/-- Witness for C24: the graph `a -> b, a -> c, a -> d` and `Disconnect("a","c")`. -/
theorem Disconnect_true_effect_witness :
    ((run [.connect "a" "b" 10, .connect "a" "d" 40, .connect "a" "c" 20]).Disconnect
        "a" "c").1 = true ∧
      ((run [.connect "a" "b" 10, .connect "a" "d" 40, .connect "a" "c" 20]).Disconnect
        "a" "c").2.NumberOfEdges =
        (run [.connect "a" "b" 10, .connect "a" "d" 40, .connect "a" "c" 20]).NumberOfEdges - 1 :=
  ⟨by decide,
    (Disconnect_true_effect [.connect "a" "b" 10, .connect "a" "d" 40, .connect "a" "c" 20]
      "a" "c" (by decide)).2.2.1⟩

/-! ## Edge counters of the vertices -/

theorem source_counted (g : Graph) (a : Label) (h : g.Counted) :
    (g.source a).edges = (g.source a).next.length := by
  unfold source
  cases hf : g.map.find? a with
  | none => rfl
  | some v => exact h _ (AdjacencyMap.mem_of_find? hf)

theorem Vertex.connect_counted (v : Vertex) (b : Label) (w : Weight)
    (h : v.edges = v.next.length) : (v.connect b w).2.edges = (v.connect b w).2.next.length := by
  cases hc : (chainConnect b w v.next).1 with
  | true =>
    obtain ⟨l1, l2, e1, e2⟩ := chainConnect_snd_of_true b w v.next hc
    have hlen : (chainConnect b w v.next).2.length = v.next.length + 1 := by
      rw [e2, e1]
      simp only [List.length_append, List.length_cons]
      omega
    simp only [Vertex.connect, hc, if_true, h, hlen]
    push_cast
    rfl
  | false =>
    simp only [Vertex.connect, hc, Bool.false_eq_true, if_false,
      chainConnect_snd_of_false b w v.next hc, h]

theorem Vertex.disconnect_counted (v : Vertex) (b : Label) (h : v.edges = v.next.length) :
    (v.disconnect b).2.edges = (v.disconnect b).2.next.length := by
  cases hc : (chainDisconnect b v.next).1 with
  | true =>
    obtain ⟨l1, e, l2, e1, _, _, e4⟩ := chainDisconnect_snd_of_true b v.next hc
    have hlen : v.next.length = (chainDisconnect b v.next).2.length + 1 := by
      rw [e4, e1]
      simp only [List.length_append, List.length_cons]
      omega
    simp only [Vertex.disconnect, hc, if_true, h, hlen]
    push_cast
    omega
  | false =>
    simp only [Vertex.disconnect, hc, Bool.false_eq_true, if_false,
      chainDisconnect_snd_of_false b v.next hc, h]

theorem run_counted (ops : List Op) : (run ops).Counted := by
  refine run_induction _ (by decide) ?_ ops
  intro g op h
  cases op with
  | addVertex l =>
    intro p hp
    rcases AddVertex_mem hp with rfl | hp
    · rfl
    · exact h p hp
  | connect a b w =>
    by_cases hab : a = b
    · subst hab
      show ((g.Connect a a w).2).Counted
      rw [Connect_self]; exact h
    · intro p hp
      rcases Connect_mem hab hp with rfl | rfl | rfl | hp
      · exact Vertex.connect_counted _ b w (source_counted g a h)
      · rfl
      · rfl
      · exact h p hp
  | disconnect a b =>
    show ((g.Disconnect a b).2).Counted
    rcases Disconnect_cases g a b with e | ⟨v, _, hv, _, e⟩
    · rw [e]; exact h
    · rw [e]
      intro p hp
      rcases AdjacencyMap.mem_set hp with rfl | hp
      · exact Vertex.disconnect_counted v b (h _ (AdjacencyMap.mem_of_find? hv))
      · exact h p hp

/-- C25: on every built graph and for every label, `NumberOfEdges(label)`
returns `-1` exactly when the label is not a vertex, and otherwise returns the
number of entries of the edge list of the vertex, the list that
`GetEdges(label)` renders entry by entry. -/
theorem NumberOfEdgesOf_spec (ops : List Op) (label : Label) :
    ((run ops).NumberOfEdgesOf label = -1 ↔ (run ops).HasVertex label = false) ∧
      ((run ops).HasVertex label = true →
        (run ops).NumberOfEdgesOf label = ((run ops).chain label).length) ∧
      (run ops).GetEdges label = renderChain ((run ops).chain label) := by
  have hlen : ∀ v, (run ops).map.find? label = some v →
      (run ops).NumberOfEdgesOf label = ((run ops).chain label).length := by
    intro v hv
    rw [chain_of_find? hv]
    simp only [NumberOfEdgesOf, hv, Vertex.numOfEdges]
    exact run_counted ops _ (AdjacencyMap.mem_of_find? hv)
  refine ⟨?_, ?_, ?_⟩
  · cases hf : (run ops).map.find? label with
    | none =>
      have hc := (AdjacencyMap.find?_eq_none_iff _ _).mp hf
      simp [NumberOfEdgesOf, hf, HasVertex, hc, EMPTY, COUNT]
    | some v =>
      have hc : (run ops).map.count label = true := by
        rw [AdjacencyMap.count_eq_isSome, hf]; rfl
      rw [hlen v hf]
      simp only [HasVertex, hc, Bool.true_eq_false, iff_false]
      omega
  · intro hv
    obtain ⟨v, hf⟩ := AdjacencyMap.find?_isSome_of_count hv
    exact hlen v hf
  · rw [GetEdges_eq_chain, chainGetEdges_eq]

/-! ## SumOfEdges -/

/-- A `Disconnect` that returns true lowers the exact sum of the weights by
the weight of the first entry for `b` in the chain of `a`. -/
theorem Disconnect_weightTotal (g : Graph) (a b : Label) (h : (g.Disconnect a b).1 = true) :
    ∃ l1 e l2, g.chain a = l1 ++ e :: l2 ∧ e.label = b ∧ b ∉ l1.map Edge.label ∧
      weightTotal (g.Disconnect a b).2.map = weightTotal g.map - e.weight := by
  obtain ⟨v, l1, e, l2, _, hv, _, e1, e2, e3, hD⟩ := Disconnect_of_true g a b h
  refine ⟨l1, e, l2, by rw [chain_of_find? hv, e1], e2, e3, ?_⟩
  rw [hD]
  simp only
  rw [weightTotal_set _ a v _ hv, e1]
  simp only [List.map_append, List.map_cons, List.sum_append, List.sum_cons]
  omega

theorem addInt_unwrap (t w : Int) : addInt (t + w) 0 = addInt (addInt t 0) w :=
  (addInt_wrap t w).symm

/-- C26 (as stated) fails: after `Connect("A","B",2147483647)` the call
`Connect("A","C",1)` returns true, the weights of the edges then sum to
`2147483648`, but `SumOfEdges()` returns `-2147483648`, which is not the
value before raised by `1`. -/
theorem SumOfEdges_overflow :
    ((run [.connect "A" "B" 2147483647]).Connect "A" "C" 1).1 = true ∧
      weightTotal ((run [.connect "A" "B" 2147483647]).Connect "A" "C" 1).2.map = 2147483648 ∧
      ((run [.connect "A" "B" 2147483647]).Connect "A" "C" 1).2.SumOfEdges = -2147483648 ∧
      ((run [.connect "A" "B" 2147483647]).Connect "A" "C" 1).2.SumOfEdges ≠
        (run [.connect "A" "B" 2147483647]).SumOfEdges + 1 := by
  decide

/-- C26 (amended): for every graph, `SumOfEdges()` is the sum of the weights
of all edges of all vertices wrapped to the 32 bits of `int`, hence that sum
itself whenever it is in the range of `int`; a `Connect(a,b,w)` that returns
true raises the sum of the weights by exactly `w`, and a `Disconnect(a,b)`
that returns true lowers it by exactly the weight of the removed edge, the
first entry for `b` in the edge list of `a`; `SumOfEdges()` follows both
changes in 32-bit arithmetic. -/
theorem SumOfEdges_contract (g : Graph) :
    g.SumOfEdges = addInt (weightTotal g.map) 0 ∧
      (-2147483648 ≤ weightTotal g.map → weightTotal g.map ≤ 2147483647 →
        g.SumOfEdges = weightTotal g.map) ∧
      (∀ a b w, (g.Connect a b w).1 = true →
        weightTotal (g.Connect a b w).2.map = weightTotal g.map + w ∧
        (g.Connect a b w).2.SumOfEdges = addInt g.SumOfEdges w) ∧
      ∀ a b, (g.Disconnect a b).1 = true →
        ∃ l1 e l2, g.chain a = l1 ++ e :: l2 ∧ e.label = b ∧ b ∉ l1.map Edge.label ∧
          weightTotal (g.Disconnect a b).2.map = weightTotal g.map - e.weight ∧
          (g.Disconnect a b).2.SumOfEdges = addInt g.SumOfEdges (-e.weight) := by
  refine ⟨SumOfEdges_eq_wrap g, SumOfEdges_of_range g, ?_, ?_⟩
  · intro a b w h
    have hw := Connect_weightTotal g a b w h
    refine ⟨hw, ?_⟩
    rw [SumOfEdges_eq_wrap, hw, addInt_unwrap, ← SumOfEdges_eq_wrap]
  · intro a b h
    obtain ⟨l1, e, l2, h1, h2, h3, h4⟩ := Disconnect_weightTotal g a b h
    refine ⟨l1, e, l2, h1, h2, h3, h4, ?_⟩
    rw [SumOfEdges_eq_wrap, h4, sub_eq_add_neg, addInt_unwrap, ← SumOfEdges_eq_wrap]

/-! ## Traversals from a missing origin -/

/-- C27: for every graph and every label that is not a vertex of it, `DFS` and
`BFS` from that label pass no label to the visitor and return the graph as it
was, with no vertex added for the label. -/
theorem traversal_of_missing_origin (g : Graph) (label : Label)
    (h : g.HasVertex label = false) (fuel : Nat) :
    g.DFS fuel label = some (g, []) ∧ g.BFS fuel label = some (g, []) := by
  have hc : g.map.count label = false := h
  constructor
  · simp [DFS, hc]
  · simp [BFS, hc]

/-- Witness for C27: the graph `A -> B, A -> C, B -> C` and the label `X`. -/
theorem traversal_of_missing_origin_witness :
    (run graph0Ops).HasVertex "X" = false ∧
      (run graph0Ops).DFS 0 "X" = some (run graph0Ops, []) ∧
      (run graph0Ops).BFS 0 "X" = some (run graph0Ops, []) :=
  ⟨by decide, traversal_of_missing_origin (run graph0Ops) "X" (by decide) 0⟩

/-! ## Dijkstra with a negative weight -/

theorem negative_paths {v : Label} {d : Int} (h : (run negativeOps).PathWeight "A" v d) :
    (v = "A" ∧ d = 0) ∨ (v = "B" ∧ (d = 2 ∨ d = 1)) ∨ (v = "C" ∧ d = 3) := by
  induction h with
  | nil => exact Or.inl ⟨rfl, rfl⟩
  | @snoc u d e _ he ih =>
    rcases ih with ⟨rfl, rfl⟩ | ⟨rfl, _⟩ | ⟨rfl, rfl⟩
    · have hc : (run negativeOps).chain "A" = [⟨"B", 2⟩, ⟨"C", 3⟩] := by decide
      rw [hc] at he
      simp only [List.mem_cons, List.mem_singleton, List.not_mem_nil, or_false] at he
      rcases he with rfl | rfl
      · exact Or.inr (Or.inl ⟨rfl, Or.inl rfl⟩)
      · exact Or.inr (Or.inr ⟨rfl, rfl⟩)
    · have hc : (run negativeOps).chain "B" = [] := by decide
      rw [hc] at he
      simp at he
    · have hc : (run negativeOps).chain "C" = [⟨"B", -2⟩] := by decide
      rw [hc] at he
      simp only [List.mem_cons, List.mem_singleton, List.not_mem_nil, or_false] at he
      rw [he]
      exact Or.inr (Or.inl ⟨rfl, Or.inr rfl⟩)

/-- C28: the graph `A-B:2, A-C:3, C-B:-2` has an edge of negative weight, and
`Dijkstra` from its vertex `A` returns the WeightMap `{B:2, C:3}`: the entry
of `B` is `2`, strictly more than `1`, the minimum total weight of the paths
from `A` to `B`, which the path `A, C, B` has. -/
theorem Dijkstra_negative_weight_wrong :
    (⟨"B", -2⟩ : Edge) ∈ (run negativeOps).chain "C" ∧
      (run negativeOps).HasVertex "A" = true ∧
      (run negativeOps).Dijkstra 3 "A" [] [] =
        some ([("B", 2), ("C", 3)], [("B", "A"), ("C", "A")]) ∧
      (run negativeOps).IsShortest "A" "B" 1 ∧
      ∃ wMap pMap d m, (run negativeOps).Dijkstra 3 "A" [] [] = some (wMap, pMap) ∧
        ("B", d) ∈ wMap ∧ (run negativeOps).IsShortest "A" "B" m ∧ m < d := by
  have hAC : (⟨"C", 3⟩ : Edge) ∈ (run negativeOps).chain "A" := by decide
  have hCB : (⟨"B", -2⟩ : Edge) ∈ (run negativeOps).chain "C" := by decide
  have hp1 : (run negativeOps).SimplePath "A" ["C", "A"] "C" (0 + 3) :=
    SimplePath.snoc ⟨"C", 3⟩ SimplePath.nil hAC (by decide)
  have hp2 : (run negativeOps).SimplePath "A" ["B", "C", "A"] "B" (0 + 3 + -2) :=
    SimplePath.snoc ⟨"B", -2⟩ hp1 hCB (by decide)
  have hshort : (run negativeOps).IsShortest "A" "B" 1 := by
    refine ⟨⟨["B", "C", "A"], hp2⟩, ?_⟩
    intro d hd
    rcases negative_paths hd with ⟨h, _⟩ | ⟨_, rfl | rfl⟩ | ⟨h, _⟩
    · exact absurd h (by decide)
    · decide
    · decide
    · exact absurd h (by decide)
  exact ⟨hCB, by decide, by decide, hshort,
    [("B", 2), ("C", 3)], [("B", "A"), ("C", "A")], 2, 1, by decide, by decide, hshort,
    by decide⟩

/-! ## MinSpanningTree leaves the source graph as it was -/

/-- C29: on every built graph, `MinSpanningTree` from an origin of the graph
returns with every visited mark of the source graph clear and the source graph
as it was before the call, so that `DFS`, `BFS` and `MinSpanningTree` on the
graph afterwards return what they return on the graph before. -/
theorem MinSpanningTree_restores_source (ops : List Op) (o : Label)
    (ho : (run ops).HasVertex o = true) (fuel : Nat) (hf : (run ops).map.length ≤ fuel) :
    ∃ g1 mst, (run ops).MinSpanningTree fuel o = some (g1, mst) ∧ g1.Unvisited ∧
      g1 = run ops ∧ g1.MinSpanningTree fuel o = some (g1, mst) ∧
      ∀ label n, g1.DFS n label = (run ops).DFS n label ∧
        g1.BFS n label = (run ops).BFS n label ∧
        g1.MinSpanningTree n label = (run ops).MinSpanningTree n label := by
  obtain ⟨P, h1, _⟩ := MinSpanningTree_run (run ops) (run_closed ops)
    (run_keysSorted ops) (run_unvisited ops) o ho (fun _ => True) trivial
    (fun _ _ _ _ _ _ => trivial) fuel hf
  exact ⟨run ops, _, h1, run_unvisited ops, rfl, h1, fun _ _ => ⟨rfl, rfl, rfl⟩⟩

/-- Witness for C29: the graph `A -> B, A -> C, B -> C` from `A`. -/
theorem MinSpanningTree_restores_source_witness :
    (run graph0Ops).HasVertex "A" = true ∧
      ∃ g1 mst, (run graph0Ops).MinSpanningTree 3 "A" = some (g1, mst) ∧ g1.Unvisited ∧
        g1 = run graph0Ops ∧ g1.MinSpanningTree 3 "A" = some (g1, mst) ∧
        ∀ label n, g1.DFS n label = (run graph0Ops).DFS n label ∧
          g1.BFS n label = (run graph0Ops).BFS n label ∧
          g1.MinSpanningTree n label = (run graph0Ops).MinSpanningTree n label :=
  ⟨by decide, MinSpanningTree_restores_source graph0Ops "A" (by decide) 3 (by decide)⟩

/-! ## ReadFile replaces the prior content -/

theorem clear_eq_empty (g : Graph) : g.clear = empty := rfl

theorem ReadFile_eq_of_empty (g : Graph) (file : List Char) :
    g.ReadFile (some file) = empty.ReadFile (some file) := rfl

theorem ReadFile_flag (g : Graph) (file : List Char) (flag : Bool) (g1 : Graph)
    (h : g.ReadFile (some file) = some (flag, g1)) : flag = true := by
  unfold ReadFile at h
  simp only at h
  cases hx : extractFile g.clear ⟨file, true⟩ with
  | none => rw [hx] at h; exact Option.noConfusion h
  | some g2 =>
    rw [hx] at h
    exact (congrArg Prod.fst (Option.some.inj h)).symm

/-- C30: for every prior graph and every content of a file that opens,
`ReadFile` gives what it gives on the empty graph: it returns true in both
cases or in neither, and the graph afterwards has the same vertices, the same
edge list for every label, the same `NumberOfVertices()` and the same
`NumberOfEdges()` as the empty graph after reading the same file. -/
theorem ReadFile_discards_prior (g : Graph) (file : List Char) :
    g.ReadFile (some file) = empty.ReadFile (some file) ∧
      ∀ flag g1, g.ReadFile (some file) = some (flag, g1) →
        flag = true ∧
        ∃ g2, empty.ReadFile (some file) = some (true, g2) ∧
          (∀ l, g1.HasVertex l = g2.HasVertex l) ∧
          (∀ l, g1.chain l = g2.chain l ∧ g1.GetEdges l = g2.GetEdges l) ∧
          g1.NumberOfVertices = g2.NumberOfVertices ∧
          g1.NumberOfEdges = g2.NumberOfEdges := by
  refine ⟨ReadFile_eq_of_empty g file, ?_⟩
  intro flag g1 h
  have hf := ReadFile_flag g file flag g1 h
  refine ⟨hf, g1, ?_, fun _ => rfl, fun _ => ⟨rfl, rfl⟩, rfl, rfl⟩
  rw [← ReadFile_eq_of_empty g file, h, hf]

/-- Witness for C30: the file of the graph `A-B:1, A-C:8, B-C:3` read into a
graph with other content and into the empty graph. -/
theorem ReadFile_discards_prior_witness :
    (run [.connect "X" "Y" 10, .connect "A" "Z" 4]).ReadFile (some graph0File) =
        some (true, run graph0Ops) ∧
      empty.ReadFile (some graph0File) = some (true, run graph0Ops) :=
  ⟨by decide,
    (ReadFile_discards_prior (run [.connect "X" "Y" 10, .connect "A" "Z" 4]) graph0File).1 ▸
      (by decide)⟩

/-! ## Invariants of every built graph -/

/-- C33: in every graph built from the empty graph by `AddVertex`, `Connect`
and `Disconnect`, every target label of every chain is a vertex of the graph,
and no vertex has an edge to itself. -/
theorem built_targets_are_vertices (ops : List Op) :
    (∀ u e, e ∈ (run ops).chain u → (run ops).HasVertex e.label = true ∧ e.label ≠ u) ∧
      (∀ p ∈ (run ops).map, ∀ e ∈ p.2.next,
        (run ops).HasVertex e.label = true ∧ e.label ≠ p.1) ∧
      ∀ u, ¬ (run ops).hasEdge u u := by
  refine ⟨?_, ?_, ?_⟩
  · intro u e he
    exact ⟨(run_closed ops).chain_count u e he, chain_label_ne (run_noSelfLoops ops) he⟩
  · intro p hp e he
    exact ⟨run_closed ops p hp e he, run_noSelfLoops ops p hp e he⟩
  · intro u hu
    obtain ⟨e, he, hl⟩ := List.mem_map.mp hu
    exact chain_label_ne (run_noSelfLoops ops) he hl

/-! ## Bounds on the loops -/

/-- The loop of `dfs` returns within `2 * unvisited + stack + 1` rounds, and
passes to the visitor at most as many labels as it marks vertices. -/
theorem dfs_bounded (g0 : Graph) (hc : g0.Closed) :
    ∀ (n : Nat) (g : Graph) (stack out s : List Label), Marked g0 g s →
      (∀ x ∈ stack, g0.map.count x = true) →
      2 * unvisitedCount g0 s + stack.length + 1 ≤ n →
      ∃ g1 res s1, dfs n g stack out = some (g1, res) ∧ Marked g0 g1 s1 ∧
        res.length + unvisitedCount g0 s1 ≤ out.length + unvisitedCount g0 s := by
  intro n
  induction n with
  | zero => intro g stack out s _ _ h; omega
  | succ n ih =>
    intro g stack out s hm hst hn
    cases stack with
    | nil => exact ⟨g, out, s, rfl, hm, le_refl _⟩
    | cons top rest =>
      have htop := hst top (List.mem_cons_self _ _)
      have hrest : ∀ x ∈ rest, g0.map.count x = true :=
        fun x hx => hst x (List.mem_cons_of_mem _ hx)
      simp only [List.length_cons] at hn
      obtain ⟨next, g1, hnl, hcase⟩ := nextLabel_marked g0 hc g s hm top htop
      rcases hcase with ⟨hno, hm1⟩ | ⟨hns, hnk, hm1⟩
      · obtain ⟨g2, res, s2, h2, hm2, hb⟩ := ih g1 rest out s hm1 hrest (by omega)
        refine ⟨g2, res, s2, ?_, hm2, hb⟩
        simp only [dfs, hnl, hno, ne_eq, not_true_eq_false, if_false]
        exact h2
      · have hU := unvisitedCount_mark g0 s next hnk hns
        by_cases hne : next = NO_LABEL
        · obtain ⟨g2, res, s2, h2, hm2, hb⟩ := ih g1 rest out _ hm1 hrest (by omega)
          refine ⟨g2, res, s2, ?_, hm2, by omega⟩
          simp only [dfs, hnl, hne, ne_eq, not_true_eq_false, if_false]
          exact h2
        · obtain ⟨g2, res, s2, h2, hm2, hb⟩ := ih g1 (next :: top :: rest) (out ++ [next]) _
            hm1
            (fun x hx => by
              rcases List.mem_cons.mp hx with rfl | hx
              · exact hnk
              · exact hst x hx)
            (by simp only [List.length_cons]; omega)
          refine ⟨g2, res, s2, ?_, hm2, ?_⟩
          · simp only [dfs, hnl, ne_eq, hne, not_false_eq_true, if_true]
            exact h2
          · simp only [List.length_append, List.length_singleton] at hb
            omega

/-- On a graph whose edge targets are vertices and whose marks are clear,
`DFS` from a vertex returns, leaves the graph as it was, and passes at most as
many labels to the visitor as there are vertices. -/
theorem DFS_bounded (g : Graph) (hc : g.Closed) (hu : g.Unvisited) (label : Label)
    (hl : g.map.count label = true) (fuel : Nat) (hf : 2 * g.map.length + 2 ≤ fuel) :
    ∃ out, g.DFS fuel label = some (g, out) ∧ out.length ≤ g.map.length := by
  obtain ⟨g1, res, s1, h1, hm1, hb⟩ := dfs_bounded g hc fuel g [label] [] [] (Marked.refl g hu)
    (fun x hx => by rw [List.mem_singleton.mp hx]; exact hl)
    (by rw [unvisitedCount_nil]; simp only [List.length_singleton]; omega)
  refine ⟨res, by simp only [DFS, hl, if_true, h1, hm1.unvisit_eq hu], ?_⟩
  rw [unvisitedCount_nil] at hb
  simp only [List.length_nil] at hb
  omega

/-- On a graph whose edge targets are vertices and whose marks are clear,
`BFS` from a vertex returns, leaves the graph as it was, and passes at most as
many labels to the visitor as there are vertices. -/
theorem BFS_bounded (g : Graph) (hc : g.Closed) (hu : g.Unvisited) (label : Label)
    (hl : g.map.count label = true) (fuel : Nat) (hf : g.map.length + 1 ≤ fuel) :
    ∃ out, g.BFS fuel label = some (g, out) ∧ out.length ≤ g.map.length := by
  obtain ⟨res, hres⟩ := bfsLists_total g hc label hl fuel hf
  refine ⟨res, BFS_sim g hc hu label hl fuel res hres, ?_⟩
  have hn := bfsLists_nodup g hc label hl fuel res hres
  have hr := bfsLists_reach g label fuel res hres
  have := nodup_length_le hn (fun x hx =>
    (AdjacencyMap.count_iff_mem_keys _ _).mp (Reachable.count hc hl ((hr x).mp hx)))
  simpa [AdjacencyMap.keys] using this

/-- C34: on every built graph and for every origin in the graph, the loops of
`DFS`, `BFS`, `Dijkstra` and `MinSpanningTree` end: `DFS` returns within
`2 * NumberOfVertices() + 2` tests of its loop condition and `BFS` within
`NumberOfVertices() + 1`, each passing at most `NumberOfVertices()` labels to
the visitor, and the main loops of `Dijkstra` and `MinSpanningTree` return
within `NumberOfVertices()` rounds. -/
theorem loops_terminate (ops : List Op) (o : Label) (ho : (run ops).HasVertex o = true) :
    (∀ fuel, 2 * (run ops).map.length + 2 ≤ fuel →
      ∃ out, (run ops).DFS fuel o = some (run ops, out) ∧
        (out.length : Int) ≤ (run ops).NumberOfVertices) ∧
    (∀ fuel, (run ops).map.length + 1 ≤ fuel →
      ∃ out, (run ops).BFS fuel o = some (run ops, out) ∧
        (out.length : Int) ≤ (run ops).NumberOfVertices) ∧
    (∀ fuel, (run ops).map.length ≤ fuel →
      ∃ wMap pMap, (run ops).Dijkstra fuel o [] [] = some (wMap, pMap)) ∧
    (∀ fuel, (run ops).map.length ≤ fuel →
      ∃ mst, (run ops).MinSpanningTree fuel o = some (run ops, mst)) := by
  refine ⟨?_, ?_, ?_, ?_⟩
  · intro fuel hf
    obtain ⟨out, h1, h2⟩ := DFS_bounded (run ops) (run_closed ops) (run_unvisited ops) o ho
      fuel hf
    exact ⟨out, h1, by simp only [NumberOfVertices]; exact_mod_cast h2⟩
  · intro fuel hf
    obtain ⟨out, h1, h2⟩ := BFS_bounded (run ops) (run_closed ops) (run_unvisited ops) o ho
      fuel hf
    exact ⟨out, h1, by simp only [NumberOfVertices]; exact_mod_cast h2⟩
  · intro fuel hf
    obtain ⟨set, w, p, h, _⟩ := Dijkstra_shape (run ops) (run_closed ops)
      (run_chainsSorted ops) (run_noSelfLoops ops) o ho fuel hf
    exact ⟨_, _, h⟩
  · intro fuel hf
    obtain ⟨P, h, _⟩ := MinSpanningTree_run (run ops) (run_closed ops) (run_keysSorted ops)
      (run_unvisited ops) o ho (fun _ => True) trivial (fun _ _ _ _ _ _ => trivial) fuel hf
    exact ⟨_, h⟩

/-- Witness for C34: the graph `A -> B, A -> C, B -> C` from `A`, with the fuel
of the bounds. -/
theorem loops_terminate_witness :
    (run graph0Ops).HasVertex "A" = true ∧
      (run graph0Ops).DFS 8 "A" = some (run graph0Ops, ["A", "B", "C"]) ∧
      (∃ out, (run graph0Ops).BFS 4 "A" = some (run graph0Ops, out) ∧
        (out.length : Int) ≤ (run graph0Ops).NumberOfVertices) :=
  ⟨by decide, by decide, (loops_terminate graph0Ops "A" (by decide)).2.1 4 (by decide)⟩

/-! ## Lookups in the adjacency map -/

/-- C35: on every built graph, for every origin that is a vertex of the graph
and with empty output maps, `DFS`, `BFS`, `Dijkstra` and `MinSpanningTree` run
to their end without a failed lookup in the adjacency map (the result is not
`none`), and the graph afterwards is the graph before, so no entry of the map
is created; every key of the WeightMap returned is a vertex of the graph. -/
theorem lookups_hit_vertices (ops : List Op) (o : Label) (ho : (run ops).HasVertex o = true)
    (fuel : Nat) (hf : 2 * (run ops).map.length + 2 ≤ fuel) :
    (∃ g1 out, (run ops).DFS fuel o = some (g1, out) ∧ g1 = run ops ∧
      g1.NumberOfVertices = (run ops).NumberOfVertices) ∧
    (∃ g1 out, (run ops).BFS fuel o = some (g1, out) ∧ g1 = run ops ∧
      g1.NumberOfVertices = (run ops).NumberOfVertices) ∧
    (∃ wMap pMap, (run ops).Dijkstra fuel o [] [] = some (wMap, pMap) ∧
      ∀ v ∈ wMap.keys, (run ops).HasVertex v = true) ∧
    (∃ g1 mst, (run ops).MinSpanningTree fuel o = some (g1, mst) ∧ g1 = run ops ∧
      g1.NumberOfVertices = (run ops).NumberOfVertices) := by
  refine ⟨?_, ?_, ?_, ?_⟩
  · obtain ⟨out, h⟩ := DFS_total (run ops) (run_closed ops) (run_unvisited ops) o fuel hf
    exact ⟨_, out, h, rfl, rfl⟩
  · obtain ⟨out, h⟩ := BFS_total (run ops) (run_closed ops) (run_unvisited ops) o fuel
      (by omega)
    exact ⟨_, out, h, rfl, rfl⟩
  · obtain ⟨set, w, p, h, hsh, _⟩ := Dijkstra_shape (run ops) (run_closed ops)
      (run_chainsSorted ops) (run_noSelfLoops ops) o ho fuel (by omega)
    refine ⟨_, _, h, ?_⟩
    intro v hv
    obtain ⟨q, hq, hqv⟩ := List.mem_map.mp hv
    obtain ⟨hc, _⟩ := mem_cleanWeights hsh.1 hsh.2.2.1 (show (q.1, q.2) ∈ _ from hq)
    rw [hqv, hsh.2.2.1] at hc
    exact hc
  · obtain ⟨P, h, _⟩ := MinSpanningTree_run (run ops) (run_closed ops) (run_keysSorted ops)
      (run_unvisited ops) o ho (fun _ => True) trivial (fun _ _ _ _ _ _ => trivial) fuel
      (by omega)
    exact ⟨_, _, h, rfl, rfl⟩

/-- Witness for C35: the graph `A -> B, A -> C, B -> C` from `A`. -/
theorem lookups_hit_vertices_witness :
    (run graph0Ops).HasVertex "A" = true ∧
      ∃ wMap pMap, (run graph0Ops).Dijkstra 8 "A" [] [] = some (wMap, pMap) ∧
        ∀ v ∈ wMap.keys, (run graph0Ops).HasVertex v = true :=
  ⟨by decide, (lookups_hit_vertices graph0Ops "A" (by decide) 8 (by decide)).2.2.1⟩

/-! ## The key sets of the maps of Dijkstra -/

theorem Positive.nonNegative {g : Graph} (h : g.Positive) : g.NonNegative :=
  fun p hp e he => le_of_lt (h p hp e he)

theorem PathWeight.pos {g : Graph} (hp : g.Positive) {o v : Label} {d : Int}
    (h : g.PathWeight o v d) (hv : v ≠ o) : 0 < d := by
  cases h with
  | nil => exact absurd rfl hv
  | snoc e h1 he =>
    obtain ⟨x, hx, hex⟩ := mem_chain_mem_map he
    exact add_pos_of_nonneg_of_pos (h1.nonneg hp.nonNegative) (hp _ hx e hex)

theorem LabelMap.lookup_of_mem_keys {α : Type} (m : LabelMap α) (k : Label)
    (h : k ∈ LabelMap.keys m) : ∃ v, LabelMap.lookup m k = some v := by
  have hc := (LabelMap.contains_iff_mem_keys m k).mpr h
  unfold LabelMap.contains at hc
  exact Option.isSome_iff_exists.mp hc

theorem LabelMap.mem_keys_of_lookup {α : Type} (m : LabelMap α) (k : Label) (v : α)
    (h : LabelMap.lookup m k = some v) : k ∈ LabelMap.keys m := by
  refine (LabelMap.contains_iff_mem_keys m k).mp ?_
  unfold LabelMap.contains
  rw [h]; rfl

/-- The predecessor invariant is kept by one round of `dijkstra`. -/
theorem DijkstraPrev.prev_step {g : Graph} {o : Label} {set : List Label} {w : WeightMap}
    {p : PrevMap} (hd : DijkstraDist g o set w p) (hp : DijkstraPrev o set p) {k : Label}
    (hk : Chosen set w k) {curr : Vertex} {w1 : WeightMap} {p1 : PrevMap}
    (hr : Relaxed curr k set w p w1 p1) : DijkstraPrev o (set ++ [k]) p1 := by
  intro v hv hvo
  rcases hr.read_cases v with ⟨_, h2⟩ | ⟨_, _, _, _, _, _, h2⟩
  · rw [h2]
    rcases List.mem_append.mp hv with hv | hv
    · exact hp v hv hvo
    · rw [List.mem_singleton.mp hv]
      exact hd.2.2.2 k hk.1 hk.2.1 (ne_of_lt hk.2.2.1)
  · exact ⟨k, h2⟩

/-- With non-negative weights and path sums below `INT_MAX`, the maps of
`Dijkstra` before `cleanWeights` satisfy the three invariants, and every
vertex reachable from the origin is settled. -/
theorem Dijkstra_settles_reachable (g : Graph) (hc : g.Closed) (hs : g.ChainsSorted)
    (hl : g.NoSelfLoops) (hn : g.NonNegative) (o : Label) (ho : g.HasVertex o = true)
    (hb : g.PathsBelowMax o) (fuel : Nat) (hf : g.map.length ≤ fuel) :
    ∃ set w p, g.Dijkstra fuel o [] [] = some (cleanWeights g.map.keys w, p) ∧
      DijkstraShape g o set w p ∧ DijkstraDist g o set w p ∧ DijkstraPrev o set p ∧
      ∀ v, g.Reachable o v → v ∈ set := by
  obtain ⟨curr, hcurr⟩ := AdjacencyMap.find?_isSome_of_count ho
  obtain ⟨set, w, p, hrun, hinv, hfin⟩ := dijkstra_run g hl o
    (fun set w p => DijkstraShape g o set w p ∧ DijkstraDist g o set w p ∧ DijkstraPrev o set p)
    (fun _ _ _ h => h.1)
    (fun _ _ _ _ _ _ _ h hk hcu hr =>
      ⟨h.1.shape_step hk hcu hr, DijkstraDist.dist_step hc hs hl hn hb h.1 h.2.1 hk hcu hr,
        DijkstraPrev.prev_step h.2.1 h.2.2 hk hr⟩)
    fuel [o] _ _
    ⟨DijkstraShape.shape_init g hc hs hl o curr hcurr,
      DijkstraDist.dist_init g hc hs hl hn o curr hcurr,
      fun v hv hvo => absurd (List.mem_singleton.mp hv) hvo⟩
    (by simp only [List.length_singleton]; omega)
  refine ⟨set, w, p, ?_, hinv.1, hinv.2.1, hinv.2.2, ?_⟩
  · simp only [Dijkstra, hcurr, hrun]
  · intro v hv
    induction hv with
    | refl => exact hinv.1.2.2.2.1
    | @tail a b _ hab ih =>
      obtain ⟨e, he, hlab⟩ := List.mem_map.mp hab
      by_contra hbs
      have hes : e.label ∉ set := hlab ▸ hbs
      obtain ⟨l, hpath, _⟩ := hinv.2.1.extend ih he hes
      have h1 : w.read e.label ≤ w.read a + e.weight := hinv.2.1.2.1 a ih e he hes
      have h2 : w.read a + e.weight < INT_MAX := hb _ _ _ hpath
      have hcont : w.contains e.label = true := by
        rw [hinv.1.2.2.1]; exact hc.chain_count a e he
      exact absurd (lt_of_le_of_lt h1 h2) (not_lt.mpr (hfin e.label hcont hes))

/-- C37: on every built graph whose edge weights are all strictly positive
and whose paths from the origin (without repeated vertex) all weigh less than
`INT_MAX`, `Dijkstra` from an origin of the graph with empty output maps
returns a WeightMap and a PrevMap with the same keys: exactly the vertices
other than the origin that are reachable from the origin. -/
theorem Dijkstra_key_sets (ops : List Op) (o : Label) (hpos : (run ops).Positive)
    (ho : (run ops).HasVertex o = true) (hb : (run ops).PathsBelowMax o) (fuel : Nat)
    (hf : (run ops).map.length ≤ fuel) :
    ∃ wMap pMap, (run ops).Dijkstra fuel o [] [] = some (wMap, pMap) ∧
      (∀ v, v ∈ wMap.keys ↔ (run ops).Reachable o v ∧ v ≠ o) ∧
      (∀ v, v ∈ pMap.keys ↔ (run ops).Reachable o v ∧ v ≠ o) ∧
      ∀ v, v ∈ wMap.keys ↔ v ∈ pMap.keys := by
  obtain ⟨set, w, p, hrun, hsh, hd, hp, hall⟩ := Dijkstra_settles_reachable (run ops)
    (run_closed ops) (run_chainsSorted ops) (run_noSelfLoops ops) hpos.nonNegative o ho hb
    fuel hf
  obtain ⟨hclean, _⟩ := cleanWeights_spec (run ops).map.keys w hsh.1
  have hw : ∀ v, v ∈ (cleanWeights (run ops).map.keys w).keys ↔
      (run ops).Reachable o v ∧ v ≠ o := by
    intro v
    constructor
    · intro hv
      obtain ⟨q, hq, hqv⟩ := List.mem_map.mp hv
      obtain ⟨hcv, hr, hmax, h0⟩ := mem_cleanWeights hsh.1 hsh.2.2.1
        (show (q.1, q.2) ∈ _ from hq)
      rw [hqv] at hcv hr
      refine ⟨hsh.2.2.2.2.2.2.2.2 v hcv (by rw [hr]; exact hmax), ?_⟩
      intro e
      rw [e, hsh.2.2.2.2.2.2.1] at hr
      exact h0 hr.symm
    · rintro ⟨hr, hvo⟩
      have hvs := hall v hr
      obtain ⟨⟨l, hl⟩, _⟩ := hd.shortest hvs
      have hpos1 : 0 < w.read v := hl.pathWeight.pos hpos hvo
      have hlt : w.read v < INT_MAX := hb _ _ _ hl
      have hcv : w.contains v = true := by
        rw [hsh.2.2.1]; exact Reachable.count (run_closed ops) ho hr
      have hlook := hclean v
      rw [if_neg (fun h => by
        rcases h.2 with h | h
        · exact absurd h (ne_of_lt hlt)
        · exact absurd h (ne_of_gt hpos1)), LabelMap.lookup_of_contains hcv] at hlook
      exact LabelMap.mem_keys_of_lookup _ v _ hlook
  have hpk : ∀ v, v ∈ p.keys ↔ (run ops).Reachable o v ∧ v ≠ o := by
    intro v
    constructor
    · intro hv
      obtain ⟨u, hu⟩ := LabelMap.lookup_of_mem_keys p v hv
      obtain ⟨hus, e, he, hev, _⟩ := hd.2.2.1 v u hu
      obtain ⟨⟨l, hl⟩, _⟩ := hd.shortest hus
      refine ⟨hev ▸ Relation.ReflTransGen.tail hl.pathWeight.reachable
        (List.mem_map_of_mem _ he), ?_⟩
      intro e1
      rw [e1, hsh.2.2.2.2.2.2.2.1] at hu
      exact Option.noConfusion hu
    · rintro ⟨hr, hvo⟩
      obtain ⟨u, hu⟩ := hp v (hall v hr) hvo
      exact LabelMap.mem_keys_of_lookup _ v u hu
  exact ⟨_, _, hrun, hw, hpk, fun v => (hw v).trans (hpk v).symm⟩

/-- Witness for C37: the graph `A-B:1, A-C:8, B-C:3` from `A`. -/
theorem Dijkstra_key_sets_witness :
    (run graph0Ops).Positive ∧ (run graph0Ops).HasVertex "A" = true ∧
      ∃ wMap pMap, (run graph0Ops).Dijkstra 3 "A" [] [] = some (wMap, pMap) ∧
        (∀ v, v ∈ wMap.keys ↔ (run graph0Ops).Reachable "A" v ∧ v ≠ "A") ∧
        (∀ v, v ∈ pMap.keys ↔ (run graph0Ops).Reachable "A" v ∧ v ≠ "A") ∧
        ∀ v, v ∈ wMap.keys ↔ v ∈ pMap.keys :=
  ⟨by decide, by decide,
    Dijkstra_key_sets graph0Ops "A" (by decide) (by decide) graph0_pathsBelowMax 3 (by decide)⟩

/-! ## Undirected minimum spanning trees -/

theorem PrimTree.undirected {g : Graph} {o : Label} {P : List (Label × Edge)}
    (hP : PrimTree g o P) (hdone : ∀ u e, ¬ Frontier g (treeVertices o P) u e) :
    g.IsUndirectedSpanningTree o P := by
  have hclosed := closed_of_no_frontier (List.mem_cons_self o _) hdone
  refine ⟨⟨hP.edge_mem, fun y hy => uconn_of_tree (hP.tree_reach y (hclosed y hy))⟩,
    treeVertices o P, hP.nodup, fun v => ⟨hP.source_reach v, hclosed v⟩, ?_⟩
  simp [treeVertices]

theorem PrimTree.minimal_undirected {g : Graph} {o : Label} {P : List (Label × Edge)}
    (hP : PrimTree g o P) (hprom : Promising g o P)
    (hdone : ∀ u e, ¬ Frontier g (treeVertices o P) u e) (T : List (Label × Edge))
    (hT : g.IsUndirectedSpanningTree o T) : treeWeight P ≤ treeWeight T := by
  obtain ⟨hconn, R, hRn, hR, hRl⟩ := hT
  obtain ⟨T1, _, hlen, hwt, hsub⟩ := hprom T hconn
  have hclosed := closed_of_no_frontier (List.mem_cons_self o _) hdone
  have hVR : (treeVertices o P).length = R.length :=
    same_length_of_same_members hP.nodup hRn
      (fun x => ⟨fun hx => (hR x).mpr (hP.source_reach x hx), fun hx => hclosed x ((hR x).mp hx)⟩)
  have hlen2 : P.length = T.length := by
    simp only [treeVertices, List.length_cons, List.length_map] at hVR
    omega
  have hPn : (P.map (fun q => q.2.label)).Nodup := (List.nodup_cons.mp hP.nodup).2
  have hperm : P.Perm T1 :=
    (List.Nodup.subperm (List.Nodup.of_map _ hPn) hsub).perm_of_length_le
      (by rw [hlen, hlen2])
  have hsum : treeWeight P = treeWeight T1 :=
    (hperm.map (fun q : Label × Edge => q.2.weight)).sum_eq
  rw [hsum]
  exact hwt

/-- On a symmetric built graph with weights below `INT_MAX`, the edges chosen
by `MinSpanningTree` are an undirected spanning tree of the reachable set of
least total weight. -/
theorem MinSpanningTree_undirected (ops : List Op) (o : Label)
    (ho : (run ops).HasVertex o = true) (hs : (run ops).Symmetric)
    (hw : (run ops).WeightsBelowMax) (fuel : Nat) (hf : (run ops).map.length ≤ fuel) :
    ∃ mst T0, (run ops).MinSpanningTree fuel o = some (run ops, mst) ∧
      (run ops).IsUndirectedSpanningTree o T0 ∧
      (∀ u e, e ∈ mst.chain u ↔ (u, e) ∈ T0) ∧
      weightTotal mst.map = treeWeight T0 ∧
      ∀ T, (run ops).IsUndirectedSpanningTree o T → treeWeight T0 ≤ treeWeight T := by
  obtain ⟨P, h1, h2, h3, h4⟩ := MinSpanningTree_run (run ops) (run_closed ops)
    (run_keysSorted ops) (run_unvisited ops) o ho (Promising (run ops) o)
    (Promising.start _ _) (fun _ _ _ hP hinv hpick => hinv.exchange hs hP hpick) fuel hf
  have hdone : ∀ u e, ¬ Frontier (run ops) (treeVertices o P) u e :=
    fun u e hfr => absurd (chain_weight_below hw hfr.2.1) (not_lt.mpr (h4 u e hfr))
  exact ⟨_, P, h1, h2.undirected hdone, h2.graph.2.1, h2.graph.2.2.2,
    h2.minimal_undirected h3 hdone⟩

/-- C36 (as stated) fails: the symmetric path `A-B, B-C` with both weights
`2147483646` has all weights below `INT_MAX`; its undirected spanning trees
weigh at least `4294967292`, which one of them does weigh, but `SumOfEdges`
of the result of `MinSpanningTree` from `A` is `-4`. -/
theorem MinSpanningTree_sum_overflow :
    (run heavyOps).Symmetric ∧ (run heavyOps).WeightsBelowMax ∧
      (run heavyOps).HasVertex "A" = true ∧
      ∃ mst T0, (run heavyOps).MinSpanningTree 3 "A" = some (run heavyOps, mst) ∧
        (run heavyOps).IsUndirectedSpanningTree "A" T0 ∧
        treeWeight T0 = 4294967292 ∧
        (∀ T, (run heavyOps).IsUndirectedSpanningTree "A" T → treeWeight T0 ≤ treeWeight T) ∧
        mst.SumOfEdges = -4 := by
  refine ⟨by decide, by decide, by decide, ?_⟩
  obtain ⟨mst, T0, h1, h2, _, h4, h5⟩ :=
    MinSpanningTree_undirected heavyOps "A" (by decide) (by decide) (by decide) 3 (by decide)
  have hev : (run heavyOps).MinSpanningTree 3 "A" =
      some (run heavyOps,
        run [.connect "A" "B" 2147483646, .connect "B" "C" 2147483646]) := by decide
  have hm : mst = run [.connect "A" "B" 2147483646, .connect "B" "C" 2147483646] := by
    rw [hev] at h1
    simp only [Option.some.injEq, Prod.mk.injEq, true_and] at h1
    exact h1.symm
  refine ⟨mst, T0, h1, h2, ?_, h5, ?_⟩
  · rw [← h4, hm]; decide
  · rw [hm]; decide

/-- C36 (amended): on every symmetric built graph whose edge weights are all
below `INT_MAX`, `MinSpanningTree` from an origin of the graph returns a graph
whose edges are an undirected spanning tree of the set reachable from the
origin, of the least total weight among such trees; `SumOfEdges` of the
result equals that minimum whenever the minimum is in the range of `int`. -/
theorem MinSpanningTree_minimum_undirected (ops : List Op) (o : Label)
    (ho : (run ops).HasVertex o = true) (hs : (run ops).Symmetric)
    (hw : (run ops).WeightsBelowMax) (fuel : Nat) (hf : (run ops).map.length ≤ fuel) :
    ∃ mst T0, (run ops).MinSpanningTree fuel o = some (run ops, mst) ∧
      (run ops).IsUndirectedSpanningTree o T0 ∧
      (∀ u e, e ∈ mst.chain u ↔ (u, e) ∈ T0) ∧
      (∀ T, (run ops).IsUndirectedSpanningTree o T → treeWeight T0 ≤ treeWeight T) ∧
      (-2147483648 ≤ treeWeight T0 → treeWeight T0 ≤ 2147483647 →
        mst.SumOfEdges = treeWeight T0) := by
  obtain ⟨mst, T0, h1, h2, h3, h4, h5⟩ := MinSpanningTree_undirected ops o ho hs hw fuel hf
  refine ⟨mst, T0, h1, h2, h3, h5, ?_⟩
  intro hlo hhi
  rw [← h4] at hlo hhi ⊢
  exact SumOfEdges_of_range _ hlo hhi

/-- Witness for C36 (amended): the symmetric triangle `A-B:1, B-C:2, A-C:3`
from `A`, where the result has the edges `A-B:1` and `B-C:2` and `SumOfEdges`
is `3`. -/
theorem MinSpanningTree_minimum_undirected_witness :
    (∃ mst, (run triangleOps).MinSpanningTree 3 "A" = some (run triangleOps, mst) ∧
        mst.SumOfEdges = 3) ∧
      ∃ mst T0, (run triangleOps).MinSpanningTree 3 "A" = some (run triangleOps, mst) ∧
        (run triangleOps).IsUndirectedSpanningTree "A" T0 ∧
        (∀ u e, e ∈ mst.chain u ↔ (u, e) ∈ T0) ∧
        (∀ T, (run triangleOps).IsUndirectedSpanningTree "A" T →
          treeWeight T0 ≤ treeWeight T) ∧
        (-2147483648 ≤ treeWeight T0 → treeWeight T0 ≤ 2147483647 →
          mst.SumOfEdges = treeWeight T0) :=
  ⟨⟨run [.connect "A" "B" 1, .connect "B" "C" 2], by decide, by decide⟩,
    MinSpanningTree_minimum_undirected triangleOps "A" (by decide) (by decide) (by decide) 3
      (by decide)⟩

/-! ## File records and copies -/

/-- C31 (failing input): on the file `1\nAB CD 5\n`, whose one record has the
labels `AB` and `CD`, `ReadFile` extracts the characters `A` and `B` as the
labels, fails to extract a weight from `CD` and calls `Connect("A", "B", 0)`,
which is not the graph of `Connect("AB", "CD", 5)`. -/
theorem ReadFile_splits_long_labels :
    ReadFile empty (some longLabelFile) = some (true, run [.connect "A" "B" 0]) ∧
      run [.connect "A" "B" 0] ≠ run [.connect "AB" "CD" 5] := by
  decide

/-- C32 (failing input): copying the graph built by `Connect("A", "B", 1)` stores
through the null pointer that `map["A"]` inserted, so no copy is produced;
copying the graph with the single vertex `A` binds `A` to the null pointer,
which `GetEdges("A")` on the copy dereferences. -/
theorem copy_stores_through_null :
    assign empty (run [.connect "A" "B" 1]) = none ∧
      assign empty (run [.addVertex "A"]) = some (0, [("A", none)]) ∧
      PointerMap.GetEdges [("A", none)] "A" = none := by
  decide

end Graph
